import Mathlib

/-!
# Dungeon layout generator: a verification development

A shallow embedding of the layout core of `DungeonGenerator.cpp` /
`DungeonGenerator.h` (grid, room placement, complete room graph, Kruskal with
union-find, A* corridor search, corridor carving, door detection, the final
pass and the generation run), followed by theorems about it.

Conventions of the embedding.

* `TArray<T>` is a `List T`.  An access `A[i]` outside the array is a failed
  range check in the source; here every function that can make such an access
  returns an `Option` and answers `none` there.
* `int32` cell tags, coordinates and sizes are `Int`; array indices that the
  source only ever produces from loop counters (room indices, union-find
  entries) are `Nat`.  A grid is an array of `Width * Height` cells, so every
  index expression of the source stays within `int32` for any grid that a
  `TArray` can hold.  The one product the source computes before a grid exists,
  `Width * Height` in `InitializeGrid`, is taken modulo `2^32` (`WrapInt32`).
* Loops whose termination is not syntactically evident (`Find`, the main loop
  of `FindPath`, the predecessor walk) carry a fuel argument counting loop
  iterations and answer `none` when it runs out; the theorems show that the
  fuel the callers pass is enough.
* Engine functions that are not part of the repository are parameters:
  `Dist` stands for `FVector::Dist`, `ArraySort` for `TArray::Sort` (given the
  strict comparison it is called with), `Rand` for the random source behind
  `FMath::RandRange` and `FMath::RandBool`.
-/

namespace Dungeon

/-! ## Data model (`DungeonGenerator.h`) -/

/-- A grid coordinate: an `FVector` with integral `X`, `Y` and `Z = 0`, as
produced by `FRoom`'s constructor and by `GetNeighbors`. -/
abbrev Pos := Int × Int

/-- The record `FRoom`; `mk` stores the fields, `FRoom.new` is the constructor
of the source. -/
structure FRoom where
  StartX : Int
  StartY : Int
  Width : Int
  Height : Int
  EntryPoint : Pos
  ExitPoint : Pos
deriving DecidableEq

/-- Integer division of C++ (`/` on `int32`) truncates toward zero. -/
def cdiv (a b : Int) : Int := Int.tdiv a b

/-- The constructor `FRoom(x, y, w, h)`: entry and exit point are both
`(x + (w - 1)/2, y + (h - 1)/2)`. -/
def FRoom.new (x y w h : Int) : FRoom :=
  { StartX := x, StartY := y, Width := w, Height := h,
    EntryPoint := (x + cdiv (w - 1) 2, y + cdiv (h - 1) 2),
    ExitPoint := (x + cdiv (w - 1) 2, y + cdiv (h - 1) 2) }

/-- The record `FRoomConnection`; `D` is the type of the `float` distance. -/
structure FRoomConnection (D : Type) where
  RoomIndexA : Nat
  RoomIndexB : Nat
  Distance : D

/-- The record `FAStarNode`.  Nodes are heap objects owned by `AllNodes`, one
per position, so the pointer `CameFrom` is the position of the node it points
to (`none` for `nullptr`).  `GCost` only ever holds `0` plus a number of unit
steps (`(CurrentNode->Position - Neighbor).Size()` is the length of one of the
four unit directions), so it is a natural number. -/
structure FAStarNode (D : Type) where
  Position : Pos
  GCost : Nat
  HCost : D
  CameFrom : Option Pos

/-! ## Union-find (`Find`, `Union`) -/

/-- The loop of `Find`: `while (Parent[i] != i) { Parent[i] = Parent[Parent[i]];
i = Parent[i]; }`, with fuel for the number of times the condition is
evaluated.  Returns the root together with the compressed array. -/
def FindLoop : Nat → Nat → List Nat → Option (Nat × List Nat)
  | 0, _, _ => none
  | fuel + 1, i, Parent =>
    match Parent[i]? with
    | none => none
    | some p =>
      if p = i then some (i, Parent)
      else
        match Parent[p]? with
        | none => none
        | some pp => FindLoop fuel pp (Parent.set i pp)

/-- The function `Find(i, Parent)`.  The fuel is the length of the array. -/
def Find (i : Nat) (Parent : List Nat) : Option (Nat × List Nat) :=
  FindLoop Parent.length i Parent

/-- The function `Union(a, b, Parent, Rank)`: union by rank of the two roots. -/
def Union (a b : Nat) (Parent Rank : List Nat) : Option (List Nat × List Nat) :=
  match Find a Parent with
  | none => none
  | some (rootA, Parent1) =>
    match Find b Parent1 with
    | none => none
    | some (rootB, Parent2) =>
      if rootA ≠ rootB then
        match Rank[rootA]?, Rank[rootB]? with
        | some rA, some rB =>
          if rA < rB then some (Parent2.set rootA rootB, Rank)
          else if rA > rB then some (Parent2.set rootB rootA, Rank)
          else some (Parent2.set rootB rootA, Rank.set rootA (rA + 1))
        | _, _ => none
      else some (Parent2, Rank)

/-- A finite sequence of `Union` calls, threaded through the two arrays. -/
def UnionSeq : List (Nat × Nat) → List Nat → List Nat → Option (List Nat × List Nat)
  | [], Parent, Rank => some (Parent, Rank)
  | (a, b) :: rest, Parent, Rank =>
    match Union a b Parent Rank with
    | none => none
    | some (Parent1, Rank1) => UnionSeq rest Parent1 Rank1

/-! ## Union-find: the forest invariant -/

/-- Entry `i` of an array of naturals, `0` outside it (only used inside the
array). -/
def at0 (l : List Nat) (i : Nat) : Nat := l.getD i 0

/-- The invariant of the disjoint-set forest over `n` elements: parents stay in
range, ranks strictly increase towards the root, and `rep` names the root of
every element. -/
structure UFInv (n : Nat) (Parent Rank : List Nat) (rep : Nat → Nat) : Prop where
  lenP : Parent.length = n
  lenR : Rank.length = n
  parent_lt : ∀ i, i < n → at0 Parent i < n
  rank_lt : ∀ i, i < n → at0 Parent i ≠ i → at0 Rank i < at0 Rank (at0 Parent i)
  rep_lt : ∀ i, i < n → rep i < n
  rep_root : ∀ i, i < n → at0 Parent (rep i) = rep i
  rep_parent : ∀ i, i < n → rep (at0 Parent i) = rep i
  root_rep : ∀ i, i < n → at0 Parent i = i → rep i = i

/-- Number of elements of rank above that of `i`: it bounds the length of the
parent chain from `i`. -/
def above (n : Nat) (Rank : List Nat) (i : Nat) : Nat :=
  ((Finset.range n).filter (fun j => at0 Rank i < at0 Rank j)).card

/-! ## The complete room graph and Kruskal (`GenerateAllRoomConnections`, `KruskalsMST`) -/

/-- The type of the engine's `TArray::Sort`, called with a strict comparison. -/
abbrev SortFn := {α : Type} → (α → α → Bool) → List α → List α

/-- The rectangle center of `GenerateAllRoomConnections`:
`(StartX + Width / 2.0f, StartY + Height / 2.0f)`, a point with half-integral
coordinates. -/
def Center (Room : FRoom) : ℚ × ℚ :=
  ((Room.StartX : ℚ) + (Room.Width : ℚ) / 2, (Room.StartY : ℚ) + (Room.Height : ℚ) / 2)

/-- The two nested loops of `GenerateAllRoomConnections`, before the sort: one
connection for every `i < j`, in generation order. -/
def AllPairs {D : Type} (Dist : ℚ × ℚ → ℚ × ℚ → D) (Rooms : List FRoom) :
    List (FRoomConnection D) :=
  (List.range Rooms.length).flatMap fun i =>
    (List.range' (i + 1) (Rooms.length - (i + 1))).flatMap fun j =>
      match Rooms[i]?, Rooms[j]? with
      | some RoomA, some RoomB => [⟨i, j, Dist (Center RoomA) (Center RoomB)⟩]
      | _, _ => []

/-- The operator `FRoomConnection::operator<`: comparison of the distances. -/
def FRoomConnection.lt {D : Type} [LinearOrder D] (a b : FRoomConnection D) : Bool :=
  decide (a.Distance < b.Distance)

/-- The function `GenerateAllRoomConnections`: all pairs, then `OutConnections.Sort()`. -/
def GenerateAllRoomConnections {D : Type} [LinearOrder D] (Dist : ℚ × ℚ → ℚ × ℚ → D)
    (ArraySort : SortFn) (Rooms : List FRoom) : List (FRoomConnection D) :=
  ArraySort FRoomConnection.lt (AllPairs Dist Rooms)

/-- The edge loop of `KruskalsMST` over the sorted connections: `M` is
`Rooms.Num()`.  In `Find(A) != Find(B)` the left call is made first (either
order returns the same two roots). -/
def KruskalLoop {D : Type} (M : Nat) :
    List (FRoomConnection D) → List Nat → List Nat → List (FRoomConnection D) →
      Option (List (FRoomConnection D))
  | [], _, _, MST => some MST
  | Conn :: rest, Parent, Rank, MST =>
    match Find Conn.RoomIndexA Parent with
    | none => none
    | some (rootA, Parent1) =>
      match Find Conn.RoomIndexB Parent1 with
      | none => none
      | some (rootB, Parent2) =>
        if rootA ≠ rootB then
          match Union Conn.RoomIndexA Conn.RoomIndexB Parent2 Rank with
          | none => none
          | some (Parent3, Rank3) =>
            if ((MST ++ [Conn]).length : Int) = (M : Int) - 1 then some (MST ++ [Conn])
            else KruskalLoop M rest Parent3 Rank3 (MST ++ [Conn])
        else KruskalLoop M rest Parent2 Rank MST

/-- The function `KruskalsMST`: `Parent[i] = i`, `Rank[i] = 0`, then the edge loop. -/
def KruskalsMST {D : Type} [LinearOrder D] (Dist : ℚ × ℚ → ℚ × ℚ → D) (ArraySort : SortFn)
    (Rooms : List FRoom) : Option (List (FRoomConnection D)) :=
  KruskalLoop Rooms.length (GenerateAllRoomConnections Dist ArraySort Rooms)
    (List.range Rooms.length) (List.replicate Rooms.length 0) []

/-! ## The grid and the room placer (`InitializeGrid`, `CanPlaceRoom`, `PlaceRoom`,
`PlaceMultipleRooms`) -/

/-- The read `Grid[Index]`; `none` outside `[0, Grid.Num())`. -/
def GridGet (Grid : List Int) (Index : Int) : Option Int :=
  if 0 ≤ Index ∧ Index < Grid.length then Grid[Index.toNat]? else none

/-- The write `Grid[Index] = Value`; `none` outside `[0, Grid.Num())`. -/
def GridSet (Grid : List Int) (Index : Int) (Value : Int) : Option (List Int) :=
  if 0 ≤ Index ∧ Index < Grid.length then some (Grid.set Index.toNat Value) else none

/-- The `int32` that holds the result of an `int32` operation whose exact value is `a`:
the value of `a` modulo `2^32` in `[-2^31, 2^31)`. -/
def WrapInt32 (a : Int) : Int := (a + 2147483648) % 4294967296 - 2147483648

/-- The function `InitializeGrid`: `Grid.SetNum(Width * Height)` and every cell set to `0`,
whatever the grid held before.  The product is an `int32` product; a negative size is
not a size. -/
def InitializeGrid (Width Height : Int) : Option (List Int) :=
  if 0 ≤ WrapInt32 (Width * Height) then
    some (List.replicate (WrapInt32 (Width * Height)).toNat 0)
  else none

/-- The cells `(X, Y)` visited by the two nested loops
`for Y in [StartY, StartY + RoomHeight)`, `for X in [StartX, StartX + RoomWidth)`
of `CanPlaceRoom` and `PlaceRoom`, in loop order. -/
def RectCells (StartX StartY RoomWidth RoomHeight : Int) : List Pos :=
  (List.range RoomHeight.toNat).flatMap fun (dy : Nat) =>
    (List.range RoomWidth.toNat).map fun (dx : Nat) => (StartX + (dx : Int), StartY + (dy : Int))

/-- The body of `CanPlaceRoom` over the visited cells: the first cell whose tag
is not `0` answers `false`. -/
def CanPlaceRoomLoop (Width : Int) (Grid : List Int) : List Pos → Option Bool
  | [] => some true
  | (X, Y) :: rest =>
    match GridGet Grid (Y * Width + X) with
    | none => none
    | some v => if v ≠ 0 then some false else CanPlaceRoomLoop Width Grid rest

/-- The function `CanPlaceRoom(StartX, StartY, RoomWidth, RoomHeight)`. -/
def CanPlaceRoom (Width : Int) (Grid : List Int) (StartX StartY RoomWidth RoomHeight : Int) :
    Option Bool :=
  CanPlaceRoomLoop Width Grid (RectCells StartX StartY RoomWidth RoomHeight)

/-- The loops of `PlaceRoom`: `Grid[Y * Width + X] = 1` for every visited cell. -/
def PlaceRoomLoop (Width : Int) : List Int → List Pos → Option (List Int)
  | Grid, [] => some Grid
  | Grid, (X, Y) :: rest =>
    match GridSet Grid (Y * Width + X) 1 with
    | none => none
    | some Grid1 => PlaceRoomLoop Width Grid1 rest

/-- The function `PlaceRoom(StartX, StartY, RoomWidth, RoomHeight)`: mark the cells, then
`Rooms.Add(FRoom(...))`. -/
def PlaceRoom (Width : Int) (Grid : List Int) (Rooms : List FRoom)
    (StartX StartY RoomWidth RoomHeight : Int) : Option (List Int × List FRoom) :=
  match PlaceRoomLoop Width Grid (RectCells StartX StartY RoomWidth RoomHeight) with
  | none => none
  | some Grid1 => some (Grid1, Rooms ++ [FRoom.new StartX StartY RoomWidth RoomHeight])

/-- The random source: `Rand k Min Max` is what the `k`-th call of
`FMath::RandRange(Min, Max)` of the run returns. -/
abbrev RandFn := Nat → Int → Int → Int

/-- The `while (!bPlaced && Attempt < MaxAttempts)` loop for one room; the first
argument is `MaxAttempts - Attempt`, the second the number of random draws made
so far. -/
def PlaceOneRoom (Rand : RandFn) (Width Height : Int) :
    Nat → Nat → List Int → List FRoom → Option (Nat × List Int × List FRoom)
  | 0, k, Grid, Rooms => some (k, Grid, Rooms)
  | left + 1, k, Grid, Rooms =>
    let RoomWidth := Rand k 4 5
    let RoomHeight := Rand (k + 1) 4 5
    let StartX := Rand (k + 2) 0 (Width - RoomWidth)
    let StartY := Rand (k + 3) 0 (Height - RoomHeight)
    match CanPlaceRoom Width Grid StartX StartY RoomWidth RoomHeight with
    | none => none
    | some true =>
      match PlaceRoom Width Grid Rooms StartX StartY RoomWidth RoomHeight with
      | none => none
      | some (Grid1, Rooms1) => some (k + 4, Grid1, Rooms1)
    | some false => PlaceOneRoom Rand Width Height left (k + 4) Grid Rooms

/-- The `for (i = 0; i < NumberOfRooms; i++)` loop of `PlaceMultipleRooms`; the
first argument is the number of rooms still to be tried. -/
def PlaceRoomsLoop (Rand : RandFn) (Width Height : Int) :
    Nat → Nat → List Int → List FRoom → Option (Nat × List Int × List FRoom)
  | 0, k, Grid, Rooms => some (k, Grid, Rooms)
  | todo + 1, k, Grid, Rooms =>
    match PlaceOneRoom Rand Width Height 100 k Grid Rooms with
    | none => none
    | some (k1, Grid1, Rooms1) => PlaceRoomsLoop Rand Width Height todo k1 Grid1 Rooms1

/-- The function `PlaceMultipleRooms(NumberOfRooms)` with `MaxAttempts = 100`, from draw
number `k`; returns the number of draws made, the grid and the rooms. -/
def PlaceMultipleRooms (Rand : RandFn) (Width Height : Int) (NumberOfRooms : Int) (k : Nat)
    (Grid : List Int) (Rooms : List FRoom) : Option (Nat × List Int × List FRoom) :=
  PlaceRoomsLoop Rand Width Height NumberOfRooms.toNat k Grid Rooms

/-! ## The corridor pathfinder (`IsInRoom`, `IsWalkable`, `GetNeighbors`, `FindPath`) -/

/-- The function `IsInRoom(Position, RoomPosition)`: true when `Position` lies in the
rectangle of some room of `Rooms`; the source does not use `RoomPosition`. -/
def IsInRoom (Rooms : List FRoom) (Position _RoomPosition : Pos) : Bool :=
  Rooms.any fun Room =>
    decide (Position.1 ≥ Room.StartX ∧ Position.1 < Room.StartX + Room.Width ∧
      Position.2 ≥ Room.StartY ∧ Position.2 < Room.StartY + Room.Height)

/-- The function `IsWalkable(Position, StartPos, TargetPos)`. -/
def IsWalkable (Width : Int) (Grid : List Int) (Rooms : List FRoom)
    (Position StartPos TargetPos : Pos) : Bool :=
  let Index := Position.2 * Width + Position.1
  match GridGet Grid Index with
  | none => false
  | some v =>
    let isInStartRoom := IsInRoom Rooms Position StartPos
    let isInTargetRoom := IsInRoom Rooms Position TargetPos
    v == 0 || isInStartRoom || isInTargetRoom || v == 2

/-- The four directions of `GetNeighbors`, in the order of the source. -/
def Directions : List Pos := [(1, 0), (-1, 0), (0, 1), (0, -1)]

/-- The function `GetNeighbors(NodePosition, StartPos, TargetPos)`. -/
def GetNeighbors (Width Height : Int) (Grid : List Int) (Rooms : List FRoom)
    (NodePosition StartPos TargetPos : Pos) : List Pos :=
  (Directions.map fun Direction =>
      (NodePosition.1 + Direction.1, NodePosition.2 + Direction.2)).filter fun NewPos =>
    decide (NewPos.1 ≥ 0 ∧ NewPos.1 < Width ∧ NewPos.2 ≥ 0 ∧ NewPos.2 < Height) &&
      IsWalkable Width Grid Rooms NewPos StartPos TargetPos

/-- The method `FAStarNode::FCost`: `GCost + HCost`. -/
def FAStarNode.FCost {D : Type} [Add D] [NatCast D] (Node : FAStarNode D) : D :=
  (Node.GCost : D) + Node.HCost

/-- The map `AllNodes` from positions to the nodes created so far. -/
abbrev NodeMap (D : Type) := Pos → Option (FAStarNode D)

/-- The comparison `OpenSet.Sort` is called with, on the nodes the two pointers
point to: `A.FCost() == B.FCost() ? A.HCost < B.HCost : A.FCost() < B.FCost()`. -/
def OpenSetLess {D : Type} [LinearOrder D] [Add D] [NatCast D] (AllNodes : NodeMap D)
    (a b : Pos) : Bool :=
  match AllNodes a, AllNodes b with
  | some A, some B =>
    if A.FCost = B.FCost then decide (A.HCost < B.HCost) else decide (A.FCost < B.FCost)
  | _, _ => false

/-- The goal test `CurrentNode->Position.Equals(TargetPos, 1.0f)`: each
coordinate is within `1` of the target's. -/
def NearTarget (Position TargetPos : Pos) : Bool :=
  decide (|Position.1 - TargetPos.1| ≤ 1 ∧ |Position.2 - TargetPos.2| ≤ 1)

/-- The body of `for (const FVector& Neighbor : Neighbors)`: a new node for an
unvisited neighbor, an in-place update of `CameFrom` and `GCost` for a visited
one that is reached more cheaply. -/
def Relax {D : Type} (Dist : Pos → Pos → D) (TargetPos : Pos) (Current : FAStarNode D)
    (State : List Pos × NodeMap D) (Neighbor : Pos) : List Pos × NodeMap D :=
  let TentativeGCost := Current.GCost + 1
  match State.2 Neighbor with
  | none =>
    (State.1 ++ [Neighbor],
      Function.update State.2 Neighbor
        (some ⟨Neighbor, TentativeGCost, Dist Neighbor TargetPos, some Current.Position⟩))
  | some NeighborNode =>
    if TentativeGCost < NeighborNode.GCost then
      (State.1,
        Function.update State.2 Neighbor
          (some { NeighborNode with CameFrom := some Current.Position, GCost := TentativeGCost }))
    else State

/-- The walk `while (CurrentNode != nullptr) { Path.Add(CurrentNode); CurrentNode =
CurrentNode->CameFrom; }`, with fuel for the number of nodes added: the
positions from the node reached back to the first one. -/
def WalkBack {D : Type} (AllNodes : NodeMap D) : Nat → Option Pos → Option (List Pos)
  | _, none => some []
  | 0, some _ => none
  | fuel + 1, some p =>
    match AllNodes p with
    | none => none
    | some Node =>
      match WalkBack AllNodes fuel Node.CameFrom with
      | none => none
      | some Path => some (p :: Path)

/-- The `while (OpenSet.Num() > 0)` loop of `FindPath`, with fuel for the number
of iterations.  The walk back from a node visits nodes of strictly smaller
`GCost`, so it gets `GCost + 1` as fuel. -/
def FindPathLoop {D : Type} [LinearOrder D] [Add D] [NatCast D] (Dist : Pos → Pos → D)
    (ArraySort : SortFn) (Width Height : Int) (Grid : List Int) (Rooms : List FRoom)
    (StartPos TargetPos : Pos) : Nat → List Pos → NodeMap D → Option (List Pos)
  | _, [], _ => some []
  | 0, _ :: _, _ => none
  | fuel + 1, p :: ps, AllNodes =>
    match ArraySort (OpenSetLess AllNodes) (p :: ps) with
    | [] => none
    | Current :: OpenSet1 =>
      match AllNodes Current with
      | none => none
      | some CurrentNode =>
        if NearTarget CurrentNode.Position TargetPos then
          match WalkBack AllNodes (CurrentNode.GCost + 1) (some Current) with
          | none => none
          | some Path => some Path.reverse
        else
          let Neighbors :=
            GetNeighbors Width Height Grid Rooms CurrentNode.Position StartPos TargetPos
          let State := Neighbors.foldl (Relax Dist TargetPos CurrentNode) (OpenSet1, AllNodes)
          FindPathLoop Dist ArraySort Width Height Grid Rooms StartPos TargetPos fuel
            State.1 State.2

/-- The function `FindPath(StartPos, TargetPos)`: the positions of the nodes of the returned
path.  The fuel is one iteration for the start node and one for each cell of
the grid. -/
def FindPath {D : Type} [LinearOrder D] [Add D] [NatCast D] (Dist : Pos → Pos → D)
    (ArraySort : SortFn) (Width Height : Int) (Grid : List Int) (Rooms : List FRoom)
    (StartPos TargetPos : Pos) : Option (List Pos) :=
  FindPathLoop Dist ArraySort Width Height Grid Rooms StartPos TargetPos
    (Width.toNat * Height.toNat + 1) [StartPos]
    (Function.update (fun _ => none) StartPos
      (some ⟨StartPos, 0, Dist StartPos TargetPos, none⟩))

/-- One iteration of the `while (OpenSet.Num() > 0)` loop of `FindPath` that goes on to the
next: the state `(OpenSet, AllNodes)` after the sort, the pop, a failed goal test and the
neighbor loop.  The value is `none` when the loop stops at this state, with an empty open
set or a passed goal test. -/
def LoopIteration {D : Type} [LinearOrder D] [Add D] [NatCast D] (Dist : Pos → Pos → D)
    (ArraySort : SortFn) (Width Height : Int) (Grid : List Int) (Rooms : List FRoom)
    (StartPos TargetPos : Pos) : List Pos × NodeMap D → Option (List Pos × NodeMap D)
  | ([], _) => none
  | (p :: ps, AllNodes) =>
    match ArraySort (OpenSetLess AllNodes) (p :: ps) with
    | [] => none
    | Current :: OpenSet1 =>
      match AllNodes Current with
      | none => none
      | some CurrentNode =>
        if NearTarget CurrentNode.Position TargetPos then none
        else
          some ((GetNeighbors Width Height Grid Rooms CurrentNode.Position StartPos
            TargetPos).foldl (Relax Dist TargetPos CurrentNode) (OpenSet1, AllNodes))

/-- The state `(OpenSet, AllNodes)` of `FindPath` when the loop tests its condition for
the `n + 1`-th time, after `n` iterations; `none` when the loop has stopped before. -/
def LoopStateAfter {D : Type} [LinearOrder D] [Add D] [NatCast D] (Dist : Pos → Pos → D)
    (ArraySort : SortFn) (Width Height : Int) (Grid : List Int) (Rooms : List FRoom)
    (StartPos TargetPos : Pos) : Nat → Option (List Pos × NodeMap D)
  | 0 =>
    some ([StartPos],
      Function.update (fun _ => none) StartPos
        (some ⟨StartPos, 0, Dist StartPos TargetPos, none⟩))
  | n + 1 =>
    match LoopStateAfter Dist ArraySort Width Height Grid Rooms StartPos TargetPos n with
    | none => none
    | some State =>
      LoopIteration Dist ArraySort Width Height Grid Rooms StartPos TargetPos State

/-! ## The corridor carver (`GetCorridorType`, `PlaceCorridor`,
`ConnectRoomsUsingAStar`) -/

/-- The function `GetCorridorType(Direction)`. -/
def GetCorridorType (Direction : Pos) : Int :=
  if Direction.1 > 0 then 5
  else if Direction.1 < 0 then 4
  else if Direction.2 > 0 then 3
  else if Direction.2 < 0 then 2
  else 0

/-- The function `PlaceCorridor(Position, Type)`: the write happens only at a valid index
whose cell is not a room cell. -/
def PlaceCorridor (Width : Int) (Grid : List Int) (Position : Pos) (CorridorType : Int) :
    List Int :=
  let Index := Position.2 * Width + Position.1
  match GridGet Grid Index with
  | none => Grid
  | some v => if v ≠ 1 then Grid.set Index.toNat CorridorType else Grid

/-- The loop `for (FAStarNode* Node : Path)` of `ConnectRoomsUsingAStar`: for
each node after the first, the tag of the step from `LastNode` is placed at
`LastNode`. -/
def CarvePath (Width : Int) : List Int → List Pos → List Int
  | Grid, LastNode :: Node :: rest =>
    CarvePath Width
      (PlaceCorridor Width Grid LastNode
        (GetCorridorType (Node.1 - LastNode.1, Node.2 - LastNode.2)))
      (Node :: rest)
  | Grid, _ => Grid

/-- The function `ConnectRoomsUsingAStar(MST)`: the grid after carving the path of every
connection in turn. -/
def ConnectRoomsUsingAStar {D E : Type} [LinearOrder D] [Add D] [NatCast D]
    (Dist : Pos → Pos → D) (ArraySort : SortFn) (Width Height : Int) (Rooms : List FRoom) :
    List Int → List (FRoomConnection E) → Option (List Int)
  | Grid, [] => some Grid
  | Grid, Connection :: rest =>
    match Rooms[Connection.RoomIndexA]?, Rooms[Connection.RoomIndexB]? with
    | some RoomA, some RoomB =>
      match FindPath Dist ArraySort Width Height Grid Rooms RoomA.EntryPoint RoomB.ExitPoint with
      | none => none
      | some Path =>
        ConnectRoomsUsingAStar Dist ArraySort Width Height Rooms (CarvePath Width Grid Path) rest
    | _, _ => none

/-! ## Door detection and the final pass (`PlaceDoors`, `FinalizeDungeon`) -/

/-- One guarded retag of `PlaceDoors`: `if (Guard && Grid[Index] == 2) Grid[Index] = 3`.
The cell is read only when the guard holds; `none` when the read is outside the grid. -/
def DoorCheck (Grid : List Int) (Guard : Bool) (Index : Int) : Option (List Int) :=
  if Guard then
    match GridGet Grid Index with
    | none => none
    | some v => if v = 2 then GridSet Grid Index 3 else some Grid
  else some Grid

/-- The guarded retags `PlaceDoors` makes for one room, as pairs of guard and index in
the order of the source: for each `x` of the room the cell above the top edge and the
cell below the bottom edge, then for each `y` of the room the cell left of the left
edge and the cell right of the right edge. -/
def DoorChecks (Width Height : Int) (room : FRoom) : List (Bool × Int) :=
  ((List.range room.Width.toNat).flatMap fun (dx : Nat) =>
    [(decide (room.StartY > 0), (room.StartY - 1) * Width + (room.StartX + (dx : Int))),
     (decide (room.StartY + room.Height < Height),
       (room.StartY + room.Height) * Width + (room.StartX + (dx : Int)))]) ++
  ((List.range room.Height.toNat).flatMap fun (dy : Nat) =>
    [(decide (room.StartX > 0), (room.StartY + (dy : Int)) * Width + (room.StartX - 1)),
     (decide (room.StartX + room.Width < Width),
       (room.StartY + (dy : Int)) * Width + (room.StartX + room.Width))])

/-- The guarded retags made one after the other. -/
def DoorChecksRun : List Int → List (Bool × Int) → Option (List Int)
  | Grid, [] => some Grid
  | Grid, (Guard, Index) :: rest =>
    match DoorCheck Grid Guard Index with
    | none => none
    | some Grid1 => DoorChecksRun Grid1 rest

/-- The function `PlaceDoors()`: the guarded retags of every room of `Rooms` in turn. -/
def PlaceDoors (Width Height : Int) (Grid : List Int) (Rooms : List FRoom) :
    Option (List Int) :=
  DoorChecksRun Grid (Rooms.flatMap (DoorChecks Width Height))

/-- The call `FMath::RandBool()` as the `k`-th draw: the engine defines it as
`RandRange(0, 1) == 1`. -/
def RandBool (Rand : RandFn) (k : Nat) : Bool := Rand k 0 1 == 1

/-- The loop `for (const FRoom& Room : Rooms)` of `FinalizeDungeon` from draw number `k`:
on a true `RandBool` the cell at two further draws gets tag `6`. -/
def FinalizeRooms (Rand : RandFn) (Width : Int) :
    Nat → List Int → List FRoom → Option (Nat × List Int)
  | k, Grid, [] => some (k, Grid)
  | k, Grid, Room :: rest =>
    if RandBool Rand k then
      let TreasureX := Rand (k + 1) Room.StartX (Room.StartX + Room.Width - 1)
      let TreasureY := Rand (k + 2) Room.StartY (Room.StartY + Room.Height - 1)
      match GridSet Grid (TreasureY * Width + TreasureX) 6 with
      | none => none
      | some Grid1 => FinalizeRooms Rand Width (k + 3) Grid1 rest
    else FinalizeRooms Rand Width (k + 1) Grid rest

/-- The function `FinalizeDungeon()` from draw number `k`: `Grid[0] = 3`,
`Grid[Width * Height - 1] = 4`, then the treasure loop. -/
def FinalizeDungeon (Rand : RandFn) (Width Height : Int) (k : Nat) (Grid : List Int)
    (Rooms : List FRoom) : Option (Nat × List Int) :=
  match GridSet Grid 0 3 with
  | none => none
  | some Grid1 =>
    match GridSet Grid1 (Width * Height - 1) 4 with
    | none => none
    | some Grid2 => FinalizeRooms Rand Width k Grid2 Rooms

/-! ## The generation run (`GenerateDungeon`) -/

/-- The function `GenerateDungeon()` from draw number `k`, on an actor whose `Rooms` member
holds `Rooms`: `InitializeGrid()`, `PlaceMultipleRooms(NumofRoom)`, `KruskalsMST()`,
`ConnectRoomsUsingAStar(MST)`.  The last call of the source, `SpawnDungeonEnvironment()`,
only reads the grid to spawn actors and is left out.  Returns the number of draws made
and the members `Grid` and `Rooms` after the run. -/
def GenerateDungeon {D E : Type} [LinearOrder D] [Add D] [NatCast D] [LinearOrder E]
    (CenterDist : ℚ × ℚ → ℚ × ℚ → E) (Dist : Pos → Pos → D) (ArraySort : SortFn)
    (Rand : RandFn) (Width Height NumofRoom : Int) (k : Nat) (Rooms : List FRoom) :
    Option (Nat × List Int × List FRoom) :=
  match InitializeGrid Width Height with
  | none => none
  | some Grid0 =>
    match PlaceMultipleRooms Rand Width Height NumofRoom k Grid0 Rooms with
    | none => none
    | some (k1, Grid1, Rooms1) =>
      match KruskalsMST CenterDist ArraySort Rooms1 with
      | none => none
      | some MST =>
        match ConnectRoomsUsingAStar Dist ArraySort Width Height Rooms1 Grid1 MST with
        | none => none
        | some Grid2 => some (k1, Grid2, Rooms1)

/-! ## Specification vocabulary -/

/-- What every claim needs of the engine's sort: the output is a rearrangement
of the input. -/
def IsPermSort (ArraySort : SortFn) : Prop :=
  ∀ (α : Type) (lt : α → α → Bool) (l : List α), (ArraySort lt l).Perm l

/-- What minimality needs of the engine's sort: it puts connections in
ascending order of distance. -/
def SortsByDistance (D : Type) [LinearOrder D] (ArraySort : SortFn) : Prop :=
  ∀ l : List (FRoomConnection D),
    (ArraySort FRoomConnection.lt l).Pairwise (fun a b => a.Distance ≤ b.Distance)

/-- The contract of `FMath::RandRange(Min, Max)` for `Min <= Max`: the value
lies in `[Min, Max]`. -/
def RandInRange (Rand : RandFn) : Prop :=
  ∀ k lo hi, lo ≤ hi → lo ≤ Rand k lo hi ∧ Rand k lo hi ≤ hi

/-- The two room indices of a connection. -/
def endpoints {D : Type} (c : FRoomConnection D) : Nat × Nat := (c.RoomIndexA, c.RoomIndexB)

/-- Connectivity by a list of index pairs: the reflexive-symmetric-transitive
closure of the pairs. -/
def Linked (ops : List (Nat × Nat)) : Nat → Nat → Prop :=
  Relation.EqvGen (fun x y => (x, y) ∈ ops)

/-- Rooms `i` and `j` are connected by the connections of `F`. -/
def LinkedBy {D : Type} (F : List (FRoomConnection D)) : Nat → Nat → Prop :=
  Linked (F.map endpoints)

/-- A set of connections is acyclic when each of its connections is a bridge:
without it, its two rooms are no longer connected.  (This excludes loops and
parallel connections too.) -/
def Acyclic {D : Type} (F : List (FRoomConnection D)) : Prop :=
  ∀ l1 c l2, F = l1 ++ c :: l2 → ¬ LinkedBy (l1 ++ l2) c.RoomIndexA c.RoomIndexB

/-- The sum of the distances of a list of connections. -/
def TotalDistance {D : Type} [AddMonoid D] (F : List (FRoomConnection D)) : D :=
  (F.map (fun c => c.Distance)).sum

/-- The cell `(x, y)` lies in the rectangle of the room. -/
def InRect (Room : FRoom) (x y : Int) : Prop :=
  Room.StartX ≤ x ∧ x < Room.StartX + Room.Width ∧ Room.StartY ≤ y ∧ y < Room.StartY + Room.Height

/-- Two rooms overlap when their rectangles share a cell. -/
def Overlap (a b : FRoom) : Prop := ∃ x y, InRect a x y ∧ InRect b x y

/-- The cell lies inside the grid: `0 <= X < Width` and `0 <= Y < Height`. -/
def InGrid (Width Height : Int) (p : Pos) : Prop :=
  0 ≤ p.1 ∧ p.1 < Width ∧ 0 ≤ p.2 ∧ p.2 < Height

/-- The cell `q` is one cardinal unit step away from `p`: `q - p` is `(+1,0)`, `(-1,0)`,
`(0,+1)` or `(0,-1)`. -/
def IsStep (p q : Pos) : Prop :=
  (q.1 - p.1 = 1 ∧ q.2 - p.2 = 0) ∨ (q.1 - p.1 = -1 ∧ q.2 - p.2 = 0) ∨
    (q.1 - p.1 = 0 ∧ q.2 - p.2 = 1) ∨ (q.1 - p.1 = 0 ∧ q.2 - p.2 = -1)

/-- The cells that can be reached from the start by 4-directional steps through
in-bounds walkable cells. -/
inductive Reach (Width Height : Int) (Grid : List Int) (Rooms : List FRoom)
    (StartPos TargetPos : Pos) : Pos → Prop
  | start : Reach Width Height Grid Rooms StartPos TargetPos StartPos
  | step {p q : Pos} : Reach Width Height Grid Rooms StartPos TargetPos p → IsStep p q →
      InGrid Width Height q → IsWalkable Width Grid Rooms q StartPos TargetPos = true →
      Reach Width Height Grid Rooms StartPos TargetPos q

/-- The 4-directional grid distance `|px - qx| + |py - qy|`. -/
def GridDist (p q : Pos) : Nat := (p.1 - q.1).natAbs + (p.2 - q.2).natAbs

/-- What `FindPath` returns: nothing, or a walk from the start, through
reachable cells one step apart, to a cell that passes the goal test. -/
def GoodPath (Width Height : Int) (Grid : List Int) (Rooms : List FRoom)
    (StartPos TargetPos : Pos) (Path : List Pos) : Prop :=
  Path = [] ∨ ∃ c, Path.head? = some StartPos ∧ Path.getLast? = some c ∧
    NearTarget c TargetPos = true ∧ Reach Width Height Grid Rooms StartPos TargetPos c ∧
    List.Chain' IsStep Path

/-- The heuristic is consistent with unit grid steps: `Dist u t` is at most the
grid distance from `u` to `v` plus `Dist v t` (the triangle inequality of the
straight-line distance, which is at most the grid distance). -/
def Consistent {D : Type} [LinearOrderedRing D] (Dist : Pos → Pos → D) : Prop :=
  ∀ u v t : Pos, Dist u t ≤ (GridDist u v : D) + Dist v t

/-- What optimality needs of the engine's sort: it puts the open set in order
for the comparison it is called with. -/
def SortsOpenSet (D : Type) [LinearOrder D] [Add D] [NatCast D] (ArraySort : SortFn) : Prop :=
  ∀ (A : NodeMap D) (l : List Pos), (∀ p ∈ l, ∃ n, A p = some n) →
    (ArraySort (OpenSetLess A) l).Pairwise (fun a b => OpenSetLess A b a = false)

/-- The rectangle of the room lies inside the grid. -/
def RoomInside (Width Height : Int) (Room : FRoom) : Prop :=
  0 ≤ Room.StartX ∧ 0 ≤ Room.Width ∧ Room.StartX + Room.Width ≤ Width ∧
    0 ≤ Room.StartY ∧ 0 ≤ Room.Height ∧ Room.StartY + Room.Height ≤ Height

/-- The cell `(x, y)` lies one cell outside the rectangle of the room along one of its
four edges: above the top edge or below the bottom edge within the room's columns,
or left of the left edge or right of the right edge within the room's rows. -/
def NextToRoom (Room : FRoom) (x y : Int) : Prop :=
  (Room.StartX ≤ x ∧ x < Room.StartX + Room.Width ∧
      (y = Room.StartY - 1 ∨ y = Room.StartY + Room.Height)) ∨
    (Room.StartY ≤ y ∧ y < Room.StartY + Room.Height ∧
      (x = Room.StartX - 1 ∨ x = Room.StartX + Room.Width))

/-- The rooms of the two-room scenario: 4 x 4 rooms at `(0, 0)` and `(6, 6)`. -/
def TwoRooms : List FRoom := [FRoom.new 0 0 4 4, FRoom.new 6 6 4 4]

/-- The 10 x 10 grid of the two-room scenario: the cells of the two rooms hold `1`, all
others `0`. -/
def TwoRoomsGrid : List Int :=
  [1, 1, 1, 1, 0, 0, 0, 0, 0, 0,
   1, 1, 1, 1, 0, 0, 0, 0, 0, 0,
   1, 1, 1, 1, 0, 0, 0, 0, 0, 0,
   1, 1, 1, 1, 0, 0, 0, 0, 0, 0,
   0, 0, 0, 0, 0, 0, 0, 0, 0, 0,
   0, 0, 0, 0, 0, 0, 0, 0, 0, 0,
   0, 0, 0, 0, 0, 0, 1, 1, 1, 1,
   0, 0, 0, 0, 0, 0, 1, 1, 1, 1,
   0, 0, 0, 0, 0, 0, 1, 1, 1, 1,
   0, 0, 0, 0, 0, 0, 1, 1, 1, 1]

/-- The run in the words of the specification: initialize grid, place rooms, build MST,
carve corridors, door detection, finalize, in that order, from draw number `k`. -/
def SixStagePipeline {D E : Type} [LinearOrder D] [Add D] [NatCast D] [LinearOrder E]
    (CenterDist : ℚ × ℚ → ℚ × ℚ → E) (Dist : Pos → Pos → D) (ArraySort : SortFn)
    (Rand : RandFn) (Width Height NumofRoom : Int) (k : Nat) (Rooms : List FRoom) :
    Option (Nat × List Int × List FRoom) :=
  match InitializeGrid Width Height with
  | none => none
  | some Grid0 =>
    match PlaceMultipleRooms Rand Width Height NumofRoom k Grid0 Rooms with
    | none => none
    | some (k1, Grid1, Rooms1) =>
      match KruskalsMST CenterDist ArraySort Rooms1 with
      | none => none
      | some MST =>
        match ConnectRoomsUsingAStar Dist ArraySort Width Height Rooms1 Grid1 MST with
        | none => none
        | some Grid2 =>
          match PlaceDoors Width Height Grid2 Rooms1 with
          | none => none
          | some Grid3 =>
            match FinalizeDungeon Rand Width Height k1 Grid3 Rooms1 with
            | none => none
            | some (k2, Grid4) => some (k2, Grid4, Rooms1)

/-- The edge loop of `KruskalsMST` with the statement
`if (MST.Num() == Rooms.Num() - 1) break;` taken out: every sorted connection is
processed. -/
def KruskalLoopNoBreak {D : Type} :
    List (FRoomConnection D) → List Nat → List Nat → List (FRoomConnection D) →
      Option (List (FRoomConnection D))
  | [], _, _, MST => some MST
  | Conn :: rest, Parent, Rank, MST =>
    match Find Conn.RoomIndexA Parent with
    | none => none
    | some (rootA, Parent1) =>
      match Find Conn.RoomIndexB Parent1 with
      | none => none
      | some (rootB, Parent2) =>
        if rootA ≠ rootB then
          match Union Conn.RoomIndexA Conn.RoomIndexB Parent2 Rank with
          | none => none
          | some (Parent3, Rank3) => KruskalLoopNoBreak rest Parent3 Rank3 (MST ++ [Conn])
        else KruskalLoopNoBreak rest Parent2 Rank MST

/-- The function `KruskalsMST` with the early exit taken out of its edge loop. -/
def KruskalsMSTNoBreak {D : Type} [LinearOrder D] (Dist : ℚ × ℚ → ℚ × ℚ → D)
    (ArraySort : SortFn) (Rooms : List FRoom) : Option (List (FRoomConnection D)) :=
  KruskalLoopNoBreak (GenerateAllRoomConnections Dist ArraySort Rooms)
    (List.range Rooms.length) (List.replicate Rooms.length 0) []

/-! ## Invariants and counting measures used in the proofs -/

/-- The choices of the Kruskal edge loop, stated with connectivity instead of
the union-find arrays: `Greedy M es F res` when processing the connections `es`
from the forest `F` ends with `res`. -/
inductive Greedy {D : Type} (M : Nat) :
    List (FRoomConnection D) → List (FRoomConnection D) → List (FRoomConnection D) → Prop
  | done (F) : Greedy M [] F F
  | skip (c rest F res) : LinkedBy F c.RoomIndexA c.RoomIndexB → Greedy M rest F res →
      Greedy M (c :: rest) F res
  | stop (c rest F) : ¬ LinkedBy F c.RoomIndexA c.RoomIndexB →
      ((F ++ [c]).length : Int) = (M : Int) - 1 → Greedy M (c :: rest) F (F ++ [c])
  | take (c rest F res) : ¬ LinkedBy F c.RoomIndexA c.RoomIndexB →
      ((F ++ [c]).length : Int) ≠ (M : Int) - 1 → Greedy M rest (F ++ [c]) res →
      Greedy M (c :: rest) F res

/-- Number of roots of the forest described by `rep`. -/
def rootCount (n : Nat) (rep : Nat → Nat) : Nat :=
  ((Finset.range n).filter (fun i => rep i = i)).card

/-- The invariant of the room placer: the grid has `Width * Height` cells, every
room lies inside the grid and its cells are tagged `1`, no two rooms overlap. -/
structure PlacerInv (Width Height : Int) (Grid : List Int) (Rooms : List FRoom) : Prop where
  len : (Grid.length : Int) = Width * Height
  inside : ∀ r ∈ Rooms, 0 ≤ r.StartX ∧ r.StartX + r.Width ≤ Width ∧
    0 ≤ r.StartY ∧ r.StartY + r.Height ≤ Height
  tagged : ∀ r ∈ Rooms, ∀ x y, InRect r x y → GridGet Grid (y * Width + x) = some 1
  disjoint : Rooms.Pairwise (fun a b => ¬ Overlap a b)

/-- The cells of the grid, as a finite set. -/
def GridCells (Width Height : Int) : Finset Pos :=
  Finset.Icc 0 (Width - 1) ×ˢ Finset.Icc 0 (Height - 1)

/-- Number of grid cells for which no node has been created yet. -/
def unseen {D : Type} (Width Height : Int) (AllNodes : NodeMap D) : Nat :=
  ((GridCells Width Height).filter (fun p => (AllNodes p).isNone = true)).card

/-- The invariant of the main loop of `FindPath`. -/
structure AStarInv {D : Type} (Width Height : Int) (Grid : List Int) (Rooms : List FRoom)
    (StartPos TargetPos : Pos) (OpenSet : List Pos) (AllNodes : NodeMap D) : Prop where
  open_node : ∀ p ∈ OpenSet, ∃ n, AllNodes p = some n
  position : ∀ p n, AllNodes p = some n → n.Position = p
  start_node : ∃ n, AllNodes StartPos = some n ∧ n.GCost = 0 ∧ n.CameFrom = none
  came_from : ∀ p n, AllNodes p = some n → p ≠ StartPos →
    ∃ q m, n.CameFrom = some q ∧ AllNodes q = some m ∧ m.GCost < n.GCost ∧ IsStep q p
  reach : ∀ p n, AllNodes p = some n → Reach Width Height Grid Rooms StartPos TargetPos p

/-- The invariant of the main loop of `FindPath` on a grid where every cell is
walkable: recorded costs are never below the grid distance from the start;
the nodes already expanded have exactly that cost, failed the goal test and
have seen all their neighbors; the open set has no repetition. -/
structure OptInv {D : Type} (Dist : Pos → Pos → D) (Width Height : Int) (Grid : List Int)
    (StartPos TargetPos : Pos) (OpenSet : List Pos) (AllNodes : NodeMap D) : Prop where
  base : AStarInv Width Height Grid [] StartPos TargetPos OpenSet AllNodes
  nodup : OpenSet.Nodup
  hcost : ∀ p n, AllNodes p = some n → n.HCost = Dist p TargetPos
  lower : ∀ p n, AllNodes p = some n → GridDist StartPos p ≤ n.GCost
  closed : ∀ p n, AllNodes p = some n → p ∉ OpenSet →
    n.GCost = GridDist StartPos p ∧ NearTarget p TargetPos = false ∧
      ∀ q, IsStep p q → InGrid Width Height q →
        ∃ m, AllNodes q = some m ∧ m.GCost ≤ n.GCost + 1
  start_open : StartPos ∈ OpenSet →
    OpenSet = [StartPos] ∧ ∀ p n, AllNodes p = some n → p = StartPos

/-- The invariant inside the neighbor loop, while the node `c` is being
expanded and the neighbors in `Done` have been looked at. -/
structure MidInv {D : Type} (Dist : Pos → Pos → D) (Width Height : Int) (Grid : List Int)
    (StartPos TargetPos : Pos) (c : Pos) (cn : FAStarNode D) (Done : List Pos)
    (OpenSet : List Pos) (AllNodes : NodeMap D) : Prop where
  base : AStarInv Width Height Grid [] StartPos TargetPos OpenSet AllNodes
  nodup : OpenSet.Nodup
  hcost : ∀ p n, AllNodes p = some n → n.HCost = Dist p TargetPos
  lower : ∀ p n, AllNodes p = some n → GridDist StartPos p ≤ n.GCost
  cur : AllNodes c = some cn ∧ cn.GCost = GridDist StartPos c ∧ c ∉ OpenSet ∧
    NearTarget c TargetPos = false
  closed : ∀ p n, AllNodes p = some n → p ∉ OpenSet → p ≠ c →
    n.GCost = GridDist StartPos p ∧ NearTarget p TargetPos = false ∧
      ∀ q, IsStep p q → InGrid Width Height q →
        ∃ m, AllNodes q = some m ∧ m.GCost ≤ n.GCost + 1
  done : ∀ q ∈ Done, ∃ m, AllNodes q = some m ∧ m.GCost ≤ cn.GCost + 1
  start_closed : StartPos ∉ OpenSet

/-- The invariant of the main loop of `FindPath` after `n` iterations: the basic invariant,
an open set without repetition, expanded nodes that failed the goal test and whose
neighbors all have a node, and the count that bounds the number of iterations. -/
structure SearchInv {D : Type} (Width Height : Int) (Grid : List Int) (Rooms : List FRoom)
    (StartPos TargetPos : Pos) (n : Nat) (OpenSet : List Pos) (AllNodes : NodeMap D) :
    Prop where
  astar : AStarInv Width Height Grid Rooms StartPos TargetPos OpenSet AllNodes
  nodup : OpenSet.Nodup
  closed : ∀ p node, AllNodes p = some node → p ∉ OpenSet →
    NearTarget p TargetPos = false ∧
      ∀ q ∈ GetNeighbors Width Height Grid Rooms p StartPos TargetPos, ∃ m, AllNodes q = some m
  count : n + OpenSet.length + unseen Width Height AllNodes ≤ Width.toNat * Height.toNat + 1

/-- The loop of `FindPath` stops with `Path`: at the state after some number of
iterations either the open set is empty and the path is empty, or the node popped after the
sort passes the goal test and the path is the walk back from it, reversed. -/
def LoopResult {D : Type} [LinearOrder D] [Add D] [NatCast D] (Dist : Pos → Pos → D)
    (ArraySort : SortFn) (Width Height : Int) (Grid : List Int) (Rooms : List FRoom)
    (StartPos TargetPos : Pos) (Path : List Pos) : Prop :=
  ∃ (k : Nat) (OpenSet : List Pos) (AllNodes : NodeMap D),
    LoopStateAfter Dist ArraySort Width Height Grid Rooms StartPos TargetPos k
      = some (OpenSet, AllNodes) ∧
    ((OpenSet = [] ∧ Path = []) ∨
      ∃ Current OpenSet1 CurrentNode walk,
        ArraySort (OpenSetLess AllNodes) OpenSet = Current :: OpenSet1 ∧
        AllNodes Current = some CurrentNode ∧ NearTarget Current TargetPos = true ∧
        WalkBack AllNodes (CurrentNode.GCost + 1) (some Current) = some walk ∧
        Path = walk.reverse)

/-! ## Reference instances of the engine parameters -/

/-- An insertion sort: a reference instance of `TArray::Sort`. -/
def InsertionSort : SortFn := fun lt l => List.insertionSort (fun a b => lt b a = false) l

/-- The squared Euclidean distance, a computable reference instance of `Dist`
on centers. -/
def SqDist (p q : ℚ × ℚ) : ℚ := (p.1 - q.1) * (p.1 - q.1) + (p.2 - q.2) * (p.2 - q.2)

/-- The squared Euclidean distance between grid coordinates, a computable
reference instance of `Dist` for the pathfinder. -/
def SqDistPos (p q : Pos) : Int := (p.1 - q.1) * (p.1 - q.1) + (p.2 - q.2) * (p.2 - q.2)

/-- The grid distance as an integer, a computable reference instance of `Dist`
for the pathfinder that is consistent with unit steps. -/
def GridDistInt (p q : Pos) : Int := (GridDist p q : Int)

/-- A random source that always returns the lower bound `Min`. -/
def RandMin : RandFn := fun _ lo _ => lo

/-- A random source that returns `Min` for the first four draws and `Max` from then on. -/
def RandMinThenMax : RandFn := fun k lo hi => if k < 4 then lo else hi

/-- A random source that walks through the range it is asked for: the `k`-th draw is
`Min + k mod (Max - Min + 1)`. -/
def RandCycle : RandFn := fun k lo hi => if lo ≤ hi then lo + (k : Int) % (hi - lo + 1) else lo

/-! # Theorems -/

/-! ## Arrays of naturals -/

theorem at0_eq_of_getElem? {l : List Nat} {i v : Nat} (h : l[i]? = some v) : at0 l i = v := by
  simp [at0, List.getD_eq_getElem?_getD, h]

theorem getElem?_eq_at0 {l : List Nat} {i : Nat} (h : i < l.length) : l[i]? = some (at0 l i) := by
  simp [at0, List.getD_eq_getElem?_getD, List.getElem?_eq_getElem h]

theorem at0_set {l : List Nat} {i j v : Nat} (h : i < l.length) :
    at0 (l.set i v) j = if j = i then v else at0 l j := by
  unfold at0
  by_cases hji : j = i
  · subst hji
    simp [List.getD_eq_getElem?_getD, h]
  · simp [List.getD_eq_getElem?_getD, hji, List.getElem?_set_ne (Ne.symm hji)]

theorem above_lt_of_rank_lt {n : Nat} {Rank : List Nat} {i p : Nat} (hp : p < n)
    (h : at0 Rank i < at0 Rank p) : above n Rank p < above n Rank i := by
  unfold above
  apply Finset.card_lt_card
  rw [Finset.ssubset_iff_of_subset]
  · exact ⟨p, by simp [hp, h], by simp⟩
  · intro j hj
    simp only [Finset.mem_filter, Finset.mem_range] at hj ⊢
    exact ⟨hj.1, lt_trans h hj.2⟩

theorem above_lt {n : Nat} {Rank : List Nat} {i : Nat} (hi : i < n) : above n Rank i < n := by
  unfold above
  have h : (Finset.range n).filter (fun j => at0 Rank i < at0 Rank j) ⊂ Finset.range n := by
    rw [Finset.ssubset_iff_of_subset (Finset.filter_subset _ _)]
    exact ⟨i, by simp [hi], by simp⟩
  simpa using Finset.card_lt_card h

/-! ## `Find` returns the root and keeps the forest -/

theorem UFInv.set_grandparent {n : Nat} {P R : List Nat} {rep : Nat → Nat}
    (inv : UFInv n P R rep) {i : Nat} (hi : i < n) (hne : at0 P i ≠ i) :
    UFInv n (P.set i (at0 P (at0 P i))) R rep ∧ at0 R i < at0 R (at0 P (at0 P i)) := by
  have hiP : i < P.length := by rw [inv.lenP]; exact hi
  have hp : at0 P i < n := inv.parent_lt i hi
  have hpp : at0 P (at0 P i) < n := inv.parent_lt _ hp
  have hr1 : at0 R i < at0 R (at0 P i) := inv.rank_lt i hi hne
  have hr2 : at0 R i < at0 R (at0 P (at0 P i)) := by
    by_cases hroot : at0 P (at0 P i) = at0 P i
    · rw [hroot]; exact hr1
    · exact lt_trans hr1 (inv.rank_lt _ hp hroot)
  have hppne : at0 P (at0 P i) ≠ i := by
    intro h
    rw [h] at hr2
    exact lt_irrefl _ hr2
  refine ⟨?_, hr2⟩
  constructor
  · simp [inv.lenP]
  · exact inv.lenR
  · intro j hj
    rw [at0_set hiP]
    split
    · exact hpp
    · exact inv.parent_lt j hj
  · intro j hj
    rw [at0_set hiP]
    by_cases hji : j = i
    · subst hji
      simp only [if_true]
      intro _
      exact hr2
    · simp only [hji, if_false]
      exact inv.rank_lt j hj
  · exact inv.rep_lt
  · intro j hj
    rw [at0_set hiP]
    have hne2 : rep j ≠ i := by
      intro h
      have := inv.rep_root j hj
      rw [h] at this
      exact hne this
    simp only [hne2, if_false]
    exact inv.rep_root j hj
  · intro j hj
    rw [at0_set hiP]
    by_cases hji : j = i
    · subst hji
      simp only [if_true]
      rw [inv.rep_parent _ hp, inv.rep_parent _ hj]
    · simp only [hji, if_false]
      exact inv.rep_parent j hj
  · intro j hj
    rw [at0_set hiP]
    by_cases hji : j = i
    · subst hji
      simp only [if_true]
      intro h
      exact absurd h hppne
    · simp only [hji, if_false]
      exact inv.root_rep j hj

theorem FindLoop_spec {n : Nat} {R : List Nat} {rep : Nat → Nat} :
    ∀ (fuel : Nat) (P : List Nat) (i : Nat), UFInv n P R rep → i < n → above n R i < fuel →
      ∃ P1, FindLoop fuel i P = some (rep i, P1) ∧ UFInv n P1 R rep := by
  intro fuel
  induction fuel with
  | zero => intro P i _ _ h; exact absurd h (Nat.not_lt_zero _)
  | succ fuel ih =>
    intro P i inv hi hfuel
    have hiP : i < P.length := by rw [inv.lenP]; exact hi
    have hp : at0 P i < n := inv.parent_lt i hi
    have hpP : at0 P i < P.length := by rw [inv.lenP]; exact hp
    unfold FindLoop
    rw [getElem?_eq_at0 hiP]
    by_cases hroot : at0 P i = i
    · simp only [hroot, if_true]
      exact ⟨P, by rw [inv.root_rep i hi hroot], inv⟩
    · simp only [hroot, if_false]
      rw [getElem?_eq_at0 hpP]
      obtain ⟨inv1, hr⟩ := inv.set_grandparent hi hroot
      have hpp : at0 P (at0 P i) < n := inv.parent_lt _ hp
      have hab : above n R (at0 P (at0 P i)) < fuel :=
        lt_of_lt_of_le (above_lt_of_rank_lt hpp hr) (Nat.lt_succ_iff.mp hfuel)
      obtain ⟨P1, h1, h2⟩ := ih _ _ inv1 hpp hab
      refine ⟨P1, ?_, h2⟩
      show FindLoop fuel _ _ = _
      rw [h1, inv.rep_parent _ hp, inv.rep_parent _ hi]

theorem Find_spec {n : Nat} {P R : List Nat} {rep : Nat → Nat} (inv : UFInv n P R rep)
    {i : Nat} (hi : i < n) :
    ∃ P1, Find i P = some (rep i, P1) ∧ UFInv n P1 R rep := by
  unfold Find
  rw [inv.lenP]
  exact FindLoop_spec n P i inv hi (above_lt hi)

/-! ## `Union` merges two classes -/

theorem UFInv.link {n : Nat} {P R : List Nat} {rep : Nat → Nat} (inv : UFInv n P R rep)
    {x y : Nat} (hx : x < n) (hy : y < n) (hxr : at0 P x = x) (hyr : at0 P y = y)
    (hxy : x ≠ y) {R1 : List Nat} (hlen : R1.length = n)
    (hR : ∀ j, j ≠ y → at0 R1 j = at0 R j) (hRy : at0 R y ≤ at0 R1 y)
    (hlt : at0 R1 x < at0 R1 y) :
    UFInv n (P.set x y) R1 (fun i => if rep i = x then y else rep i) := by
  have hxP : x < P.length := by rw [inv.lenP]; exact hx
  have hRle : ∀ j, at0 R j ≤ at0 R1 j := by
    intro j
    by_cases hj : j = y
    · rw [hj]; exact hRy
    · rw [hR j hj]
  constructor
  · simp [inv.lenP]
  · exact hlen
  · intro j hj
    rw [at0_set hxP]
    split
    · exact hy
    · exact inv.parent_lt j hj
  · intro j hj
    rw [at0_set hxP]
    by_cases hjx : j = x
    · subst hjx
      simp only [if_true]
      intro _
      exact hlt
    · simp only [hjx, if_false]
      intro hne
      have hjy : j ≠ y := by
        intro h
        rw [h] at hne
        exact hne hyr
      rw [hR j hjy]
      exact lt_of_lt_of_le (inv.rank_lt j hj hne) (hRle _)
  · intro j hj
    show (if rep j = x then y else rep j) < n
    split
    · exact hy
    · exact inv.rep_lt j hj
  · intro j hj
    show at0 (P.set x y) (if rep j = x then y else rep j) = if rep j = x then y else rep j
    rw [at0_set hxP]
    by_cases h : rep j = x
    · simp only [h, if_true]
      simp only [Ne.symm hxy, if_false]
      exact hyr
    · simp only [h, if_false]
      exact inv.rep_root j hj
  · intro j hj
    show (if rep (at0 (P.set x y) j) = x then y else rep (at0 (P.set x y) j))
      = if rep j = x then y else rep j
    rw [at0_set hxP]
    by_cases hjx : j = x
    · subst hjx
      simp only [if_true]
      rw [inv.root_rep j hx hxr, inv.root_rep y hy hyr]
      simp [Ne.symm hxy]
    · simp only [hjx, if_false]
      rw [inv.rep_parent j hj]
  · intro j hj
    show at0 (P.set x y) j = j → (if rep j = x then y else rep j) = j
    rw [at0_set hxP]
    by_cases hjx : j = x
    · subst hjx
      simp only [if_true]
      intro h
      exact absurd h.symm hxy
    · simp only [hjx, if_false]
      intro h
      rw [inv.root_rep j hj h]
      simp [hjx]

theorem link_rep_iff {rep : Nat → Nat} {x y : Nat} (i j : Nat) :
    ((if rep i = x then y else rep i) = (if rep j = x then y else rep j)) ↔
      (rep i = rep j ∨ (rep i = x ∧ rep j = y) ∨ (rep i = y ∧ rep j = x)) := by
  split_ifs <;> omega

/-- What one `Union a b` does to the forest: it succeeds and the new classes are
the old ones with the classes of `a` and `b` merged.  When the two were apart,
exactly one root stops being a root. -/
theorem Union_spec {n : Nat} {P R : List Nat} {rep : Nat → Nat} (inv : UFInv n P R rep)
    {a b : Nat} (ha : a < n) (hb : b < n) :
    ∃ P1 R1 rep1, Union a b P R = some (P1, R1) ∧ UFInv n P1 R1 rep1 ∧
      (∀ i j, rep1 i = rep1 j ↔
        (rep i = rep j ∨ (rep i = rep a ∧ rep b = rep j) ∨ (rep i = rep b ∧ rep a = rep j))) ∧
      (rep a = rep b → rep1 = rep) ∧
      (rep a ≠ rep b → ∃ x, x < n ∧ rep x = x ∧ ∀ i, rep1 i = i ↔ (rep i = i ∧ i ≠ x)) := by
  obtain ⟨Pa, hFa, inva⟩ := Find_spec inv ha
  obtain ⟨Pb, hFb, invb⟩ := Find_spec inva hb
  have hra : rep a < n := inv.rep_lt a ha
  have hrb : rep b < n := inv.rep_lt b hb
  have hrootA : at0 Pb (rep a) = rep a := invb.rep_root a ha
  have hrootB : at0 Pb (rep b) = rep b := invb.rep_root b hb
  have hrepA : rep (rep a) = rep a := invb.root_rep _ hra hrootA
  have hrepB : rep (rep b) = rep b := invb.root_rep _ hrb hrootB
  unfold Union
  rw [hFa]
  simp only
  rw [hFb]
  simp only
  by_cases hab : rep a = rep b
  · refine ⟨Pb, R, rep, ?_, invb, ?_, fun _ => rfl, fun h => absurd hab h⟩
    · simp [hab]
    · intro i j
      omega
  · have hraR : rep a < R.length := by rw [inv.lenR]; exact hra
    have hrbR : rep b < R.length := by rw [inv.lenR]; exact hrb
    rw [if_pos (show rep a ≠ rep b from hab), getElem?_eq_at0 hraR, getElem?_eq_at0 hrbR]
    dsimp only
    -- the three rank cases
    have key : ∀ (x y : Nat) (R1 : List Nat), x < n → y < n → at0 Pb x = x → at0 Pb y = y →
        x ≠ y → rep x = x → ((x = rep a ∧ y = rep b) ∨ (x = rep b ∧ y = rep a)) →
        R1.length = n → (∀ j, j ≠ y → at0 R1 j = at0 R j) → at0 R y ≤ at0 R1 y →
        at0 R1 x < at0 R1 y →
        ∃ P1 R2 rep1, some (Pb.set x y, R1) = some (P1, R2) ∧ UFInv n P1 R2 rep1 ∧
          (∀ i j, rep1 i = rep1 j ↔
            (rep i = rep j ∨ (rep i = rep a ∧ rep b = rep j) ∨ (rep i = rep b ∧ rep a = rep j))) ∧
          (rep a = rep b → rep1 = rep) ∧
          (rep a ≠ rep b → ∃ x, x < n ∧ rep x = x ∧ ∀ i, rep1 i = i ↔ (rep i = i ∧ i ≠ x)) := by
      intro x y R1 hx hy hxr hyr hxy hrx hcase hlen hR hRy hlt
      have hry : rep y = y := invb.root_rep _ hy hyr
      refine ⟨Pb.set x y, R1, fun i => if rep i = x then y else rep i, rfl,
        invb.link hx hy hxr hyr hxy hlen hR hRy hlt, ?_, fun h => absurd h hab, fun _ => ?_⟩
      · intro i j
        rw [link_rep_iff]
        rcases hcase with ⟨h1, h2⟩ | ⟨h1, h2⟩ <;> omega
      · refine ⟨x, hx, hrx, fun i => ?_⟩
        show (if rep i = x then y else rep i) = i ↔ _
        by_cases hi : rep i = x
        · rw [if_pos hi]
          constructor
          · intro h
            rw [← h, hry] at hi
            exact absurd hi.symm hxy
          · rintro ⟨h1, h2⟩
            omega
        · rw [if_neg hi]
          constructor
          · intro h
            refine ⟨h, fun hix => hi ?_⟩
            rw [hix]; exact hrx
          · exact fun h => h.1
    by_cases h1 : at0 R (rep a) < at0 R (rep b)
    · rw [if_pos h1]
      exact key (rep a) (rep b) R hra hrb hrootA hrootB hab hrepA (Or.inl ⟨rfl, rfl⟩) inv.lenR
        (fun _ _ => rfl) (le_refl _) h1
    · rw [if_neg h1]
      by_cases h2 : at0 R (rep a) > at0 R (rep b)
      · rw [if_pos h2]
        exact key (rep b) (rep a) R hrb hra hrootB hrootA (Ne.symm hab) hrepB
          (Or.inr ⟨rfl, rfl⟩) inv.lenR (fun _ _ => rfl) (le_refl _) h2
      · rw [if_neg h2]
        have heq : at0 R (rep a) = at0 R (rep b) := by omega
        refine key (rep b) (rep a) (R.set (rep a) (at0 R (rep a) + 1)) hrb hra hrootB hrootA
          (Ne.symm hab) hrepB (Or.inr ⟨rfl, rfl⟩) (by simp [inv.lenR]) ?_ ?_ ?_
        · intro j hj
          rw [at0_set hraR]
          simp [hj]
        · rw [at0_set hraR]
          simp
        · rw [at0_set hraR, at0_set hraR]
          simp only [Ne.symm hab, if_false, if_true]
          omega

/-! ## Connectivity as an equivalence closure -/

/-- Adding one pair to a relation: two points become connected exactly when
they were, or when the new pair bridges them. -/
theorem eqvGen_or_pair {E : Nat → Nat → Prop} {a b i j : Nat} :
    Relation.EqvGen (fun x y => E x y ∨ (x = a ∧ y = b)) i j ↔
      (Relation.EqvGen E i j ∨ (Relation.EqvGen E i a ∧ Relation.EqvGen E b j) ∨
        (Relation.EqvGen E i b ∧ Relation.EqvGen E a j)) := by
  constructor
  · intro h
    induction h with
    | rel x y hxy =>
      rcases hxy with h | ⟨h1, h2⟩
      · exact Or.inl (Relation.EqvGen.rel _ _ h)
      · subst h1; subst h2
        exact Or.inr (Or.inl ⟨Relation.EqvGen.refl _, Relation.EqvGen.refl _⟩)
    | refl x => exact Or.inl (Relation.EqvGen.refl _)
    | symm x y _ ih =>
      rcases ih with h | ⟨h1, h2⟩ | ⟨h1, h2⟩
      · exact Or.inl (Relation.EqvGen.symm _ _ h)
      · exact Or.inr (Or.inr ⟨Relation.EqvGen.symm _ _ h2, Relation.EqvGen.symm _ _ h1⟩)
      · exact Or.inr (Or.inl ⟨Relation.EqvGen.symm _ _ h2, Relation.EqvGen.symm _ _ h1⟩)
    | trans x y z _ _ ih1 ih2 =>
      rcases ih1 with h | ⟨h1, h2⟩ | ⟨h1, h2⟩ <;> rcases ih2 with k | ⟨k1, k2⟩ | ⟨k1, k2⟩
      · exact Or.inl (Relation.EqvGen.trans _ _ _ h k)
      · exact Or.inr (Or.inl ⟨Relation.EqvGen.trans _ _ _ h k1, k2⟩)
      · exact Or.inr (Or.inr ⟨Relation.EqvGen.trans _ _ _ h k1, k2⟩)
      · exact Or.inr (Or.inl ⟨h1, Relation.EqvGen.trans _ _ _ h2 k⟩)
      · exact Or.inr (Or.inl ⟨h1, k2⟩)
      · exact Or.inl (Relation.EqvGen.trans _ _ _ h1 k2)
      · exact Or.inr (Or.inr ⟨h1, Relation.EqvGen.trans _ _ _ h2 k⟩)
      · exact Or.inl (Relation.EqvGen.trans _ _ _ h1 k2)
      · exact Or.inr (Or.inr ⟨h1, k2⟩)
  · have hmono : ∀ u v, Relation.EqvGen E u v →
        Relation.EqvGen (fun x y => E x y ∨ (x = a ∧ y = b)) u v :=
      fun u v h => Relation.EqvGen.mono (fun _ _ h => Or.inl h) h
    have hab : Relation.EqvGen (fun x y => E x y ∨ (x = a ∧ y = b)) a b :=
      Relation.EqvGen.rel _ _ (Or.inr ⟨rfl, rfl⟩)
    rintro (h | ⟨h1, h2⟩ | ⟨h1, h2⟩)
    · exact hmono _ _ h
    · exact Relation.EqvGen.trans _ _ _ (hmono _ _ h1)
        (Relation.EqvGen.trans _ _ _ hab (hmono _ _ h2))
    · exact Relation.EqvGen.trans _ _ _ (hmono _ _ h1)
        (Relation.EqvGen.trans _ _ _ (Relation.EqvGen.symm _ _ hab) (hmono _ _ h2))

theorem Linked_nil {i j : Nat} : Linked [] i j ↔ i = j := by
  constructor
  · intro h
    induction h with
    | rel x y hxy => simp at hxy
    | refl x => rfl
    | symm x y _ ih => exact ih.symm
    | trans x y z _ _ ih1 ih2 => exact ih1.trans ih2
  · rintro rfl
    exact Relation.EqvGen.refl _

theorem Linked_snoc {ops : List (Nat × Nat)} {a b i j : Nat} :
    Linked (ops ++ [(a, b)]) i j ↔
      (Linked ops i j ∨ (Linked ops i a ∧ Linked ops b j) ∨ (Linked ops i b ∧ Linked ops a j)) := by
  have h : (fun x y => (x, y) ∈ ops ++ [(a, b)]) = (fun x y => (x, y) ∈ ops ∨ (x = a ∧ y = b)) := by
    funext x y
    simp
  unfold Linked
  rw [h]
  exact eqvGen_or_pair

theorem UFInv_init (n : Nat) : UFInv n (List.range n) (List.replicate n 0) id := by
  have hat : ∀ i, i < n → at0 (List.range n) i = i := by
    intro i hi
    simp [at0, List.getD_eq_getElem?_getD, List.getElem?_range hi]
  constructor
  · simp
  · simp
  · intro i hi; rw [hat i hi]; exact hi
  · intro i hi h; exact absurd (hat i hi) h
  · intro i hi; exact hi
  · intro i hi; exact hat i hi
  · intro i hi; exact hat i hi
  · intro i _ _; rfl

theorem UnionSeq_spec (n : Nat) :
    ∀ (ops done : List (Nat × Nat)) (P R : List Nat) (rep : Nat → Nat), UFInv n P R rep →
      (∀ i j, i < n → j < n → (rep i = rep j ↔ Linked done i j)) →
      (∀ p ∈ ops, p.1 < n ∧ p.2 < n) →
      ∃ P1 R1 rep1, UnionSeq ops P R = some (P1, R1) ∧ UFInv n P1 R1 rep1 ∧
        ∀ i j, i < n → j < n → (rep1 i = rep1 j ↔ Linked (done ++ ops) i j) := by
  intro ops
  induction ops with
  | nil =>
    intro done P R rep inv hrep _
    exact ⟨P, R, rep, rfl, inv, by simpa using hrep⟩
  | cons op rest ih =>
    intro done P R rep inv hrep hops
    obtain ⟨a, b⟩ := op
    have hab : a < n ∧ b < n := hops (a, b) (List.mem_cons_self _ _)
    obtain ⟨P1, R1, rep1, hU, inv1, hiff, -, -⟩ := Union_spec inv hab.1 hab.2
    have hrep1 : ∀ i j, i < n → j < n → (rep1 i = rep1 j ↔ Linked (done ++ [(a, b)]) i j) := by
      intro i j hi hj
      rw [hiff, Linked_snoc, hrep i j hi hj, hrep i a hi hab.1, hrep b j hab.2 hj,
        hrep i b hi hab.2, hrep a j hab.1 hj]
    obtain ⟨P2, R2, rep2, hS, inv2, hrep2⟩ :=
      ih (done ++ [(a, b)]) P1 R1 rep1 inv1 hrep1 (fun p hp => hops p (List.mem_cons_of_mem _ hp))
    refine ⟨P2, R2, rep2, ?_, inv2, ?_⟩
    · simp only [UnionSeq, hU]
      exact hS
    · simpa using hrep2

/-- C3. Starting from `Parent[i] = i` and `Rank[i] = 0` for all `i < n`, any
finite sequence of `Union(a, b)` calls with `a, b < n` runs to completion, and
afterwards, for all `a, b < n`, `Find(a)` and `Find(b)` return, and return the
same root if and only if `a` and `b` are related by the
reflexive-symmetric-transitive closure of the pairs passed to `Union`. -/
theorem UnionFind_find_eq_iff_linked (n : Nat) (ops : List (Nat × Nat))
    (hops : ∀ p ∈ ops, p.1 < n ∧ p.2 < n) (a b : Nat) (ha : a < n) (hb : b < n) :
    ∃ P R ra Pa rb Pb,
      UnionSeq ops (List.range n) (List.replicate n 0) = some (P, R) ∧
      Find a P = some (ra, Pa) ∧ Find b Pa = some (rb, Pb) ∧
      (ra = rb ↔ Linked ops a b) := by
  obtain ⟨P, R, rep, hS, inv, hrep⟩ :=
    UnionSeq_spec n ops [] _ _ id (UFInv_init n) (fun i j _ _ => by rw [Linked_nil]; rfl) hops
  obtain ⟨Pa, hFa, inva⟩ := Find_spec inv ha
  obtain ⟨Pb, hFb, _⟩ := Find_spec inva hb
  refine ⟨P, R, rep a, Pa, rep b, Pb, hS, hFa, hFb, ?_⟩
  simpa using hrep a b ha hb

/-- C3, at a concrete input: five elements, three unions. -/
theorem UnionFind_find_eq_iff_linked_witness :
    ∃ P R ra Pa rb Pb,
      UnionSeq [(0, 1), (3, 4), (1, 4)] (List.range 5) (List.replicate 5 0) = some (P, R) ∧
      Find 0 P = some (ra, Pa) ∧ Find 3 Pa = some (rb, Pb) ∧
      (ra = rb ↔ Linked [(0, 1), (3, 4), (1, 4)] 0 3) :=
  UnionFind_find_eq_iff_linked 5 [(0, 1), (3, 4), (1, 4)] (by decide) 0 3 (by decide) (by decide)

/-! ## Counting roots -/

theorem rootCount_erase {n : Nat} {rep rep1 : Nat → Nat} {x : Nat} (hx : x < n)
    (hrx : rep x = x) (h : ∀ i, rep1 i = i ↔ (rep i = i ∧ i ≠ x)) :
    rootCount n rep1 + 1 = rootCount n rep := by
  unfold rootCount
  have hmem : x ∈ (Finset.range n).filter (fun i => rep i = i) := by simp [hx, hrx]
  have heq : (Finset.range n).filter (fun i => rep1 i = i)
      = ((Finset.range n).filter (fun i => rep i = i)).erase x := by
    ext i
    simp only [Finset.mem_filter, Finset.mem_range, Finset.mem_erase, h]
    tauto
  rw [heq, Finset.card_erase_of_mem hmem]
  have : 0 < ((Finset.range n).filter (fun i => rep i = i)).card := Finset.card_pos.mpr ⟨x, hmem⟩
  omega

theorem rootCount_eq_one_iff {n : Nat} {rep : Nat → Nat} (hn : 0 < n)
    (hlt : ∀ i, i < n → rep i < n) (hidem : ∀ i, i < n → rep (rep i) = rep i) :
    rootCount n rep = 1 ↔ ∀ i j, i < n → j < n → rep i = rep j := by
  unfold rootCount
  constructor
  · intro h i j hi hj
    rw [Finset.card_eq_one] at h
    obtain ⟨r, hr⟩ := h
    have hi' : rep i ∈ (Finset.range n).filter (fun i => rep i = i) := by
      simp [hlt i hi, hidem i hi]
    have hj' : rep j ∈ (Finset.range n).filter (fun i => rep i = i) := by
      simp [hlt j hj, hidem j hj]
    rw [hr, Finset.mem_singleton] at hi' hj'
    rw [hi', hj']
  · intro h
    rw [Finset.card_eq_one]
    refine ⟨rep 0, ?_⟩
    ext i
    simp only [Finset.mem_filter, Finset.mem_range, Finset.mem_singleton]
    constructor
    · rintro ⟨hi, hri⟩
      rw [← hri]
      exact h i 0 hi hn
    · intro hi
      rw [hi]
      exact ⟨hlt 0 hn, hidem 0 hn⟩

theorem rootCount_id (n : Nat) : rootCount n id = n := by
  simp [rootCount]

/-! ## Connectivity by connections -/

theorem LinkedBy_snoc {D : Type} {F : List (FRoomConnection D)} {c : FRoomConnection D}
    {i j : Nat} :
    LinkedBy (F ++ [c]) i j ↔
      (LinkedBy F i j ∨ (LinkedBy F i c.RoomIndexA ∧ LinkedBy F c.RoomIndexB j) ∨
        (LinkedBy F i c.RoomIndexB ∧ LinkedBy F c.RoomIndexA j)) := by
  unfold LinkedBy
  rw [List.map_append]
  exact Linked_snoc

theorem LinkedBy_nil {D : Type} {i j : Nat} : LinkedBy ([] : List (FRoomConnection D)) i j ↔ i = j :=
  Linked_nil

/-! ## The edge loop follows the greedy choices -/

theorem KruskalLoop_spec {D : Type} (n M : Nat) :
    ∀ (es F : List (FRoomConnection D)) (P R : List Nat) (rep : Nat → Nat), UFInv n P R rep →
      (∀ i j, i < n → j < n → (rep i = rep j ↔ LinkedBy F i j)) →
      (∀ c ∈ es, c.RoomIndexA < n ∧ c.RoomIndexB < n) →
      rootCount n rep + F.length = n →
      ∃ res P1 R1 rep1, KruskalLoop M es P R F = some res ∧ Greedy M es F res ∧
        UFInv n P1 R1 rep1 ∧
        (∀ i j, i < n → j < n → (rep1 i = rep1 j ↔ LinkedBy res i j)) ∧
        rootCount n rep1 + res.length = n := by
  intro es
  induction es with
  | nil =>
    intro F P R rep inv hrep _ hcount
    exact ⟨F, P, R, rep, rfl, Greedy.done F, inv, hrep, hcount⟩
  | cons c rest ih =>
    intro F P R rep inv hrep hes hcount
    have hc : c.RoomIndexA < n ∧ c.RoomIndexB < n := hes c (List.mem_cons_self _ _)
    have hrest : ∀ c ∈ rest, c.RoomIndexA < n ∧ c.RoomIndexB < n :=
      fun c hc => hes c (List.mem_cons_of_mem _ hc)
    obtain ⟨Pa, hFa, inva⟩ := Find_spec inv hc.1
    obtain ⟨Pb, hFb, invb⟩ := Find_spec inva hc.2
    unfold KruskalLoop
    rw [hFa]
    dsimp only
    rw [hFb]
    dsimp only
    by_cases hab : rep c.RoomIndexA = rep c.RoomIndexB
    · rw [if_neg (not_not.mpr hab)]
      obtain ⟨res, P1, R1, rep1, h1, h2, h3⟩ := ih F Pb R rep invb hrep hrest hcount
      exact ⟨res, P1, R1, rep1, h1,
        Greedy.skip c rest F res ((hrep _ _ hc.1 hc.2).mp hab) h2, h3⟩
    · rw [if_pos (show rep c.RoomIndexA ≠ rep c.RoomIndexB from hab)]
      have hnl : ¬ LinkedBy F c.RoomIndexA c.RoomIndexB :=
        fun h => hab ((hrep _ _ hc.1 hc.2).mpr h)
      obtain ⟨P3, R3, rep3, hU, inv3, hiff, -, hroots⟩ := Union_spec invb hc.1 hc.2
      obtain ⟨x, hx, hrx, hx3⟩ := hroots hab
      rw [hU]
      dsimp only
      have hrep3 : ∀ i j, i < n → j < n → (rep3 i = rep3 j ↔ LinkedBy (F ++ [c]) i j) := by
        intro i j hi hj
        rw [hiff, LinkedBy_snoc, hrep i j hi hj, hrep i _ hi hc.1, hrep _ j hc.2 hj,
          hrep i _ hi hc.2, hrep _ j hc.1 hj]
      have hcount3 : rootCount n rep3 + (F ++ [c]).length = n := by
        have := rootCount_erase hx hrx hx3
        simp only [List.length_append, List.length_singleton]
        omega
      by_cases hlen : ((F ++ [c]).length : Int) = (M : Int) - 1
      · rw [if_pos hlen]
        exact ⟨F ++ [c], P3, R3, rep3, rfl, Greedy.stop c rest F hnl hlen, inv3, hrep3, hcount3⟩
      · rw [if_neg hlen]
        obtain ⟨res, P1, R1, rep1, h1, h2, h3⟩ := ih (F ++ [c]) P3 R3 rep3 inv3 hrep3 hrest hcount3
        exact ⟨res, P1, R1, rep1, h1, Greedy.take c rest F res hnl hlen h2, h3⟩

/-! ## Properties of the greedy choices -/

theorem LinkedBy_mono {D : Type} {F G : List (FRoomConnection D)} (h : ∀ c ∈ F, c ∈ G)
    {i j : Nat} (hij : LinkedBy F i j) : LinkedBy G i j := by
  refine Relation.EqvGen.mono ?_ hij
  intro a b hab
  simp only [List.mem_map] at hab ⊢
  obtain ⟨c, hc, hce⟩ := hab
  exact ⟨c, h c hc, hce⟩

theorem LinkedBy_of_mem {D : Type} {F : List (FRoomConnection D)} {c : FRoomConnection D}
    (h : c ∈ F) : LinkedBy F c.RoomIndexA c.RoomIndexB :=
  Relation.EqvGen.rel _ _ (List.mem_map.mpr ⟨c, h, rfl⟩)

theorem LinkedBy.symm {D : Type} {F : List (FRoomConnection D)} {i j : Nat}
    (h : LinkedBy F i j) : LinkedBy F j i := Relation.EqvGen.symm _ _ h

theorem LinkedBy.trans {D : Type} {F : List (FRoomConnection D)} {i j k : Nat}
    (h1 : LinkedBy F i j) (h2 : LinkedBy F j k) : LinkedBy F i k :=
  Relation.EqvGen.trans _ _ _ h1 h2

theorem LinkedBy.refl {D : Type} (F : List (FRoomConnection D)) (i : Nat) : LinkedBy F i i :=
  Relation.EqvGen.refl _

theorem Acyclic_nil {D : Type} : Acyclic ([] : List (FRoomConnection D)) := by
  intro l1 c l2 h
  simp at h

theorem Acyclic_snoc {D : Type} {F : List (FRoomConnection D)} {c : FRoomConnection D}
    (hF : Acyclic F) (hc : ¬ LinkedBy F c.RoomIndexA c.RoomIndexB) : Acyclic (F ++ [c]) := by
  intro l1 e l2 h
  rcases List.eq_nil_or_concat l2 with h2 | ⟨l2', b, h2⟩
  · subst h2
    have h' : F ++ [c] = l1 ++ [e] := h
    obtain ⟨h3, h4⟩ := List.append_inj' h' rfl
    simp only [List.cons.injEq, and_true] at h4
    subst h3; subst h4
    simpa using hc
  · subst h2
    have h' : F ++ [c] = (l1 ++ e :: l2') ++ [b] := by simpa using h
    obtain ⟨h3, h4⟩ := List.append_inj' h' rfl
    simp only [List.cons.injEq, and_true] at h4
    subst h4
    have hbridge : ¬ LinkedBy (l1 ++ l2') e.RoomIndexA e.RoomIndexB := hF l1 e l2' h3
    have hsub : ∀ d ∈ l1 ++ l2', d ∈ F := by
      intro d hd
      rw [h3]
      simp only [List.mem_append, List.mem_cons] at hd ⊢
      tauto
    have he : LinkedBy F e.RoomIndexA e.RoomIndexB := LinkedBy_of_mem (by rw [h3]; simp)
    intro hl
    rw [List.concat_eq_append, ← List.append_assoc, LinkedBy_snoc] at hl
    rcases hl with hl | ⟨h5, h6⟩ | ⟨h5, h6⟩
    · exact hbridge hl
    · exact hc (((LinkedBy_mono hsub h5).symm.trans he).trans (LinkedBy_mono hsub h6).symm)
    · exact hc ((LinkedBy_mono hsub h6).trans (he.symm.trans (LinkedBy_mono hsub h5)))

theorem Greedy.subset {D : Type} {M : Nat} {es F res : List (FRoomConnection D)}
    (h : Greedy M es F res) : ∀ c ∈ F, c ∈ res := by
  induction h with
  | done F => exact fun c hc => hc
  | skip c rest F res _ _ ih => exact ih
  | stop c rest F _ _ => exact fun d hd => List.mem_append_left _ hd
  | take c rest F res _ _ _ ih => exact fun d hd => ih d (List.mem_append_left _ hd)

theorem Greedy.mem {D : Type} {M : Nat} {es F res : List (FRoomConnection D)}
    (h : Greedy M es F res) : ∀ c ∈ res, c ∈ F ∨ c ∈ es := by
  induction h with
  | done F => exact fun c hc => Or.inl hc
  | skip c rest F res _ _ ih =>
    intro d hd
    rcases ih d hd with h | h
    · exact Or.inl h
    · exact Or.inr (List.mem_cons_of_mem _ h)
  | stop c rest F _ _ =>
    intro d hd
    simp only [List.mem_append, List.mem_singleton] at hd
    rcases hd with h | h
    · exact Or.inl h
    · exact Or.inr (by rw [h]; exact List.mem_cons_self _ _)
  | take c rest F res _ _ _ ih =>
    intro d hd
    rcases ih d hd with h | h
    · simp only [List.mem_append, List.mem_singleton] at h
      rcases h with h | h
      · exact Or.inl h
      · exact Or.inr (by rw [h]; exact List.mem_cons_self _ _)
    · exact Or.inr (List.mem_cons_of_mem _ h)

theorem Greedy.acyclic {D : Type} {M : Nat} {es F res : List (FRoomConnection D)}
    (h : Greedy M es F res) : Acyclic F → Acyclic res := by
  induction h with
  | done F => exact fun h => h
  | skip c rest F res _ _ ih => exact ih
  | stop c rest F hc _ => exact fun hF => Acyclic_snoc hF hc
  | take c rest F res hc _ _ ih => exact fun hF => ih (Acyclic_snoc hF hc)

/-- The loop either looked at every connection, and then each is bridged by the
result, or it stopped at `M - 1` accepted connections. -/
theorem Greedy.complete_or_full {D : Type} {M : Nat} {es F res : List (FRoomConnection D)}
    (h : Greedy M es F res) :
    (∀ c ∈ es, LinkedBy res c.RoomIndexA c.RoomIndexB) ∨ (res.length : Int) = (M : Int) - 1 := by
  induction h with
  | done F => exact Or.inl (fun c hc => by simp at hc)
  | skip c rest F res hc hg ih =>
    rcases ih with ih | ih
    · left
      intro d hd
      rcases List.mem_cons.mp hd with h | h
      · rw [h]; exact LinkedBy_mono hg.subset hc
      · exact ih d h
    · exact Or.inr ih
  | stop c rest F _ hlen => exact Or.inr hlen
  | take c rest F res _ _ hg ih =>
    rcases ih with ih | ih
    · left
      intro d hd
      rcases List.mem_cons.mp hd with h | h
      · rw [h]; exact LinkedBy_of_mem (hg.subset c (by simp))
      · exact ih d h
    · exact Or.inr ih

/-! ## The complete room graph -/

theorem mem_AllPairs {D : Type} {Dist : ℚ × ℚ → ℚ × ℚ → D} {Rooms : List FRoom}
    {c : FRoomConnection D} :
    c ∈ AllPairs Dist Rooms ↔
      ∃ i j RoomA RoomB, i < j ∧ j < Rooms.length ∧ Rooms[i]? = some RoomA ∧
        Rooms[j]? = some RoomB ∧ c = ⟨i, j, Dist (Center RoomA) (Center RoomB)⟩ := by
  unfold AllPairs
  simp only [List.mem_flatMap, List.mem_range, List.mem_range']
  constructor
  · rintro ⟨i, hi, j, ⟨k, hk, hj⟩, hc⟩
    have hjlt : j < Rooms.length := by omega
    rw [List.getElem?_eq_getElem hi, List.getElem?_eq_getElem hjlt] at hc
    simp only [List.mem_singleton] at hc
    exact ⟨i, j, Rooms[i], Rooms[j], by omega, hjlt, List.getElem?_eq_getElem hi,
      List.getElem?_eq_getElem hjlt, hc⟩
  · rintro ⟨i, j, RoomA, RoomB, hij, hj, hA, hB, hc⟩
    refine ⟨i, by omega, j, ⟨j - (i + 1), by omega, by omega⟩, ?_⟩
    rw [hA, hB]
    simp [hc]

theorem mem_GenerateAllRoomConnections {D : Type} [LinearOrder D] {Dist : ℚ × ℚ → ℚ × ℚ → D}
    {ArraySort : SortFn} (hSort : IsPermSort ArraySort) {Rooms : List FRoom}
    {c : FRoomConnection D} :
    c ∈ GenerateAllRoomConnections Dist ArraySort Rooms ↔ c ∈ AllPairs Dist Rooms :=
  (hSort _ _ _).mem_iff

/-- The run of `KruskalsMST` in terms of the greedy choices and the final
union-find classes. -/
theorem KruskalsMST_run {D : Type} [LinearOrder D] (Dist : ℚ × ℚ → ℚ × ℚ → D)
    (ArraySort : SortFn) (hSort : IsPermSort ArraySort) (Rooms : List FRoom) :
    ∃ MST P R rep, KruskalsMST Dist ArraySort Rooms = some MST ∧
      Greedy Rooms.length (GenerateAllRoomConnections Dist ArraySort Rooms) [] MST ∧
      UFInv Rooms.length P R rep ∧
      (∀ i j, i < Rooms.length → j < Rooms.length → (rep i = rep j ↔ LinkedBy MST i j)) ∧
      rootCount Rooms.length rep + MST.length = Rooms.length := by
  unfold KruskalsMST
  refine KruskalLoop_spec Rooms.length Rooms.length _ [] _ _ id (UFInv_init _) ?_ ?_ ?_
  · intro i j _ _
    rw [LinkedBy_nil]
    rfl
  · intro c hc
    rw [mem_GenerateAllRoomConnections hSort, mem_AllPairs] at hc
    obtain ⟨i, j, _, _, hij, hj, _, _, rfl⟩ := hc
    exact ⟨by show i < _; omega, hj⟩
  · simp [rootCount_id]

/-- C1. For every list of `M` rooms (and whatever rearrangement the engine's
sort makes of the connections), `KruskalsMST` returns connections over the room
indices `0..M-1` that are acyclic and connect all rooms: a spanning tree, with
exactly `M - 1` connections when `M >= 1`, and the empty list when `M <= 1`. -/
theorem KruskalsMST_spanning_tree {D : Type} [LinearOrder D] (Dist : ℚ × ℚ → ℚ × ℚ → D)
    (ArraySort : SortFn) (hSort : IsPermSort ArraySort) (Rooms : List FRoom) :
    ∃ MST, KruskalsMST Dist ArraySort Rooms = some MST ∧
      (∀ c ∈ MST, c.RoomIndexA < Rooms.length ∧ c.RoomIndexB < Rooms.length) ∧
      Acyclic MST ∧
      (∀ i j, i < Rooms.length → j < Rooms.length → LinkedBy MST i j) ∧
      (1 ≤ Rooms.length → MST.length = Rooms.length - 1) ∧
      (Rooms.length ≤ 1 → MST = []) := by
  obtain ⟨MST, P, R, rep, hrun, hg, inv, hrep, hcount⟩ := KruskalsMST_run Dist ArraySort hSort Rooms
  have hidem : ∀ i, i < Rooms.length → rep (rep i) = rep i :=
    fun i hi => inv.root_rep _ (inv.rep_lt i hi) (inv.rep_root i hi)
  have hpairs : ∀ c ∈ GenerateAllRoomConnections Dist ArraySort Rooms,
      c.RoomIndexA < c.RoomIndexB ∧ c.RoomIndexB < Rooms.length := by
    intro c hc
    rw [mem_GenerateAllRoomConnections hSort, mem_AllPairs] at hc
    obtain ⟨i, j, _, _, hij, hj, _, _, rfl⟩ := hc
    exact ⟨hij, hj⟩
  -- both ways out of the loop give one class and `M - 1` connections
  have hone : 1 ≤ Rooms.length → rootCount Rooms.length rep = 1 := by
    intro hM
    rcases hg.complete_or_full with hall | hfull
    · rw [rootCount_eq_one_iff hM inv.rep_lt hidem]
      have hlt : ∀ i j, i < j → j < Rooms.length → LinkedBy MST i j := by
        intro i j hij hj
        have hi : i < Rooms.length := by omega
        have hmem : (⟨i, j, Dist (Center Rooms[i]) (Center Rooms[j])⟩ : FRoomConnection D)
            ∈ GenerateAllRoomConnections Dist ArraySort Rooms := by
          rw [mem_GenerateAllRoomConnections hSort, mem_AllPairs]
          exact ⟨i, j, Rooms[i], Rooms[j], hij, hj, List.getElem?_eq_getElem hi,
            List.getElem?_eq_getElem hj, rfl⟩
        exact hall _ hmem
      intro i j hi hj
      rw [hrep i j hi hj]
      rcases Nat.lt_trichotomy i j with h | h | h
      · exact hlt i j h hj
      · rw [h]; exact LinkedBy.refl _ _
      · exact (hlt j i h hi).symm
    · omega
  refine ⟨MST, hrun, ?_, hg.acyclic Acyclic_nil, ?_, ?_, ?_⟩
  · intro c hc
    rcases hg.mem c hc with h | h
    · simp at h
    · have := hpairs c h
      omega
  · intro i j hi hj
    rw [← hrep i j hi hj]
    exact (rootCount_eq_one_iff (by omega) inv.rep_lt hidem).mp (hone (by omega)) i j hi hj
  · intro hM
    have := hone hM
    omega
  · intro hM
    rcases Nat.lt_or_ge 0 Rooms.length with h | h
    · have := hone h
      have hlen : MST.length = 0 := by omega
      exact List.length_eq_zero.mp hlen
    · have hlen : MST.length = 0 := by omega
      exact List.length_eq_zero.mp hlen

theorem InsertionSort_perm : IsPermSort InsertionSort :=
  fun _ _ l => List.perm_insertionSort _ l

/-- C1, at a concrete input: three rooms. -/
theorem KruskalsMST_spanning_tree_witness :
    ∃ MST, KruskalsMST SqDist InsertionSort
        [FRoom.new 0 0 4 4, FRoom.new 6 6 4 4, FRoom.new 0 6 5 4] = some MST ∧
      (∀ c ∈ MST, c.RoomIndexA < 3 ∧ c.RoomIndexB < 3) ∧
      Acyclic MST ∧
      (∀ i j, i < 3 → j < 3 → LinkedBy MST i j) ∧
      (1 ≤ 3 → MST.length = 3 - 1) ∧
      (3 ≤ 1 → MST = []) :=
  KruskalsMST_spanning_tree SqDist InsertionSort InsertionSort_perm
    [FRoom.new 0 0 4 4, FRoom.new 6 6 4 4, FRoom.new 0 6 5 4]

/-! ## Minimality of the greedy choices -/

theorem LinkedBy_of_generators {D : Type} {G H : List (FRoomConnection D)}
    (h : ∀ d ∈ G, LinkedBy H d.RoomIndexA d.RoomIndexB) {i j : Nat} (hij : LinkedBy G i j) :
    LinkedBy H i j := by
  induction hij with
  | rel x y hxy =>
    obtain ⟨d, hd, hde⟩ := List.mem_map.mp hxy
    simp only [endpoints, Prod.mk.injEq] at hde
    rw [← hde.1, ← hde.2]
    exact h d hd
  | refl x => exact LinkedBy.refl _ _
  | symm x y _ ih => exact ih.symm
  | trans x y z _ _ ih1 ih2 => exact ih1.trans ih2

/-- Going through `L` one connection at a time, there is a first one whose
addition connects `a` and `b`. -/
theorem exists_first_linking {D : Type} {a b : Nat} :
    ∀ (L S : List (FRoomConnection D)), LinkedBy (S ++ L) a b → ¬ LinkedBy S a b →
      ∃ L1 e L2, L = L1 ++ e :: L2 ∧ ¬ LinkedBy (S ++ L1) a b ∧ LinkedBy (S ++ L1 ++ [e]) a b := by
  intro L
  induction L with
  | nil =>
    intro S h hn
    rw [List.append_nil] at h
    exact absurd h hn
  | cons t L ih =>
    intro S h hn
    by_cases ht : LinkedBy (S ++ [t]) a b
    · exact ⟨[], t, L, rfl, by simpa using hn, by simpa using ht⟩
    · have h' : LinkedBy ((S ++ [t]) ++ L) a b := by simpa using h
      obtain ⟨L1, e, L2, hL, h1, h2⟩ := ih (S ++ [t]) h' ht
      refine ⟨t :: L1, e, L2, by rw [hL]; rfl, ?_, ?_⟩
      · simpa using h1
      · simpa using h2

/-- The exchange step: if adding `e` to `S` is what connects `a` and `b`, then
adding a connection `a`-`b` to `S` connects the two ends of `e`. -/
theorem exchange {D : Type} {S : List (FRoomConnection D)} {e c : FRoomConnection D}
    (hn : ¬ LinkedBy S c.RoomIndexA c.RoomIndexB)
    (h : LinkedBy (S ++ [e]) c.RoomIndexA c.RoomIndexB) :
    LinkedBy (S ++ [c]) e.RoomIndexA e.RoomIndexB ∧ ¬ LinkedBy S e.RoomIndexA e.RoomIndexB := by
  have hS : ∀ {i j}, LinkedBy S i j → LinkedBy (S ++ [c]) i j :=
    fun h => LinkedBy_mono (fun d hd => List.mem_append_left _ hd) h
  have hc : LinkedBy (S ++ [c]) c.RoomIndexA c.RoomIndexB := LinkedBy_of_mem (by simp)
  constructor
  · rw [LinkedBy_snoc] at h
    rcases h with h | ⟨h1, h2⟩ | ⟨h1, h2⟩
    · exact absurd h hn
    · exact ((hS h1).symm.trans hc).trans (hS h2).symm
    · exact ((hS h2).trans hc.symm).trans (hS h1)
  · intro he
    apply hn
    refine LinkedBy_of_generators ?_ h
    intro d hd
    rcases List.mem_append.mp hd with hd | hd
    · exact LinkedBy_of_mem hd
    · rw [List.mem_singleton.mp hd]; exact he

theorem TotalDistance_append {D : Type} [AddMonoid D] (F G : List (FRoomConnection D)) :
    TotalDistance (F ++ G) = TotalDistance F + TotalDistance G := by
  simp [TotalDistance, List.sum_append]

theorem TotalDistance_cons {D : Type} [AddMonoid D] (c : FRoomConnection D)
    (G : List (FRoomConnection D)) :
    TotalDistance (c :: G) = c.Distance + TotalDistance G := by
  simp [TotalDistance]

theorem TotalDistance_nonneg {D : Type} [LinearOrderedAddCommMonoid D]
    {F : List (FRoomConnection D)} (h : ∀ c ∈ F, 0 ≤ c.Distance) : 0 ≤ TotalDistance F := by
  unfold TotalDistance
  apply List.sum_nonneg
  intro x hx
  obtain ⟨c, hc, rfl⟩ := List.mem_map.mp hx
  exact h c hc

/-- Replacing `e` by a connection `c` that is no longer lowers the total. -/
theorem TotalDistance_swap_le {D : Type} [LinearOrderedAddCommMonoid D]
    (F L1 L2 : List (FRoomConnection D)) (c e : FRoomConnection D)
    (h : c.Distance ≤ e.Distance) :
    TotalDistance (F ++ [c]) + TotalDistance (L1 ++ L2)
      ≤ TotalDistance F + TotalDistance (L1 ++ e :: L2) := by
  simp only [TotalDistance_append, TotalDistance_cons]
  have e1 : TotalDistance F + (c.Distance + TotalDistance ([] : List (FRoomConnection D)))
      + (TotalDistance L1 + TotalDistance L2)
      = TotalDistance F + (TotalDistance L1 + (c.Distance + TotalDistance L2)) := by
    simp only [TotalDistance, List.map_nil, List.sum_nil, add_zero]
    rw [add_assoc, add_left_comm c.Distance]
  rw [e1]
  exact add_le_add_left (add_le_add_left (add_le_add_right h _) _) _

/-- The heart of Kruskal: along the greedy choices, any connecting set that
extends the forest `F` by `Rest` can be traded, connection by connection, for
the result without raising the total distance. -/
theorem Greedy.total_le {D : Type} [LinearOrderedAddCommMonoid D] {n M : Nat}
    {es F res : List (FRoomConnection D)} (h : Greedy M es F res) :
    ∀ Rest : List (FRoomConnection D),
      (∀ c ∈ es, c.RoomIndexA < n ∧ c.RoomIndexB < n) →
      es.Pairwise (fun a b => a.Distance ≤ b.Distance) →
      (∀ d ∈ Rest, ¬ LinkedBy F d.RoomIndexA d.RoomIndexB → d ∈ es) →
      (∀ d ∈ Rest, 0 ≤ d.Distance) →
      (∀ i j, i < n → j < n → LinkedBy (F ++ Rest) i j) →
      TotalDistance res ≤ TotalDistance F + TotalDistance Rest := by
  induction h with
  | done F =>
    intro Rest _ _ _ hnn _
    exact le_add_of_nonneg_right (TotalDistance_nonneg hnn)
  | skip c rest F res hc _ ih =>
    intro Rest hes hsorted hproc hnn hconn
    refine ih Rest (fun d hd => hes d (List.mem_cons_of_mem _ hd)) (List.Pairwise.of_cons hsorted)
      ?_ hnn hconn
    intro d hd hdn
    rcases List.mem_cons.mp (hproc d hd hdn) with h | h
    · rw [h] at hdn
      exact absurd hc hdn
    · exact h
  | stop c rest F hc _ =>
    intro Rest hes hsorted hproc hnn hconn
    have hcn := hes c (List.mem_cons_self _ _)
    obtain ⟨L1, e, L2, hL, h1, h2⟩ :=
      exists_first_linking Rest F (hconn _ _ hcn.1 hcn.2) hc
    obtain ⟨-, hen⟩ := exchange h1 h2
    have heF : ¬ LinkedBy F e.RoomIndexA e.RoomIndexB :=
      fun h => hen (LinkedBy_mono (fun d hd => List.mem_append_left _ hd) h)
    have heRest : e ∈ Rest := by rw [hL]; simp
    have hle : c.Distance ≤ e.Distance := by
      rcases List.mem_cons.mp (hproc e heRest heF) with h | h
      · rw [h]
      · exact List.rel_of_pairwise_cons hsorted h
    have hnn' : ∀ d ∈ L1 ++ L2, 0 ≤ d.Distance := by
      intro d hd
      apply hnn d
      rw [hL]
      simp only [List.mem_append, List.mem_cons] at hd ⊢
      tauto
    calc TotalDistance (F ++ [c])
        ≤ TotalDistance (F ++ [c]) + TotalDistance (L1 ++ L2) :=
          le_add_of_nonneg_right (TotalDistance_nonneg hnn')
      _ ≤ TotalDistance F + TotalDistance (L1 ++ e :: L2) := TotalDistance_swap_le F L1 L2 c e hle
      _ = TotalDistance F + TotalDistance Rest := by rw [hL]
  | take c rest F res hc _ hg ih =>
    intro Rest hes hsorted hproc hnn hconn
    have hcn := hes c (List.mem_cons_self _ _)
    obtain ⟨L1, e, L2, hL, h1, h2⟩ :=
      exists_first_linking Rest F (hconn _ _ hcn.1 hcn.2) hc
    obtain ⟨hec, hen⟩ := exchange h1 h2
    have heF : ¬ LinkedBy F e.RoomIndexA e.RoomIndexB :=
      fun h => hen (LinkedBy_mono (fun d hd => List.mem_append_left _ hd) h)
    have heRest : e ∈ Rest := by rw [hL]; simp
    have hle : c.Distance ≤ e.Distance := by
      rcases List.mem_cons.mp (hproc e heRest heF) with h | h
      · rw [h]
      · exact List.rel_of_pairwise_cons hsorted h
    have hsub : ∀ d ∈ L1 ++ L2, d ∈ Rest := by
      intro d hd
      rw [hL]
      simp only [List.mem_append, List.mem_cons] at hd ⊢
      tauto
    have hstep := ih (L1 ++ L2) (fun d hd => hes d (List.mem_cons_of_mem _ hd))
      (List.Pairwise.of_cons hsorted) ?_ (fun d hd => hnn d (hsub d hd)) ?_
    · exact le_trans hstep (by rw [hL]; exact TotalDistance_swap_le F L1 L2 c e hle)
    · intro d hd hdn
      have hdF : ¬ LinkedBy F d.RoomIndexA d.RoomIndexB :=
        fun h => hdn (LinkedBy_mono (fun d hd => List.mem_append_left _ hd) h)
      rcases List.mem_cons.mp (hproc d (hsub d hd) hdF) with h | h
      · rw [h] at hdn
        exact absurd (LinkedBy_of_mem (by simp)) hdn
      · exact h
    · intro i j hi hj
      refine LinkedBy_of_generators ?_ (hconn i j hi hj)
      intro d hd
      rw [hL] at hd
      simp only [List.mem_append, List.mem_cons] at hd
      have hmem : ∀ x, (x ∈ F ∨ x ∈ L1 ∨ x ∈ L2) → x ∈ (F ++ [c]) ++ (L1 ++ L2) := by
        intro x hx
        simp only [List.mem_append, List.mem_singleton]
        tauto
      rcases hd with hd | hd | hd | hd
      · exact LinkedBy_of_mem (hmem d (Or.inl hd))
      · exact LinkedBy_of_mem (hmem d (Or.inr (Or.inl hd)))
      · rw [hd]
        refine LinkedBy_mono ?_ hec
        intro x hx
        simp only [List.mem_append, List.mem_singleton] at hx ⊢
        tauto
      · exact LinkedBy_of_mem (hmem d (Or.inr (Or.inr hd)))

/-- C2. For every list of rooms, with any non-negative distance function and a
sort that orders the connections by ascending distance, the total distance of
the connections returned by `KruskalsMST` is at most the total distance of any
set `T` of connections of the complete room graph (one connection for each
`i < j`, weighted by the distance between the rectangle centers) that connects
all rooms. -/
theorem KruskalsMST_minimal {D : Type} [LinearOrderedAddCommMonoid D]
    (Dist : ℚ × ℚ → ℚ × ℚ → D) (hDist : ∀ p q, 0 ≤ Dist p q)
    (ArraySort : SortFn) (hSort : IsPermSort ArraySort) (hSorted : SortsByDistance D ArraySort)
    (Rooms : List FRoom) (T : List (FRoomConnection D))
    (hT : ∀ c ∈ T, c ∈ AllPairs Dist Rooms)
    (hconn : ∀ i j, i < Rooms.length → j < Rooms.length → LinkedBy T i j) :
    ∃ MST, KruskalsMST Dist ArraySort Rooms = some MST ∧
      TotalDistance MST ≤ TotalDistance T := by
  obtain ⟨MST, P, R, rep, hrun, hg, -, -, -⟩ := KruskalsMST_run Dist ArraySort hSort Rooms
  refine ⟨MST, hrun, ?_⟩
  have h := hg.total_le (n := Rooms.length) T ?_ (hSorted _) ?_ ?_ ?_
  · simpa [TotalDistance] using h
  · intro c hc
    rw [mem_GenerateAllRoomConnections hSort, mem_AllPairs] at hc
    obtain ⟨i, j, _, _, hij, hj, _, _, rfl⟩ := hc
    exact ⟨by show i < _; omega, hj⟩
  · intro d hd _
    exact (mem_GenerateAllRoomConnections hSort).mpr (hT d hd)
  · intro d hd
    have := hT d hd
    rw [mem_AllPairs] at this
    obtain ⟨i, j, _, _, _, _, _, _, rfl⟩ := this
    exact hDist _ _
  · intro i j hi hj
    simpa using hconn i j hi hj

theorem InsertionSort_sorts (D : Type) [LinearOrder D] : SortsByDistance D InsertionSort := by
  intro l
  have htotal : IsTotal (FRoomConnection D) (fun a b => FRoomConnection.lt b a = false) :=
    ⟨fun a b => by
      simp only [FRoomConnection.lt, decide_eq_false_iff_not, not_lt]
      exact le_total _ _⟩
  have htrans : IsTrans (FRoomConnection D) (fun a b => FRoomConnection.lt b a = false) :=
    ⟨fun a b c => by
      simp only [FRoomConnection.lt, decide_eq_false_iff_not, not_lt]
      exact le_trans⟩
  have h := List.sorted_insertionSort (fun a b : FRoomConnection D => FRoomConnection.lt b a = false) l
  refine List.Pairwise.imp ?_ h
  intro a b hab
  simpa [FRoomConnection.lt] using hab

theorem SqDist_nonneg (p q : ℚ × ℚ) : 0 ≤ SqDist p q :=
  add_nonneg (mul_self_nonneg _) (mul_self_nonneg _)

theorem AllPairs_connects {D : Type} (Dist : ℚ × ℚ → ℚ × ℚ → D) (Rooms : List FRoom)
    (i j : Nat) (hi : i < Rooms.length) (hj : j < Rooms.length) :
    LinkedBy (AllPairs Dist Rooms) i j := by
  have hlt : ∀ i j, i < j → j < Rooms.length → LinkedBy (AllPairs Dist Rooms) i j := by
    intro i j hij hj
    have hi : i < Rooms.length := by omega
    have hmem : (⟨i, j, Dist (Center Rooms[i]) (Center Rooms[j])⟩ : FRoomConnection D)
        ∈ AllPairs Dist Rooms := by
      rw [mem_AllPairs]
      exact ⟨i, j, Rooms[i], Rooms[j], hij, hj, List.getElem?_eq_getElem hi,
        List.getElem?_eq_getElem hj, rfl⟩
    exact LinkedBy_of_mem hmem
  rcases Nat.lt_trichotomy i j with h | h | h
  · exact hlt i j h hj
  · rw [h]; exact LinkedBy.refl _ _
  · exact (hlt j i h hi).symm

/-- C2, at a concrete input: three rooms, squared distances, compared with the
complete graph itself. -/
theorem KruskalsMST_minimal_witness :
    ∃ MST, KruskalsMST SqDist InsertionSort
        [FRoom.new 0 0 4 4, FRoom.new 6 6 4 4, FRoom.new 0 6 5 4] = some MST ∧
      TotalDistance MST ≤ TotalDistance
        (AllPairs SqDist [FRoom.new 0 0 4 4, FRoom.new 6 6 4 4, FRoom.new 0 6 5 4]) :=
  KruskalsMST_minimal SqDist SqDist_nonneg InsertionSort InsertionSort_perm
    (InsertionSort_sorts ℚ) [FRoom.new 0 0 4 4, FRoom.new 6 6 4 4, FRoom.new 0 6 5 4]
    (AllPairs SqDist [FRoom.new 0 0 4 4, FRoom.new 6 6 4 4, FRoom.new 0 6 5 4])
    (fun _ h => h) (AllPairs_connects SqDist _)

/-! ## The room placer keeps rooms apart and inside the grid -/

theorem mem_RectCells {sx sy rw rh x y : Int} :
    (x, y) ∈ RectCells sx sy rw rh ↔ (sx ≤ x ∧ x < sx + rw ∧ sy ≤ y ∧ y < sy + rh) := by
  unfold RectCells
  simp only [List.mem_flatMap, List.mem_range, List.mem_map, Prod.mk.injEq]
  constructor
  · rintro ⟨dy, hdy, dx, hdx, rfl, rfl⟩
    omega
  · rintro ⟨h1, h2, h3, h4⟩
    exact ⟨(y - sy).toNat, by omega, (x - sx).toNat, by omega, by omega, by omega⟩

theorem index_in_range {W H x y : Int} (hx0 : 0 ≤ x) (hx : x < W) (hy0 : 0 ≤ y) (hy : y < H) :
    0 ≤ y * W + x ∧ y * W + x < W * H := by
  constructor
  · have : 0 ≤ y * W := mul_nonneg hy0 (by omega)
    omega
  · have h1 : (y + 1) * W ≤ H * W := mul_le_mul_of_nonneg_right (by omega) (by omega)
    nlinarith

theorem GridGet_isSome {Grid : List Int} {i : Int} (h0 : 0 ≤ i) (h1 : i < Grid.length) :
    ∃ v, GridGet Grid i = some v := by
  unfold GridGet
  rw [if_pos ⟨h0, h1⟩]
  have : i.toNat < Grid.length := by omega
  exact ⟨Grid[i.toNat], List.getElem?_eq_getElem this⟩

theorem GridGet_lt {Grid : List Int} {i v : Int} (h : GridGet Grid i = some v) :
    0 ≤ i ∧ i < Grid.length := by
  unfold GridGet at h
  by_contra hc
  rw [if_neg hc] at h
  exact absurd h (by simp)

theorem GridGet_set {Grid : List Int} {i j v : Int} (hi : 0 ≤ i ∧ i < Grid.length) :
    GridGet (Grid.set i.toNat v) j = if j = i then some v else GridGet Grid j := by
  unfold GridGet
  simp only [List.length_set]
  by_cases hj : 0 ≤ j ∧ j < Grid.length
  · rw [if_pos hj, if_pos hj]
    by_cases hji : j = i
    · subst hji
      have : j.toNat < Grid.length := by omega
      simp [this]
    · rw [if_neg hji]
      have : i.toNat ≠ j.toNat := by omega
      rw [List.getElem?_set_ne this]
  · rw [if_neg hj, if_neg hj]
    have : j ≠ i := by
      rintro rfl
      exact hj hi
    rw [if_neg this]

/-- The loop `CanPlaceRoomLoop` over cells that are all inside the array answers, and
answers `true` exactly when every cell is `0`. -/
theorem CanPlaceRoomLoop_spec {W : Int} {Grid : List Int} :
    ∀ cells : List Pos,
      (∀ c ∈ cells, 0 ≤ c.2 * W + c.1 ∧ c.2 * W + c.1 < Grid.length) →
      ∃ b, CanPlaceRoomLoop W Grid cells = some b ∧
        (b = true → ∀ c ∈ cells, GridGet Grid (c.2 * W + c.1) = some 0) := by
  intro cells
  induction cells with
  | nil => intro _; exact ⟨true, rfl, fun _ c hc => by simp at hc⟩
  | cons c rest ih =>
    intro hin
    obtain ⟨x, y⟩ := c
    have hc := hin (x, y) (List.mem_cons_self _ _)
    obtain ⟨v, hv⟩ := GridGet_isSome hc.1 hc.2
    obtain ⟨b, hb, hb'⟩ := ih (fun c hc => hin c (List.mem_cons_of_mem _ hc))
    unfold CanPlaceRoomLoop
    rw [hv]
    dsimp only
    by_cases hv0 : v = 0
    · rw [if_neg (not_not.mpr hv0)]
      refine ⟨b, hb, fun hbt c hc => ?_⟩
      rcases List.mem_cons.mp hc with h | h
      · rw [h, hv, hv0]
      · exact hb' hbt c h
    · rw [if_pos hv0]
      exact ⟨false, rfl, fun h => by simp at h⟩

/-- The loop `PlaceRoomLoop` over cells inside the array succeeds, keeps the length,
tags every visited cell `1` and keeps every `1`. -/
theorem PlaceRoomLoop_spec {W : Int} :
    ∀ (cells : List Pos) (Grid : List Int),
      (∀ c ∈ cells, 0 ≤ c.2 * W + c.1 ∧ c.2 * W + c.1 < Grid.length) →
      ∃ Grid1, PlaceRoomLoop W Grid cells = some Grid1 ∧ Grid1.length = Grid.length ∧
        (∀ c ∈ cells, GridGet Grid1 (c.2 * W + c.1) = some 1) ∧
        (∀ i, GridGet Grid i = some 1 → GridGet Grid1 i = some 1) := by
  intro cells
  induction cells with
  | nil => intro Grid _; exact ⟨Grid, rfl, rfl, fun c hc => by simp at hc, fun _ h => h⟩
  | cons c rest ih =>
    intro Grid hin
    obtain ⟨x, y⟩ := c
    have hc := hin (x, y) (List.mem_cons_self _ _)
    have hrest : ∀ c ∈ rest, 0 ≤ c.2 * W + c.1 ∧
        c.2 * W + c.1 < ((Grid.set (y * W + x).toNat 1).length : Int) := by
      intro c hc'
      rw [List.length_set]
      exact hin c (List.mem_cons_of_mem _ hc')
    obtain ⟨Grid1, h1, h2, h3, h4⟩ := ih (Grid.set (y * W + x).toNat 1) hrest
    refine ⟨Grid1, ?_, ?_, ?_, ?_⟩
    · simp only [PlaceRoomLoop, GridSet]
      rw [if_pos hc]
      exact h1
    · rw [h2, List.length_set]
    · intro c hc'
      rcases List.mem_cons.mp hc' with h | h
      · rw [h]
        apply h4
        rw [GridGet_set hc]
        simp
      · exact h3 c h
    · intro i hi
      apply h4
      rw [GridGet_set hc]
      split
      · rfl
      · exact hi

/-- One accepted placement keeps the invariant of the room placer. -/
theorem PlacerInv.place {W H : Int} {Grid : List Int} {Rooms : List FRoom}
    (inv : PlacerInv W H Grid Rooms) (sx sy rw rh : Int)
    (hx0 : 0 ≤ sx) (hx1 : sx + rw ≤ W) (hy0 : 0 ≤ sy) (hy1 : sy + rh ≤ H) :
    ∃ b, CanPlaceRoom W Grid sx sy rw rh = some b ∧
      (b = true → ∃ Grid1, PlaceRoom W Grid Rooms sx sy rw rh
          = some (Grid1, Rooms ++ [FRoom.new sx sy rw rh]) ∧
        PlacerInv W H Grid1 (Rooms ++ [FRoom.new sx sy rw rh])) := by
  have hin : ∀ c ∈ RectCells sx sy rw rh, 0 ≤ c.2 * W + c.1 ∧ c.2 * W + c.1 < Grid.length := by
    rintro ⟨x, y⟩ hc
    rw [mem_RectCells] at hc
    rw [inv.len]
    exact index_in_range (by omega) (by omega) (by omega) (by omega)
  obtain ⟨b, hb, hzero⟩ := CanPlaceRoomLoop_spec (RectCells sx sy rw rh) hin
  refine ⟨b, hb, fun hbt => ?_⟩
  obtain ⟨Grid1, h1, h2, h3, h4⟩ := PlaceRoomLoop_spec (RectCells sx sy rw rh) Grid hin
  refine ⟨Grid1, by simp only [PlaceRoom, h1], ?_⟩
  constructor
  · rw [h2]; exact inv.len
  · intro r hr
    rcases List.mem_append.mp hr with h | h
    · exact inv.inside r h
    · rw [List.mem_singleton.mp h]
      exact ⟨hx0, hx1, hy0, hy1⟩
  · intro r hr x y hxy
    rcases List.mem_append.mp hr with h | h
    · exact h4 _ (inv.tagged r h x y hxy)
    · rw [List.mem_singleton.mp h] at hxy
      exact h3 (x, y) (mem_RectCells.mpr hxy)
  · rw [List.pairwise_append]
    refine ⟨inv.disjoint, List.pairwise_singleton _ _, ?_⟩
    intro a ha b' hb' hov
    rw [List.mem_singleton.mp hb'] at hov
    obtain ⟨x, y, hxa, hxb⟩ := hov
    have e1 := inv.tagged a ha x y hxa
    have e0 := hzero hbt (x, y) (mem_RectCells.mpr hxb)
    rw [e1] at e0
    exact absurd e0 (by decide)

theorem PlaceOneRoom_spec {Rand : RandFn} (hRand : RandInRange Rand) {W H : Int}
    (hW : 5 ≤ W) (hH : 5 ≤ H) :
    ∀ (left k : Nat) (Grid : List Int) (Rooms : List FRoom), PlacerInv W H Grid Rooms →
      ∃ k1 Grid1 Rooms1, PlaceOneRoom Rand W H left k Grid Rooms = some (k1, Grid1, Rooms1) ∧
        PlacerInv W H Grid1 Rooms1 := by
  intro left
  induction left with
  | zero => intro k Grid Rooms inv; exact ⟨k, Grid, Rooms, rfl, inv⟩
  | succ left ih =>
    intro k Grid Rooms inv
    have hw := hRand k 4 5 (by decide)
    have hh := hRand (k + 1) 4 5 (by decide)
    have hx := hRand (k + 2) 0 (W - Rand k 4 5) (by omega)
    have hy := hRand (k + 3) 0 (H - Rand (k + 1) 4 5) (by omega)
    obtain ⟨b, hb, hplace⟩ := inv.place (Rand (k + 2) 0 (W - Rand k 4 5))
      (Rand (k + 3) 0 (H - Rand (k + 1) 4 5)) (Rand k 4 5) (Rand (k + 1) 4 5)
      hx.1 (by omega) hy.1 (by omega)
    unfold PlaceOneRoom
    dsimp only
    rw [hb]
    cases b with
    | true =>
      obtain ⟨Grid1, h1, inv1⟩ := hplace rfl
      dsimp only
      rw [h1]
      exact ⟨k + 4, Grid1, _, rfl, inv1⟩
    | false =>
      dsimp only
      exact ih (k + 4) Grid Rooms inv

theorem PlaceRoomsLoop_spec {Rand : RandFn} (hRand : RandInRange Rand) {W H : Int}
    (hW : 5 ≤ W) (hH : 5 ≤ H) :
    ∀ (todo k : Nat) (Grid : List Int) (Rooms : List FRoom), PlacerInv W H Grid Rooms →
      ∃ k1 Grid1 Rooms1, PlaceRoomsLoop Rand W H todo k Grid Rooms = some (k1, Grid1, Rooms1) ∧
        PlacerInv W H Grid1 Rooms1 := by
  intro todo
  induction todo with
  | zero => intro k Grid Rooms inv; exact ⟨k, Grid, Rooms, rfl, inv⟩
  | succ todo ih =>
    intro k Grid Rooms inv
    obtain ⟨k1, Grid1, Rooms1, h1, inv1⟩ := PlaceOneRoom_spec hRand hW hH 100 k Grid Rooms inv
    obtain ⟨k2, Grid2, Rooms2, h2, inv2⟩ := ih k1 Grid1 Rooms1 inv1
    refine ⟨k2, Grid2, Rooms2, ?_, inv2⟩
    simp only [PlaceRoomsLoop, h1]
    exact h2

/-- The `int32` product of the sizes of a grid of fewer than `2^31` cells is exact. -/
theorem WrapInt32_of_bound {a : Int} (h0 : 0 ≤ a) (h1 : a < 2147483648) : WrapInt32 a = a := by
  unfold WrapInt32
  omega

theorem PlacerInv_init {W H : Int} (hW : 0 ≤ W) (hH : 0 ≤ H) (hB : W * H < 2147483648) :
    InitializeGrid W H = some (List.replicate (W * H).toNat 0) ∧
      PlacerInv W H (List.replicate (W * H).toNat 0) [] := by
  have h : 0 ≤ W * H := mul_nonneg hW hH
  refine ⟨by simp [InitializeGrid, WrapInt32_of_bound h hB, h], ?_⟩
  constructor
  · simp [h]
  · intro r hr; simp at hr
  · intro r hr; simp at hr
  · exact List.Pairwise.nil

/-- C4. For every grid with `Width >= 5` and `Height >= 5` whose `Width * Height` cells
an array can hold (fewer than `2^31`, so that the `int32` product in `InitializeGrid` is
exact), every requested room count and every sequence of random draws (each within the
range it was asked for), `InitializeGrid` followed by `PlaceMultipleRooms` on an empty
`Rooms` list runs to completion, and afterwards no two rooms of `Rooms` overlap and
every room lies fully inside the grid. -/
theorem PlaceMultipleRooms_disjoint_inside (Rand : RandFn) (hRand : RandInRange Rand)
    (Width Height : Int) (hW : 5 ≤ Width) (hH : 5 ≤ Height)
    (hBound : Width * Height < 2147483648) (NumberOfRooms : Int) (k : Nat) :
    ∃ Grid0 k1 Grid Rooms, InitializeGrid Width Height = some Grid0 ∧
      PlaceMultipleRooms Rand Width Height NumberOfRooms k Grid0 [] = some (k1, Grid, Rooms) ∧
      Rooms.Pairwise (fun a b => ¬ Overlap a b) ∧
      ∀ r ∈ Rooms, 0 ≤ r.StartX ∧ r.StartX + r.Width ≤ Width ∧
        0 ≤ r.StartY ∧ r.StartY + r.Height ≤ Height := by
  obtain ⟨h0, inv0⟩ := PlacerInv_init (W := Width) (H := Height) (by omega) (by omega) hBound
  obtain ⟨k1, Grid, Rooms, h1, inv1⟩ :=
    PlaceRoomsLoop_spec hRand hW hH NumberOfRooms.toNat k _ [] inv0
  exact ⟨_, k1, Grid, Rooms, h0, h1, inv1.disjoint, inv1.inside⟩

theorem RandMin_inRange : RandInRange RandMin := fun _ _ _ h => ⟨le_refl _, h⟩

theorem RandCycle_inRange : RandInRange RandCycle := by
  intro k lo hi h
  unfold RandCycle
  rw [if_pos h]
  have h1 : 0 ≤ (k : Int) % (hi - lo + 1) := Int.emod_nonneg _ (by omega)
  have h2 : (k : Int) % (hi - lo + 1) < hi - lo + 1 := Int.emod_lt_of_pos _ (by omega)
  omega

theorem RandMinThenMax_inRange : RandInRange RandMinThenMax := by
  intro k lo hi h
  unfold RandMinThenMax
  split_ifs <;> omega

/-- The `int32` product of `InitializeGrid` outside the bound: at 65536 x 65536 it wraps to
`0` and the grid is empty; at 46341 x 46341 it wraps to a negative number, which is not a
size. -/
theorem InitializeGrid_wraps :
    InitializeGrid 65536 65536 = some [] ∧ InitializeGrid 46341 46341 = none := by
  decide

/-- C4, at a concrete input: a 14 x 5 grid, three rooms asked for, the draws walking
through their ranges; the three rooms `(2, 0, 4, 5)`, `(6, 0, 4, 5)` and `(10, 0, 4, 5)`
are placed, each at its first attempt. -/
theorem PlaceMultipleRooms_disjoint_inside_witness :
    ∃ Grid0 k1 Grid Rooms, InitializeGrid 14 5 = some Grid0 ∧
      PlaceMultipleRooms RandCycle 14 5 3 0 Grid0 [] = some (k1, Grid, Rooms) ∧
      Grid0 = List.replicate 70 0 ∧ k1 = 12 ∧
      Grid =
        [0, 0, 1, 1, 1, 1, 1, 1, 1, 1, 1, 1, 1, 1,
         0, 0, 1, 1, 1, 1, 1, 1, 1, 1, 1, 1, 1, 1,
         0, 0, 1, 1, 1, 1, 1, 1, 1, 1, 1, 1, 1, 1,
         0, 0, 1, 1, 1, 1, 1, 1, 1, 1, 1, 1, 1, 1,
         0, 0, 1, 1, 1, 1, 1, 1, 1, 1, 1, 1, 1, 1] ∧
      Rooms = [FRoom.new 2 0 4 5, FRoom.new 6 0 4 5, FRoom.new 10 0 4 5] ∧
      Rooms.Pairwise (fun a b => ¬ Overlap a b) ∧
      ∀ r ∈ Rooms, 0 ≤ r.StartX ∧ r.StartX + r.Width ≤ 14 ∧
        0 ≤ r.StartY ∧ r.StartY + r.Height ≤ 5 := by
  obtain ⟨Grid0, k1, Grid, Rooms, h0, h1, h2, h3⟩ :=
    PlaceMultipleRooms_disjoint_inside RandCycle RandCycle_inRange 14 5 (by decide) (by decide)
      (by decide) 3 0
  have e0 : InitializeGrid 14 5 = some (List.replicate 70 0) := by decide
  have e1 : PlaceMultipleRooms RandCycle 14 5 3 0 (List.replicate 70 0) [] =
      some (12,
        [0, 0, 1, 1, 1, 1, 1, 1, 1, 1, 1, 1, 1, 1,
         0, 0, 1, 1, 1, 1, 1, 1, 1, 1, 1, 1, 1, 1,
         0, 0, 1, 1, 1, 1, 1, 1, 1, 1, 1, 1, 1, 1,
         0, 0, 1, 1, 1, 1, 1, 1, 1, 1, 1, 1, 1, 1,
         0, 0, 1, 1, 1, 1, 1, 1, 1, 1, 1, 1, 1, 1],
        [FRoom.new 2 0 4 5, FRoom.new 6 0 4 5, FRoom.new 10 0 4 5]) := by decide
  rw [e0] at h0
  cases h0
  rw [e1] at h1
  cases h1
  exact ⟨_, _, _, _, e0, e1, rfl, rfl, rfl, rfl, h2, h3⟩

/-- C5, on the code: on a 3 x 5 grid, too narrow for the smallest room, with
the draws `RoomWidth = 4`, `RoomHeight = 4`, `StartX = 0`, `StartY = 0`, every
index `Y * 3 + X` that `CanPlaceRoom` reads is inside the 15-cell array, so the
room is accepted: `PlaceMultipleRooms(1)` places a room and tags 13 cells `1`.
On a 5 x 3 grid, too low, the first attempt reads outside the array. -/
theorem PlaceMultipleRooms_small_grid :
    InitializeGrid 3 5 = some (List.replicate 15 0) ∧
      PlaceMultipleRooms RandMin 3 5 1 0 (List.replicate 15 0) []
        = some (4, [1, 1, 1, 1, 1, 1, 1, 1, 1, 1, 1, 1, 1, 0, 0], [FRoom.new 0 0 4 4]) ∧
      InitializeGrid 5 3 = some (List.replicate 15 0) ∧
      PlaceMultipleRooms RandMin 5 3 1 0 (List.replicate 15 0) [] = none := by
  decide

/-! ## The pathfinder: loop invariant and termination -/

theorem mem_GetNeighbors {W H : Int} {Grid : List Int} {Rooms : List FRoom} {c S T nb : Pos} :
    nb ∈ GetNeighbors W H Grid Rooms c S T ↔
      (IsStep c nb ∧ InGrid W H nb ∧ IsWalkable W Grid Rooms nb S T = true) := by
  obtain ⟨cx, cy⟩ := c
  obtain ⟨nx, ny⟩ := nb
  simp only [GetNeighbors, Directions, List.map_cons, List.map_nil, List.mem_filter,
    List.mem_cons, Prod.mk.injEq, List.mem_nil_iff, or_false, Bool.and_eq_true,
    decide_eq_true_eq, IsStep, InGrid]
  constructor
  · rintro ⟨h, h2, h3⟩
    exact ⟨by omega, by omega, h3⟩
  · rintro ⟨h, h2, h3⟩
    exact ⟨by omega, by omega, h3⟩

theorem mem_GridCells {W H : Int} {p : Pos} : p ∈ GridCells W H ↔ InGrid W H p := by
  simp only [GridCells, Finset.mem_product, Finset.mem_Icc, InGrid]
  omega

theorem card_GridCells (W H : Int) : (GridCells W H).card = W.toNat * H.toNat := by
  simp [GridCells, Finset.card_product, Int.card_Icc]

theorem unseen_le {D : Type} (W H : Int) (A : NodeMap D) : unseen W H A ≤ W.toNat * H.toNat := by
  rw [← card_GridCells]
  exact Finset.card_filter_le _ _

theorem Reach.inGrid {W H : Int} {Grid : List Int} {Rooms : List FRoom} {S T p : Pos}
    (h : Reach W H Grid Rooms S T p) : p = S ∨ InGrid W H p := by
  cases h with
  | start => exact Or.inl rfl
  | step _ _ hg _ => exact Or.inr hg

theorem IsStep.ne {p q : Pos} (h : IsStep p q) : p ≠ q := by
  intro hpq
  subst hpq
  unfold IsStep at h
  omega

theorem unseen_update_none {D : Type} {W H : Int} {A : NodeMap D} {nb : Pos}
    {n : FAStarNode D} (hg : InGrid W H nb) (hnone : A nb = none) :
    unseen W H (Function.update A nb (some n)) + 1 = unseen W H A := by
  unfold unseen
  have hmem : nb ∈ (GridCells W H).filter (fun p => (A p).isNone = true) := by
    simp [mem_GridCells, hg, hnone]
  have heq : (GridCells W H).filter (fun p => (Function.update A nb (some n) p).isNone = true)
      = ((GridCells W H).filter (fun p => (A p).isNone = true)).erase nb := by
    ext p
    simp only [Finset.mem_filter, Finset.mem_erase]
    by_cases hp : p = nb
    · subst hp
      simp
    · rw [Function.update_noteq hp]
      tauto
  rw [heq, Finset.card_erase_of_mem hmem]
  have : 0 < ((GridCells W H).filter (fun p => (A p).isNone = true)).card :=
    Finset.card_pos.mpr ⟨nb, hmem⟩
  omega

theorem unseen_update_some {D : Type} {W H : Int} {A : NodeMap D} {nb : Pos}
    {n m : FAStarNode D} (hsome : A nb = some m) :
    unseen W H (Function.update A nb (some n)) = unseen W H A := by
  unfold unseen
  congr 1
  ext p
  simp only [Finset.mem_filter]
  by_cases hp : p = nb
  · subst hp
    simp [hsome]
  · rw [Function.update_noteq hp]

/-- One pass of the neighbor loop body keeps the invariant, leaves the current
node alone and keeps `OpenSet.Num()` plus the number of unseen cells. -/
theorem Relax_spec {D : Type} (Dist : Pos → Pos → D) {W H : Int} {Grid : List Int}
    {Rooms : List FRoom} {S T : Pos} {O : List Pos} {A : NodeMap D}
    (inv : AStarInv W H Grid Rooms S T O A) {c nb : Pos} {cn : FAStarNode D}
    (hc : A c = some cn) (hstep : IsStep c nb) (hg : InGrid W H nb)
    (hwalk : IsWalkable W Grid Rooms nb S T = true) :
    AStarInv W H Grid Rooms S T (Relax Dist T cn (O, A) nb).1 (Relax Dist T cn (O, A) nb).2 ∧
      (Relax Dist T cn (O, A) nb).2 c = some cn ∧
      (Relax Dist T cn (O, A) nb).1.length + unseen W H (Relax Dist T cn (O, A) nb).2
        = O.length + unseen W H A := by
  have hpos : cn.Position = c := inv.position c cn hc
  have hcnb : c ≠ nb := hstep.ne
  obtain ⟨sn, hsn, hsg, hsc⟩ := inv.start_node
  unfold Relax
  dsimp only
  cases hnb : A nb with
  | none =>
    dsimp only
    have hnbS : nb ≠ S := by
      intro h
      rw [h, hsn] at hnb
      exact absurd hnb (by simp)
    refine ⟨⟨?_, ?_, ?_, ?_, ?_⟩, ?_, ?_⟩
    · intro p hp
      by_cases hpn : p = nb
      · exact ⟨_, by rw [hpn, Function.update_same]⟩
      · rw [Function.update_noteq hpn]
        rcases List.mem_append.mp hp with h | h
        · exact inv.open_node p h
        · exact absurd (List.mem_singleton.mp h) hpn
    · intro p n hn
      by_cases hpn : p = nb
      · rw [hpn, Function.update_same] at hn
        rw [hpn, ← Option.some.inj hn]
      · rw [Function.update_noteq hpn] at hn
        exact inv.position p n hn
    · exact ⟨sn, by rw [Function.update_noteq (Ne.symm hnbS)]; exact hsn, hsg, hsc⟩
    · intro p n hn hpS
      by_cases hpn : p = nb
      · rw [hpn, Function.update_same] at hn
        refine ⟨c, cn, ?_, ?_, ?_, ?_⟩
        · rw [← Option.some.inj hn, hpos]
        · rw [Function.update_noteq hcnb]; exact hc
        · rw [← Option.some.inj hn]; exact Nat.lt_succ_self _
        · rw [hpn]; exact hstep
      · rw [Function.update_noteq hpn] at hn
        obtain ⟨q, m, h1, h2, h3, h4⟩ := inv.came_from p n hn hpS
        have hq : q ≠ nb := by
          intro h
          rw [h, hnb] at h2
          exact absurd h2 (by simp)
        exact ⟨q, m, h1, by rw [Function.update_noteq hq]; exact h2, h3, h4⟩
    · intro p n hn
      by_cases hpn : p = nb
      · rw [hpn]
        exact Reach.step (inv.reach c cn hc) hstep hg hwalk
      · rw [Function.update_noteq hpn] at hn
        exact inv.reach p n hn
    · rw [Function.update_noteq hcnb]; exact hc
    · have := unseen_update_none (n := (⟨nb, cn.GCost + 1, Dist nb T, some cn.Position⟩ :
        FAStarNode D)) hg hnb
      simp only [List.length_append, List.length_singleton]
      omega
  | some nn =>
    dsimp only
    by_cases hlt : cn.GCost + 1 < nn.GCost
    · rw [if_pos hlt]
      dsimp only
      have hnbS : nb ≠ S := by
        intro h
        rw [h, hsn] at hnb
        rw [← Option.some.inj hnb, hsg] at hlt
        exact absurd hlt (Nat.not_lt_zero _)
      refine ⟨⟨?_, ?_, ?_, ?_, ?_⟩, ?_, ?_⟩
      · intro p hp
        by_cases hpn : p = nb
        · exact ⟨_, by rw [hpn, Function.update_same]⟩
        · rw [Function.update_noteq hpn]
          exact inv.open_node p hp
      · intro p n hn
        by_cases hpn : p = nb
        · rw [hpn, Function.update_same] at hn
          rw [hpn, ← Option.some.inj hn]
          exact inv.position nb nn hnb
        · rw [Function.update_noteq hpn] at hn
          exact inv.position p n hn
      · exact ⟨sn, by rw [Function.update_noteq (Ne.symm hnbS)]; exact hsn, hsg, hsc⟩
      · intro p n hn hpS
        by_cases hpn : p = nb
        · rw [hpn, Function.update_same] at hn
          refine ⟨c, cn, ?_, ?_, ?_, ?_⟩
          · rw [← Option.some.inj hn, hpos]
          · rw [Function.update_noteq hcnb]; exact hc
          · rw [← Option.some.inj hn]; exact Nat.lt_succ_self _
          · rw [hpn]; exact hstep
        · rw [Function.update_noteq hpn] at hn
          obtain ⟨q, m, h1, h2, h3, h4⟩ := inv.came_from p n hn hpS
          by_cases hq : q = nb
          · refine ⟨q, _, h1, by rw [hq, Function.update_same], ?_, h4⟩
            rw [hq, hnb] at h2
            rw [← Option.some.inj h2] at h3
            exact lt_trans hlt h3
          · exact ⟨q, m, h1, by rw [Function.update_noteq hq]; exact h2, h3, h4⟩
      · intro p n hn
        by_cases hpn : p = nb
        · rw [hpn]
          exact inv.reach nb nn hnb
        · rw [Function.update_noteq hpn] at hn
          exact inv.reach p n hn
      · rw [Function.update_noteq hcnb]; exact hc
      · rw [unseen_update_some hnb]
    · rw [if_neg hlt]
      exact ⟨inv, hc, rfl⟩

theorem Relax_foldl_spec {D : Type} (Dist : Pos → Pos → D) {W H : Int} {Grid : List Int}
    {Rooms : List FRoom} {S T c : Pos} (cn : FAStarNode D) :
    ∀ (L : List Pos) (O : List Pos) (A : NodeMap D), AStarInv W H Grid Rooms S T O A →
      A c = some cn →
      (∀ nb ∈ L, IsStep c nb ∧ InGrid W H nb ∧ IsWalkable W Grid Rooms nb S T = true) →
      AStarInv W H Grid Rooms S T (L.foldl (Relax Dist T cn) (O, A)).1
          (L.foldl (Relax Dist T cn) (O, A)).2 ∧
        (L.foldl (Relax Dist T cn) (O, A)).1.length
            + unseen W H (L.foldl (Relax Dist T cn) (O, A)).2
          = O.length + unseen W H A := by
  intro L
  induction L with
  | nil => intro O A inv _ _; exact ⟨inv, rfl⟩
  | cons nb L ih =>
    intro O A inv hc hL
    obtain ⟨h1, h2, h3⟩ := hL nb (List.mem_cons_self _ _)
    obtain ⟨inv1, hc1, hcount⟩ := Relax_spec Dist inv hc h1 h2 h3
    obtain ⟨inv2, hcount2⟩ := ih _ _ inv1 hc1 (fun x hx => hL x (List.mem_cons_of_mem _ hx))
    rw [List.foldl_cons]
    exact ⟨inv2, by rw [hcount2, hcount]⟩

/-- The walk along `CameFrom` from any node ends at the start node, within
`GCost + 1` nodes, each one step from the next. -/
theorem WalkBack_spec {D : Type} {W H : Int} {Grid : List Int} {Rooms : List FRoom}
    {S T : Pos} {O : List Pos} {A : NodeMap D} (inv : AStarInv W H Grid Rooms S T O A) :
    ∀ (fuel : Nat) (p : Pos) (n : FAStarNode D), A p = some n → n.GCost < fuel →
      ∃ walk, WalkBack A fuel (some p) = some walk ∧ walk.head? = some p ∧
        walk.getLast? = some S ∧ walk.length ≤ n.GCost + 1 ∧
        List.Chain' (fun a b => IsStep b a) walk := by
  intro fuel
  induction fuel with
  | zero => intro p n _ h; exact absurd h (Nat.not_lt_zero _)
  | succ fuel ih =>
    intro p n hn hfuel
    obtain ⟨sn, hsn, hsg, hsc⟩ := inv.start_node
    by_cases hpS : p = S
    · have hnsn : n = sn := by
        rw [hpS, hsn] at hn
        exact (Option.some.inj hn).symm
      refine ⟨[p], ?_, rfl, by rw [hpS]; rfl, by simp, List.chain'_singleton _⟩
      simp only [WalkBack, hn, hnsn, hsc]
    · obtain ⟨q, m, h1, h2, h3, h4⟩ := inv.came_from p n hn hpS
      obtain ⟨walk, hw, hhead, hlast, hlen, hchain⟩ := ih q m h2 (by omega)
      refine ⟨p :: walk, ?_, rfl, ?_, ?_, ?_⟩
      · simp only [WalkBack, hn, h1, hw]
      · cases walk with
        | nil => simp at hhead
        | cons a l => simpa using hlast
      · simp only [List.length_cons]
        omega
      · cases walk with
        | nil => simp at hhead
        | cons a l =>
          simp only [List.head?_cons, Option.some.injEq] at hhead
          rw [List.chain'_cons]
          exact ⟨by rw [hhead]; exact h4, hchain⟩

/-- The main loop ends within the fuel and returns a good path. -/
theorem FindPathLoop_spec {D : Type} [LinearOrder D] [Add D] [NatCast D]
    {Dist : Pos → Pos → D} {ArraySort : SortFn} (hSort : IsPermSort ArraySort) {W H : Int}
    {Grid : List Int} {Rooms : List FRoom} {S T : Pos} :
    ∀ (fuel : Nat) (O : List Pos) (A : NodeMap D), AStarInv W H Grid Rooms S T O A →
      O.length + unseen W H A ≤ fuel →
      ∃ Path, FindPathLoop Dist ArraySort W H Grid Rooms S T fuel O A = some Path ∧
        GoodPath W H Grid Rooms S T Path := by
  intro fuel
  induction fuel with
  | zero =>
    intro O A _ hfuel
    cases O with
    | nil => exact ⟨[], by simp [FindPathLoop], Or.inl rfl⟩
    | cons p ps => simp at hfuel
  | succ fuel ih =>
    intro O A inv hfuel
    cases O with
    | nil => exact ⟨[], by simp [FindPathLoop], Or.inl rfl⟩
    | cons p ps =>
      have hperm : (ArraySort (OpenSetLess A) (p :: ps)).Perm (p :: ps) :=
        hSort Pos (OpenSetLess A) (p :: ps)
      unfold FindPathLoop
      cases hs : ArraySort (OpenSetLess A) (p :: ps) with
      | nil =>
        rw [hs] at hperm
        exact absurd hperm.length_eq (by simp)
      | cons Current O1 =>
        rw [hs] at hperm
        dsimp only
        have hmem : Current ∈ p :: ps := hperm.subset (List.mem_cons_self _ _)
        obtain ⟨cn, hcn⟩ := inv.open_node Current hmem
        have hpos : cn.Position = Current := inv.position Current cn hcn
        rw [hcn]
        dsimp only
        by_cases hgoal : NearTarget cn.Position T = true
        · rw [if_pos hgoal]
          obtain ⟨walk, hw, hhead, hlast, -, hchain⟩ :=
            WalkBack_spec inv (cn.GCost + 1) Current cn hcn (Nat.lt_succ_self _)
          rw [hw]
          refine ⟨walk.reverse, rfl, Or.inr ⟨Current, ?_, ?_, ?_, inv.reach Current cn hcn, ?_⟩⟩
          · rw [List.head?_reverse]; exact hlast
          · rw [List.getLast?_reverse]; exact hhead
          · rw [← hpos]; exact hgoal
          · rw [List.chain'_reverse]
            exact hchain
        · rw [if_neg hgoal]
          have inv1 : AStarInv W H Grid Rooms S T O1 A :=
            ⟨fun q hq => inv.open_node q (hperm.subset (List.mem_cons_of_mem _ hq)),
              inv.position, inv.start_node, inv.came_from, inv.reach⟩
          have hlen : O1.length + 1 = (p :: ps).length := by
            rw [← hperm.length_eq]; rfl
          obtain ⟨inv2, hcount⟩ := Relax_foldl_spec Dist cn
            (GetNeighbors W H Grid Rooms cn.Position S T) O1 A inv1 (by rw [hpos]; exact hcn)
            (fun nb hnb => mem_GetNeighbors.mp hnb)
          exact ih _ _ inv2 (by omega)

theorem AStarInv_init {D : Type} (Dist : Pos → Pos → D) (W H : Int) (Grid : List Int)
    (Rooms : List FRoom) (S T : Pos) :
    AStarInv W H Grid Rooms S T [S]
      (Function.update (fun _ => none) S (some ⟨S, 0, Dist S T, none⟩)) := by
  refine ⟨?_, ?_, ?_, ?_, ?_⟩
  · intro p hp
    rw [List.mem_singleton.mp hp]
    exact ⟨_, Function.update_same _ _ _⟩
  · intro p n hn
    by_cases hp : p = S
    · rw [hp, Function.update_same] at hn
      rw [hp, ← Option.some.inj hn]
    · rw [Function.update_noteq hp] at hn
      exact absurd hn (by simp)
  · exact ⟨_, Function.update_same _ _ _, rfl, rfl⟩
  · intro p n hn hp
    rw [Function.update_noteq hp] at hn
    exact absurd hn (by simp)
  · intro p n hn
    by_cases hp : p = S
    · rw [hp]; exact Reach.start
    · rw [Function.update_noteq hp] at hn
      exact absurd hn (by simp)

/-- The search `FindPath` returns, and returns a good path, whatever rearrangement the sort
makes of the open set. -/
theorem FindPath_spec {D : Type} [LinearOrder D] [Add D] [NatCast D]
    (Dist : Pos → Pos → D) {ArraySort : SortFn} (hSort : IsPermSort ArraySort) (W H : Int)
    (Grid : List Int) (Rooms : List FRoom) (S T : Pos) :
    ∃ Path, FindPath Dist ArraySort W H Grid Rooms S T = some Path ∧
      GoodPath W H Grid Rooms S T Path := by
  unfold FindPath
  refine FindPathLoop_spec hSort _ _ _ (AStarInv_init Dist W H Grid Rooms S T) ?_
  have := unseen_le W H (Function.update (fun _ => none) S
    (some (⟨S, 0, Dist S T, none⟩ : FAStarNode D)))
  simp only [List.length_singleton]
  omega

/-! ## The pathfinder: shape of the returned path -/

theorem NearTarget_iff {c T : Pos} :
    NearTarget c T = true ↔ (|c.1 - T.1| ≤ 1 ∧ |c.2 - T.2| ≤ 1) := by
  simp [NearTarget]

/-- C6, as stated, fails: on a 3 x 1 all-empty grid, from `(0,0)` to `(2,0)`,
the path returned is `[(0,0), (1,0)]`: the goal test accepts `(1,0)`, within
`1.0` of the target, and the path ends there, not at the target `(2,0)`.  (The
open set never holds more than one node here, so the result depends neither on
the sort nor on the distance function.) -/
theorem FindPath_last_is_not_target :
    ¬ (∀ Path, FindPath SqDistPos InsertionSort 3 1 [0, 0, 0] [] (0, 0) (2, 0) = some Path →
        Path ≠ [] → Path.head? = some (0, 0) ∧ Path.getLast? = some (2, 0)) := by
  intro h
  have h1 : FindPath SqDistPos InsertionSort 3 1 [0, 0, 0] [] (0, 0) (2, 0)
      = some [(0, 0), (1, 0)] := by decide
  have h2 := (h _ h1 (by simp)).2
  revert h2
  decide

/-- C6, amended. For every grid, room list, start and target, `FindPath`
returns, and if the path is not empty then its first cell is the start and its
last cell is within `1` of the target in each coordinate (the cell at which the
goal test succeeded). -/
theorem FindPath_first_start_last_near_target {D : Type} [LinearOrder D] [Add D] [NatCast D]
    (Dist : Pos → Pos → D) (ArraySort : SortFn) (hSort : IsPermSort ArraySort)
    (Width Height : Int) (Grid : List Int) (Rooms : List FRoom) (StartPos TargetPos : Pos) :
    ∃ Path, FindPath Dist ArraySort Width Height Grid Rooms StartPos TargetPos = some Path ∧
      (Path ≠ [] → Path.head? = some StartPos ∧
        ∃ c, Path.getLast? = some c ∧ |c.1 - TargetPos.1| ≤ 1 ∧ |c.2 - TargetPos.2| ≤ 1) := by
  obtain ⟨Path, h, hgood⟩ := FindPath_spec Dist hSort Width Height Grid Rooms StartPos TargetPos
  refine ⟨Path, h, fun hne => ?_⟩
  rcases hgood with h0 | ⟨c, h1, h2, h3, -, -⟩
  · exact absurd h0 hne
  · exact ⟨h1, c, h2, NearTarget_iff.mp h3⟩

/-- C6, amended, at a concrete input. -/
theorem FindPath_first_start_last_near_target_witness :
    ∃ Path, FindPath SqDistPos InsertionSort 3 1 [0, 0, 0] [] (0, 0) (2, 0) = some Path ∧
      (Path ≠ [] → Path.head? = some (0, 0) ∧
        ∃ c : Pos, Path.getLast? = some c ∧ |c.1 - (2 : Int)| ≤ 1 ∧ |c.2 - (0 : Int)| ≤ 1) :=
  FindPath_first_start_last_near_target SqDistPos InsertionSort InsertionSort_perm 3 1 [0, 0, 0] []
    (0, 0) (2, 0)

/-- C8. For every grid, room list, start and target, `FindPath` returns, and
every consecutive pair of cells of the returned path differs by exactly one
cardinal unit step `(+1,0)`, `(-1,0)`, `(0,+1)` or `(0,-1)`. -/
theorem FindPath_cardinal_steps {D : Type} [LinearOrder D] [Add D] [NatCast D]
    (Dist : Pos → Pos → D) (ArraySort : SortFn) (hSort : IsPermSort ArraySort)
    (Width Height : Int) (Grid : List Int) (Rooms : List FRoom) (StartPos TargetPos : Pos) :
    ∃ Path, FindPath Dist ArraySort Width Height Grid Rooms StartPos TargetPos = some Path ∧
      List.Chain' IsStep Path := by
  obtain ⟨Path, h, hgood⟩ := FindPath_spec Dist hSort Width Height Grid Rooms StartPos TargetPos
  refine ⟨Path, h, ?_⟩
  rcases hgood with h0 | ⟨c, -, -, -, -, h4⟩
  · rw [h0]; exact List.chain'_nil
  · exact h4

/-- C8, at a concrete input: a 6 x 6 all-empty grid. -/
theorem FindPath_cardinal_steps_witness :
    ∃ Path, FindPath SqDistPos InsertionSort 6 6 (List.replicate 36 0) [] (0, 0) (4, 5)
        = some Path ∧ List.Chain' IsStep Path :=
  FindPath_cardinal_steps SqDistPos InsertionSort InsertionSort_perm 6 6 (List.replicate 36 0) []
    (0, 0) (4, 5)

/-- C9, as stated, fails: on the 2 x 1 grid `[0, 3]` with no rooms the target
`(1,0)` is not walkable, so it cannot be reached from `(0,0)`, yet `FindPath`
returns the non-empty path `[(0,0)]`: the start already passes the goal test,
before any neighbor is looked at. -/
theorem FindPath_unreachable_target_nonempty :
    ¬ Reach 2 1 [0, 3] [] (0, 0) (1, 0) (1, 0) ∧
      FindPath SqDistPos InsertionSort 2 1 [0, 3] [] (0, 0) (1, 0) = some [(0, 0)] := by
  constructor
  · intro h
    cases h with
    | step _ _ _ hw => revert hw; decide
  · decide

/-- C9, amended. For every grid, room list, start and target, if no cell within
`1` of the target in each coordinate (no cell that passes the goal test) can be
reached from the start by 4-directional steps through in-bounds walkable cells,
`FindPath` returns the empty path. -/
theorem FindPath_unreachable_empty {D : Type} [LinearOrder D] [Add D] [NatCast D]
    (Dist : Pos → Pos → D) (ArraySort : SortFn) (hSort : IsPermSort ArraySort)
    (Width Height : Int) (Grid : List Int) (Rooms : List FRoom) (StartPos TargetPos : Pos)
    (hun : ∀ c, Reach Width Height Grid Rooms StartPos TargetPos c →
      ¬ (|c.1 - TargetPos.1| ≤ 1 ∧ |c.2 - TargetPos.2| ≤ 1)) :
    FindPath Dist ArraySort Width Height Grid Rooms StartPos TargetPos = some [] := by
  obtain ⟨Path, h, hgood⟩ := FindPath_spec Dist hSort Width Height Grid Rooms StartPos TargetPos
  rcases hgood with h0 | ⟨c, -, -, h3, h4, -⟩
  · rw [h, h0]
  · exact absurd (NearTarget_iff.mp h3) (hun c h4)

/-- C9, amended, at a concrete input: on the 5 x 1 grid `[0, 1, 0, 0, 0]` with
no rooms, the cell `(1,0)` walls the start `(0,0)` off from the target `(4,0)`. -/
theorem FindPath_unreachable_empty_witness :
    FindPath SqDistPos InsertionSort 5 1 [0, 1, 0, 0, 0] [] (0, 0) (4, 0) = some [] := by
  refine FindPath_unreachable_empty SqDistPos InsertionSort InsertionSort_perm 5 1
    [0, 1, 0, 0, 0] [] (0, 0) (4, 0) ?_
  have hstart : ∀ c, Reach 5 1 [0, 1, 0, 0, 0] [] (0, 0) (4, 0) c → c = (0, 0) := by
    intro c hc
    induction hc with
    | start => rfl
    | @step p q _ hs hg hw ih =>
      subst ih
      obtain ⟨qx, qy⟩ := q
      simp only [IsStep, InGrid] at hs hg
      have hq : qx = 1 ∧ qy = 0 := by omega
      obtain ⟨rfl, rfl⟩ := hq
      revert hw
      decide
  intro c hc
  rw [hstart c hc]
  decide

/-! ## Corridor carving keeps room cells -/

theorem GridGet_eq_getElem? {Grid : List Int} {i v : Int} (h : GridGet Grid i = some v) :
    Grid[i.toNat]? = some v := by
  unfold GridGet at h
  split at h
  · exact h
  · exact absurd h (by simp)

/-- The write of `PlaceCorridor` keeps the size of the grid and never changes a cell that
holds `1`. -/
theorem PlaceCorridor_keeps_room (W : Int) (Grid : List Int) (p : Pos) (t : Int) :
    (PlaceCorridor W Grid p t).length = Grid.length ∧
      ∀ i : Nat, Grid[i]? = some 1 → (PlaceCorridor W Grid p t)[i]? = some 1 := by
  unfold PlaceCorridor
  dsimp only
  cases hget : GridGet Grid (p.2 * W + p.1) with
  | none => exact ⟨rfl, fun _ h => h⟩
  | some v =>
    dsimp only
    by_cases hv : v ≠ 1
    · rw [if_pos hv]
      refine ⟨List.length_set _ _ _, fun i hi => ?_⟩
      have hne : (p.2 * W + p.1).toNat ≠ i := by
        intro h
        rw [← h, GridGet_eq_getElem? hget] at hi
        exact hv (Option.some.inj hi)
      rw [List.getElem?_set_ne hne]
      exact hi
    · rw [if_neg hv]
      exact ⟨rfl, fun _ h => h⟩

theorem CarvePath_keeps_room (W : Int) :
    ∀ (Path : List Pos) (Grid : List Int),
      (CarvePath W Grid Path).length = Grid.length ∧
        ∀ i : Nat, Grid[i]? = some 1 → (CarvePath W Grid Path)[i]? = some 1 := by
  intro Path
  induction Path with
  | nil => intro Grid; exact ⟨rfl, fun _ h => h⟩
  | cons a rest ih =>
    intro Grid
    cases rest with
    | nil => exact ⟨rfl, fun _ h => h⟩
    | cons b rest =>
      obtain ⟨h1, h2⟩ := PlaceCorridor_keeps_room W Grid a (GetCorridorType (b.1 - a.1, b.2 - a.2))
      obtain ⟨h3, h4⟩ := ih (PlaceCorridor W Grid a (GetCorridorType (b.1 - a.1, b.2 - a.2)))
      simp only [CarvePath]
      exact ⟨by rw [h3, h1], fun i hi => h4 i (h2 i hi)⟩

/-- C10. For every grid, room list and list of connections between rooms of the
list, `ConnectRoomsUsingAStar` runs to completion and never overwrites a room
cell: the grid keeps its size and every cell whose tag is `1` before carving
still has tag `1` after carving. -/
theorem ConnectRoomsUsingAStar_keeps_rooms {D E : Type} [LinearOrder D] [Add D] [NatCast D]
    (Dist : Pos → Pos → D) (ArraySort : SortFn) (hSort : IsPermSort ArraySort)
    (Width Height : Int) (Rooms : List FRoom) (MST : List (FRoomConnection E))
    (hMST : ∀ c ∈ MST, c.RoomIndexA < Rooms.length ∧ c.RoomIndexB < Rooms.length)
    (Grid : List Int) :
    ∃ Grid1, ConnectRoomsUsingAStar Dist ArraySort Width Height Rooms Grid MST = some Grid1 ∧
      Grid1.length = Grid.length ∧ ∀ i : Nat, Grid[i]? = some 1 → Grid1[i]? = some 1 := by
  induction MST generalizing Grid with
  | nil => exact ⟨Grid, rfl, rfl, fun _ h => h⟩
  | cons c rest ih =>
    have hc := hMST c (List.mem_cons_self _ _)
    have hA : c.RoomIndexA < Rooms.length := hc.1
    have hB : c.RoomIndexB < Rooms.length := hc.2
    obtain ⟨Path, hPath, -⟩ := FindPath_spec Dist hSort Width Height Grid Rooms
      Rooms[c.RoomIndexA].EntryPoint Rooms[c.RoomIndexB].ExitPoint
    obtain ⟨h1, h2⟩ := CarvePath_keeps_room Width Path Grid
    obtain ⟨Grid1, h3, h4, h5⟩ :=
      ih (fun d hd => hMST d (List.mem_cons_of_mem _ hd)) (CarvePath Width Grid Path)
    refine ⟨Grid1, ?_, by rw [h4, h1], fun i hi => h5 i (h2 i hi)⟩
    simp only [ConnectRoomsUsingAStar, List.getElem?_eq_getElem hc.1,
      List.getElem?_eq_getElem hc.2, hPath]
    exact h3

/-- C10, at a concrete input: a 10 x 10 grid with the rooms `(0,0,4,4)` and
`(6,6,4,4)` placed, and the connection between them. -/
theorem ConnectRoomsUsingAStar_keeps_rooms_witness :
    ∃ Grid1, ConnectRoomsUsingAStar SqDistPos InsertionSort 10 10
        [FRoom.new 0 0 4 4, FRoom.new 6 6 4 4]
        [1, 1, 1, 1, 0, 0, 0, 0, 0, 0,
         1, 1, 1, 1, 0, 0, 0, 0, 0, 0,
         1, 1, 1, 1, 0, 0, 0, 0, 0, 0,
         1, 1, 1, 1, 0, 0, 0, 0, 0, 0,
         0, 0, 0, 0, 0, 0, 0, 0, 0, 0,
         0, 0, 0, 0, 0, 0, 0, 0, 0, 0,
         0, 0, 0, 0, 0, 0, 1, 1, 1, 1,
         0, 0, 0, 0, 0, 0, 1, 1, 1, 1,
         0, 0, 0, 0, 0, 0, 1, 1, 1, 1,
         0, 0, 0, 0, 0, 0, 1, 1, 1, 1]
        [(⟨0, 1, 72⟩ : FRoomConnection ℚ)] = some Grid1 ∧
      Grid1.length = 100 ∧
      ∀ i : Nat,
        ([1, 1, 1, 1, 0, 0, 0, 0, 0, 0,
          1, 1, 1, 1, 0, 0, 0, 0, 0, 0,
          1, 1, 1, 1, 0, 0, 0, 0, 0, 0,
          1, 1, 1, 1, 0, 0, 0, 0, 0, 0,
          0, 0, 0, 0, 0, 0, 0, 0, 0, 0,
          0, 0, 0, 0, 0, 0, 0, 0, 0, 0,
          0, 0, 0, 0, 0, 0, 1, 1, 1, 1,
          0, 0, 0, 0, 0, 0, 1, 1, 1, 1,
          0, 0, 0, 0, 0, 0, 1, 1, 1, 1,
          0, 0, 0, 0, 0, 0, 1, 1, 1, 1] : List Int)[i]? = some 1 → Grid1[i]? = some 1 :=
  ConnectRoomsUsingAStar_keeps_rooms SqDistPos InsertionSort InsertionSort_perm 10 10
    [FRoom.new 0 0 4 4, FRoom.new 6 6 4 4] [(⟨0, 1, 72⟩ : FRoomConnection ℚ)]
    (by decide) _

/-! ## Shortest paths on a grid without obstacles -/

theorem GridDist_self (p : Pos) : GridDist p p = 0 := by simp [GridDist]

theorem GridDist_step {s p q : Pos} (h : IsStep p q) :
    GridDist s q ≤ GridDist s p + 1 ∧ GridDist s p ≤ GridDist s q + 1 := by
  unfold IsStep at h
  unfold GridDist
  omega

theorem GridDist_triangle (a b c : Pos) : GridDist a c ≤ GridDist a b + GridDist b c := by
  unfold GridDist
  omega

theorem GridDist_eq_zero {p q : Pos} (h : GridDist p q = 0) : p = q := by
  unfold GridDist at h
  apply Prod.ext <;> omega

/-- From a cell of the grid there is a step towards any other cell of the grid
that stays in the grid. -/
theorem exists_step_toward {W H : Int} {p x : Pos} (hp : InGrid W H p) (hx : InGrid W H x)
    (hne : p ≠ x) :
    ∃ q, IsStep p q ∧ InGrid W H q ∧ GridDist q x + 1 = GridDist p x := by
  obtain ⟨px, py⟩ := p
  obtain ⟨xx, xy⟩ := x
  simp only [InGrid] at hp hx
  by_cases h1 : px < xx
  · exact ⟨(px + 1, py), by simp [IsStep], by simp only [InGrid]; omega,
      by simp only [GridDist]; omega⟩
  · by_cases h2 : xx < px
    · exact ⟨(px - 1, py), by simp [IsStep], by simp only [InGrid]; omega,
        by simp only [GridDist]; omega⟩
    · have hxx : px = xx := by omega
      have hyy : py ≠ xy := by
        intro h
        exact hne (by rw [hxx, h])
      by_cases h3 : py < xy
      · exact ⟨(px, py + 1), by simp [IsStep], by simp only [InGrid]; omega,
          by simp only [GridDist]; omega⟩
      · exact ⟨(px, py - 1), by simp [IsStep], by simp only [InGrid]; omega,
          by simp only [GridDist]; omega⟩

/-- The three outcomes of the neighbor loop body. -/
theorem Relax_cases {D : Type} (Dist : Pos → Pos → D) (T : Pos) (cn : FAStarNode D)
    (O : List Pos) (A : NodeMap D) (nb : Pos) :
    (A nb = none ∧ Relax Dist T cn (O, A) nb = (O ++ [nb], Function.update A nb
        (some ⟨nb, cn.GCost + 1, Dist nb T, some cn.Position⟩))) ∨
    (∃ nn, A nb = some nn ∧ cn.GCost + 1 < nn.GCost ∧
      Relax Dist T cn (O, A) nb = (O, Function.update A nb
        (some { nn with CameFrom := some cn.Position, GCost := cn.GCost + 1 }))) ∨
    (∃ nn, A nb = some nn ∧ ¬ cn.GCost + 1 < nn.GCost ∧ Relax Dist T cn (O, A) nb = (O, A)) := by
  unfold Relax
  dsimp only
  cases hnb : A nb with
  | none => exact Or.inl ⟨rfl, rfl⟩
  | some nn =>
    dsimp only
    by_cases hlt : cn.GCost + 1 < nn.GCost
    · rw [if_pos hlt]
      exact Or.inr (Or.inl ⟨nn, rfl, hlt, rfl⟩)
    · rw [if_neg hlt]
      exact Or.inr (Or.inr ⟨nn, rfl, hlt, rfl⟩)

theorem MidInv.relax {D : Type} {Dist : Pos → Pos → D} {W H : Int} {Grid : List Int}
    {S T c : Pos} {cn : FAStarNode D} {Done O : List Pos} {A : NodeMap D}
    (inv : MidInv Dist W H Grid S T c cn Done O A) {nb : Pos} (hstep : IsStep c nb)
    (hg : InGrid W H nb) (hwalk : IsWalkable W Grid [] nb S T = true) :
    MidInv Dist W H Grid S T c cn (nb :: Done) (Relax Dist T cn (O, A) nb).1
      (Relax Dist T cn (O, A) nb).2 := by
  obtain ⟨hc, hcg, hcO, hcT⟩ := inv.cur
  have hbase := (Relax_spec Dist inv.base hc hstep hg hwalk).1
  have hcnb : c ≠ nb := hstep.ne
  have hdnb : GridDist S nb ≤ cn.GCost + 1 := by
    have := (GridDist_step (s := S) hstep).1
    omega
  obtain ⟨sn, hsn, -, -⟩ := inv.base.start_node
  rcases Relax_cases Dist T cn O A nb with ⟨hnone, hR⟩ | ⟨nn, hnn, hlt, hR⟩ | ⟨nn, hnn, hlt, hR⟩
  · -- a new node
    rw [hR] at hbase ⊢
    dsimp only at hbase ⊢
    have hnbO : nb ∉ O := by
      intro h
      obtain ⟨n, hn⟩ := inv.base.open_node nb h
      rw [hnone] at hn
      exact absurd hn (by simp)
    have hnbS : nb ≠ S := by
      intro h
      rw [h, hsn] at hnone
      exact absurd hnone (by simp)
    refine ⟨hbase, ?_, ?_, ?_, ?_, ?_, ?_, ?_⟩
    · exact List.Nodup.append inv.nodup (List.nodup_singleton _)
        (by simpa using hnbO)
    · intro p n hn
      by_cases hp : p = nb
      · rw [hp, Function.update_same] at hn
        rw [hp, ← Option.some.inj hn]
      · rw [Function.update_noteq hp] at hn
        exact inv.hcost p n hn
    · intro p n hn
      by_cases hp : p = nb
      · rw [hp, Function.update_same] at hn
        rw [hp, ← Option.some.inj hn]
        exact hdnb
      · rw [Function.update_noteq hp] at hn
        exact inv.lower p n hn
    · refine ⟨by rw [Function.update_noteq hcnb]; exact hc, hcg, ?_, hcT⟩
      simp only [List.mem_append, List.mem_singleton, not_or]
      exact ⟨hcO, hcnb⟩
    · intro p n hn hpO hpc
      simp only [List.mem_append, List.mem_singleton, not_or] at hpO
      rw [Function.update_noteq hpO.2] at hn
      obtain ⟨h1, h2, h3⟩ := inv.closed p n hn hpO.1 hpc
      refine ⟨h1, h2, fun q hq hqg => ?_⟩
      obtain ⟨m, hm, hmg⟩ := h3 q hq hqg
      have hqnb : q ≠ nb := by
        intro h
        rw [h, hnone] at hm
        exact absurd hm (by simp)
      exact ⟨m, by rw [Function.update_noteq hqnb]; exact hm, hmg⟩
    · intro q hq
      rcases List.mem_cons.mp hq with h | h
      · rw [h]
        exact ⟨_, Function.update_same _ _ _, le_refl _⟩
      · obtain ⟨m, hm, hmg⟩ := inv.done q h
        have hqnb : q ≠ nb := by
          intro h
          rw [h, hnone] at hm
          exact absurd hm (by simp)
        exact ⟨m, by rw [Function.update_noteq hqnb]; exact hm, hmg⟩
    · simp only [List.mem_append, List.mem_singleton, not_or]
      exact ⟨inv.start_closed, Ne.symm hnbS⟩
  · -- a cheaper way to a node seen before
    rw [hR] at hbase ⊢
    dsimp only at hbase ⊢
    refine ⟨hbase, inv.nodup, ?_, ?_, ?_, ?_, ?_, inv.start_closed⟩
    · intro p n hn
      by_cases hp : p = nb
      · rw [hp, Function.update_same] at hn
        rw [hp, ← Option.some.inj hn]
        exact inv.hcost nb nn hnn
      · rw [Function.update_noteq hp] at hn
        exact inv.hcost p n hn
    · intro p n hn
      by_cases hp : p = nb
      · rw [hp, Function.update_same] at hn
        rw [hp, ← Option.some.inj hn]
        exact hdnb
      · rw [Function.update_noteq hp] at hn
        exact inv.lower p n hn
    · exact ⟨by rw [Function.update_noteq hcnb]; exact hc, hcg, hcO, hcT⟩
    · intro p n hn hpO hpc
      have hp : p ≠ nb := by
        intro h
        rw [h] at hpO hpc
        have := (inv.closed nb nn hnn hpO hpc).1
        omega
      rw [Function.update_noteq hp] at hn
      obtain ⟨h1, h2, h3⟩ := inv.closed p n hn hpO hpc
      refine ⟨h1, h2, fun q hq hqg => ?_⟩
      obtain ⟨m, hm, hmg⟩ := h3 q hq hqg
      by_cases hqnb : q = nb
      · refine ⟨_, by rw [hqnb, Function.update_same], ?_⟩
        rw [hqnb, hnn] at hm
        rw [← Option.some.inj hm] at hmg
        show cn.GCost + 1 ≤ n.GCost + 1
        omega
      · exact ⟨m, by rw [Function.update_noteq hqnb]; exact hm, hmg⟩
    · intro q hq
      by_cases hqnb : q = nb
      · exact ⟨_, by rw [hqnb, Function.update_same], le_refl _⟩
      · rcases List.mem_cons.mp hq with h | h
        · exact absurd h hqnb
        · obtain ⟨m, hm, hmg⟩ := inv.done q h
          exact ⟨m, by rw [Function.update_noteq hqnb]; exact hm, hmg⟩
  · -- nothing changes
    rw [hR]
    refine ⟨inv.base, inv.nodup, inv.hcost, inv.lower, inv.cur, inv.closed, ?_, inv.start_closed⟩
    intro q hq
    rcases List.mem_cons.mp hq with h | h
    · rw [h]
      exact ⟨nn, hnn, by omega⟩
    · exact inv.done q h

theorem MidInv.foldl {D : Type} {Dist : Pos → Pos → D} {W H : Int} {Grid : List Int}
    {S T c : Pos} {cn : FAStarNode D} :
    ∀ (L Done O : List Pos) (A : NodeMap D), MidInv Dist W H Grid S T c cn Done O A →
      (∀ nb ∈ L, IsStep c nb ∧ InGrid W H nb ∧ IsWalkable W Grid [] nb S T = true) →
      ∃ Done1, (∀ q ∈ L, q ∈ Done1) ∧ (∀ q ∈ Done, q ∈ Done1) ∧
        MidInv Dist W H Grid S T c cn Done1 (L.foldl (Relax Dist T cn) (O, A)).1
          (L.foldl (Relax Dist T cn) (O, A)).2 := by
  intro L
  induction L with
  | nil => intro Done O A inv _; exact ⟨Done, fun q hq => by simp at hq, fun _ h => h, inv⟩
  | cons nb L ih =>
    intro Done O A inv hL
    obtain ⟨h1, h2, h3⟩ := hL nb (List.mem_cons_self _ _)
    obtain ⟨Done1, hsub, hsub2, inv1⟩ :=
      ih (nb :: Done) _ _ (inv.relax h1 h2 h3) (fun x hx => hL x (List.mem_cons_of_mem _ hx))
    refine ⟨Done1, ?_, fun q hq => hsub2 q (List.mem_cons_of_mem _ hq), ?_⟩
    · intro q hq
      rcases List.mem_cons.mp hq with h | h
      · rw [h]; exact hsub2 nb (List.mem_cons_self _ _)
      · exact hsub q h
    · rw [List.foldl_cons]
      exact inv1

theorem IsWalkable_empty {W H : Int} {nb S T : Pos} (hg : InGrid W H nb) :
    IsWalkable W (List.replicate (W * H).toNat 0) [] nb S T = true := by
  obtain ⟨h1, h2, h3, h4⟩ := hg
  obtain ⟨h5, h6⟩ := index_in_range h1 h2 h3 h4
  have hlen : (nb.2 * W + nb.1).toNat < (W * H).toNat := by omega
  have hget : GridGet (List.replicate (W * H).toNat 0) (nb.2 * W + nb.1) = some 0 := by
    unfold GridGet
    rw [if_pos ⟨h5, by rw [List.length_replicate]; omega⟩]
    rw [List.getElem?_eq_getElem (by rw [List.length_replicate]; exact hlen)]
    simp
  simp [IsWalkable, hget]

/-- While the start is expanded and `x` is not, some open node lies on a
shortest way from the start to `x` and carries its exact distance. -/
theorem OptInv.frontier {D : Type} {Dist : Pos → Pos → D} {W H : Int} {Grid : List Int}
    {S T : Pos} {O : List Pos} {A : NodeMap D} (inv : OptInv Dist W H Grid S T O A)
    (hS : InGrid W H S) (hSO : S ∉ O) {x : Pos} (hx : InGrid W H x)
    (hxo : ∀ n, A x = some n → x ∈ O) :
    ∃ m mn, m ∈ O ∧ A m = some mn ∧ mn.GCost = GridDist S m ∧
      GridDist S m + GridDist m x = GridDist S x := by
  have key : ∀ (k : Nat) (u : Pos) (un : FAStarNode D), A u = some un → u ∉ O → InGrid W H u →
      GridDist S u + GridDist u x = GridDist S x → GridDist u x = k →
      ∃ m mn, m ∈ O ∧ A m = some mn ∧ mn.GCost = GridDist S m ∧
        GridDist S m + GridDist m x = GridDist S x := by
    intro k
    induction k with
    | zero =>
      intro u un hu huO _ _ hk
      have hux : u = x := GridDist_eq_zero hk
      rw [hux] at hu huO
      exact absurd (hxo un hu) huO
    | succ k ih =>
      intro u un hu huO hug hsum hk
      have hne : u ≠ x := by
        intro h
        rw [h, GridDist_self] at hk
        exact absurd hk (by omega)
      obtain ⟨q, hq, hqg, hqd⟩ := exists_step_toward hug hx hne
      obtain ⟨hun, -, hnb⟩ := inv.closed u un hu huO
      obtain ⟨m, hm, hmg⟩ := hnb q hq hqg
      have hlow := inv.lower q m hm
      have htri := GridDist_triangle S q x
      by_cases hqO : q ∈ O
      · exact ⟨q, m, hqO, hm, by omega, by omega⟩
      · exact ih q m hm hqO hqg (by omega) (by omega)
  obtain ⟨sn, hsn, -, -⟩ := inv.base.start_node
  exact key (GridDist S x) S sn hsn hSO hS (by rw [GridDist_self, Nat.zero_add]) rfl

/-- The node taken from a sorted open set has its exact distance from the
start as cost. -/
theorem OptInv.pop_optimal {D : Type} [LinearOrderedRing D] {Dist : Pos → Pos → D}
    (hDist : Consistent Dist) {W H : Int} {Grid : List Int} {S T : Pos} {O : List Pos}
    {A : NodeMap D} (inv : OptInv Dist W H Grid S T O A) (hS : InGrid W H S) {c : Pos}
    {cn : FAStarNode D} (hcO : c ∈ O) (hc : A c = some cn)
    (hmin : ∀ m mn, m ∈ O → A m = some mn → cn.FCost ≤ mn.FCost) :
    cn.GCost = GridDist S c := by
  obtain ⟨sn, hsn, hsg, -⟩ := inv.base.start_node
  by_cases hSO : S ∈ O
  · have hcS : c = S := (inv.start_open hSO).2 c cn hc
    rw [hcS, hsn] at hc
    rw [hcS, ← Option.some.inj hc, hsg, GridDist_self]
  · have hcg : InGrid W H c := by
      rcases (inv.base.reach c cn hc).inGrid with h | h
      · rw [h] at hcO
        exact absurd hcO hSO
      · exact h
    obtain ⟨m, mn, hmO, hm, hmg, hsum⟩ := inv.frontier hS hSO hcg (fun _ _ => hcO)
    have h1 := hmin m mn hmO hm
    unfold FAStarNode.FCost at h1
    rw [inv.hcost c cn hc, inv.hcost m mn hm, hmg] at h1
    have h2 := hDist m c T
    have h3 : (cn.GCost : D) + Dist c T ≤ ((GridDist S m + GridDist m c : Nat) : D) + Dist c T := by
      push_cast
      calc (cn.GCost : D) + Dist c T ≤ (GridDist S m : D) + Dist m T := h1
        _ ≤ (GridDist S m : D) + ((GridDist m c : D) + Dist c T) := add_le_add_left h2 _
        _ = (GridDist S m : D) + (GridDist m c : D) + Dist c T := by rw [add_assoc]
    have h4 : (cn.GCost : D) ≤ ((GridDist S m + GridDist m c : Nat) : D) :=
      le_of_add_le_add_right h3
    have h5 : cn.GCost ≤ GridDist S m + GridDist m c := Nat.cast_le.mp h4
    have h6 := inv.lower c cn hc
    omega

/-- From a node with exact cost, the walk back visits exactly one node for each
unit of cost, and the start. -/
theorem WalkBack_length {D : Type} {W H : Int} {Grid : List Int}
    {S T : Pos} {O : List Pos} {A : NodeMap D} (inv : AStarInv W H Grid [] S T O A)
    (hlower : ∀ p n, A p = some n → GridDist S p ≤ n.GCost) :
    ∀ (fuel : Nat) (p : Pos) (n : FAStarNode D) (walk : List Pos), A p = some n →
      n.GCost = GridDist S p → WalkBack A fuel (some p) = some walk →
      walk.length = GridDist S p + 1 := by
  intro fuel
  induction fuel with
  | zero => intro p n walk _ _ h; simp [WalkBack] at h
  | succ fuel ih =>
    intro p n walk hn hg hw
    obtain ⟨sn, hsn, hsg, hsc⟩ := inv.start_node
    by_cases hpS : p = S
    · have hnsn : n = sn := by
        rw [hpS, hsn] at hn
        exact (Option.some.inj hn).symm
      simp only [WalkBack, hn, hnsn, hsc, Option.some.injEq] at hw
      rw [← hw, hpS, GridDist_self]
      rfl
    · obtain ⟨q, m, h1, h2, h3, h4⟩ := inv.came_from p n hn hpS
      simp only [WalkBack, hn, h1] at hw
      cases hq : WalkBack A fuel (some q) with
      | none => rw [hq] at hw; simp at hw
      | some walk1 =>
        rw [hq] at hw
        simp only [Option.some.injEq] at hw
        have hlq := hlower q m h2
        have hstep := (GridDist_step (s := S) h4).1
        have hlen := ih q m walk1 h2 (by omega) hq
        rw [← hw, List.length_cons, hlen]
        omega

theorem OpenSetLess_false {D : Type} [LinearOrderedRing D] {A : NodeMap D} {m c : Pos}
    {mn cn : FAStarNode D} (hm : A m = some mn) (hc : A c = some cn)
    (h : OpenSetLess A m c = false) : cn.FCost ≤ mn.FCost := by
  unfold OpenSetLess at h
  rw [hm, hc] at h
  dsimp only at h
  by_cases heq : mn.FCost = cn.FCost
  · exact le_of_eq heq.symm
  · rw [if_neg heq] at h
    exact not_lt.mp (of_decide_eq_false h)

/-- On a grid whose cells are all walkable, with a consistent heuristic and a
sort that orders the open set, the main loop returns a path from the start to
a cell passing the goal test, with as many steps as the grid distance between
the two. -/
theorem FindPathLoop_shortest {D : Type} [LinearOrderedRing D] {Dist : Pos → Pos → D}
    (hDist : Consistent Dist) {ArraySort : SortFn} (hPerm : IsPermSort ArraySort)
    (hSorted : SortsOpenSet D ArraySort) {W H : Int} {Grid : List Int} {S T : Pos}
    (hS : InGrid W H S) (hT : InGrid W H T)
    (hwalk : ∀ q, InGrid W H q → IsWalkable W Grid [] q S T = true) :
    ∀ (fuel : Nat) (O : List Pos) (A : NodeMap D), OptInv Dist W H Grid S T O A →
      O.length + unseen W H A ≤ fuel →
      ∃ Path c, FindPathLoop Dist ArraySort W H Grid [] S T fuel O A = some Path ∧
        Path.head? = some S ∧ Path.getLast? = some c ∧ NearTarget c T = true ∧
        Path.length = GridDist S c + 1 := by
  have hTT : NearTarget T T = true := by simp [NearTarget]
  -- the open set cannot run empty: the target would have to be expanded
  have hnonempty : ∀ (A : NodeMap D), OptInv Dist W H Grid S T [] A → False := by
    intro A inv
    have hxo : ∀ n, A T = some n → T ∈ ([] : List Pos) := by
      intro n hn
      have := (inv.closed T n hn (by simp)).2.1
      rw [hTT] at this
      exact absurd this (by simp)
    obtain ⟨m, _, hm, -⟩ := inv.frontier hS (by simp) hT hxo
    simp at hm
  intro fuel
  induction fuel with
  | zero =>
    intro O A inv hfuel
    cases O with
    | nil => exact absurd inv (fun h => hnonempty A h)
    | cons p ps => simp at hfuel
  | succ fuel ih =>
    intro O A inv hfuel
    cases O with
    | nil => exact absurd inv (fun h => hnonempty A h)
    | cons p ps =>
      have hperm : (ArraySort (OpenSetLess A) (p :: ps)).Perm (p :: ps) :=
        hPerm Pos (OpenSetLess A) (p :: ps)
      have hsorted : (ArraySort (OpenSetLess A) (p :: ps)).Pairwise
          (fun a b => OpenSetLess A b a = false) := hSorted A (p :: ps) inv.base.open_node
      unfold FindPathLoop
      cases hs : ArraySort (OpenSetLess A) (p :: ps) with
      | nil =>
        rw [hs] at hperm
        exact absurd hperm.length_eq (by simp)
      | cons c O1 =>
        rw [hs] at hperm hsorted
        dsimp only
        have hmem : c ∈ p :: ps := hperm.subset (List.mem_cons_self _ _)
        obtain ⟨cn, hcn⟩ := inv.base.open_node c hmem
        have hpos : cn.Position = c := inv.base.position c cn hcn
        have hmin : ∀ m mn, m ∈ p :: ps → A m = some mn → cn.FCost ≤ mn.FCost := by
          intro m mn hm hmn
          rcases List.mem_cons.mp (hperm.symm.subset hm) with h | h
          · rw [h, hcn] at hmn
            rw [Option.some.inj hmn]
          · exact OpenSetLess_false hmn hcn (List.rel_of_pairwise_cons hsorted h)
        have hopt : cn.GCost = GridDist S c := inv.pop_optimal hDist hS hmem hcn hmin
        rw [hcn]
        dsimp only
        by_cases hgoal : NearTarget cn.Position T = true
        · rw [if_pos hgoal]
          obtain ⟨walk, hw, hhead, hlast, -, -⟩ :=
            WalkBack_spec inv.base (cn.GCost + 1) c cn hcn (Nat.lt_succ_self _)
          have hlen := WalkBack_length inv.base inv.lower _ c cn walk hcn hopt hw
          rw [hw]
          refine ⟨walk.reverse, c, rfl, ?_, ?_, ?_, ?_⟩
          · rw [List.head?_reverse]; exact hlast
          · rw [List.getLast?_reverse]; exact hhead
          · rw [← hpos]; exact hgoal
          · rw [List.length_reverse]; exact hlen
        · rw [if_neg hgoal]
          have hnd : (c :: O1).Nodup := hperm.nodup_iff.mpr inv.nodup
          have hcO1 : c ∉ O1 := (List.nodup_cons.mp hnd).1
          have hsub : ∀ q, q ∈ O1 → q ∈ p :: ps :=
            fun q hq => hperm.subset (List.mem_cons_of_mem _ hq)
          have hnot : ∀ q, q ∉ O1 → q ≠ c → q ∉ p :: ps := by
            intro q hq hqc hqO
            rcases List.mem_cons.mp (hperm.symm.subset hqO) with h | h
            · exact hqc h
            · exact hq h
          have hSO1 : S ∉ O1 := by
            intro h
            have hSO := hsub S h
            have hO := (inv.start_open hSO).1
            have hlen : (c :: O1).length = 1 := by rw [hperm.length_eq, hO]; rfl
            have : O1 = [] := List.length_eq_zero.mp (by simpa using hlen)
            rw [this] at h
            simp at h
          have base1 : AStarInv W H Grid [] S T O1 A :=
            ⟨fun q hq => inv.base.open_node q (hsub q hq), inv.base.position,
              inv.base.start_node, inv.base.came_from, inv.base.reach⟩
          have mid : MidInv Dist W H Grid S T c cn [] O1 A :=
            ⟨base1, (List.nodup_cons.mp hnd).2, inv.hcost, inv.lower,
              ⟨hcn, hopt, hcO1, by rw [← hpos]; simpa using hgoal⟩,
              fun q n hn hq hqc => inv.closed q n hn (hnot q hq hqc),
              fun q hq => by simp at hq, hSO1⟩
          have hnbs : ∀ nb ∈ GetNeighbors W H Grid [] cn.Position S T,
              IsStep c nb ∧ InGrid W H nb ∧ IsWalkable W Grid [] nb S T = true := by
            intro nb hnb
            rw [hpos] at hnb
            exact mem_GetNeighbors.mp hnb
          obtain ⟨Done, hDone, -, mid1⟩ :=
            MidInv.foldl (GetNeighbors W H Grid [] cn.Position S T) [] O1 A mid hnbs
          obtain ⟨-, hcount⟩ := Relax_foldl_spec Dist cn
            (GetNeighbors W H Grid [] cn.Position S T) O1 A base1 hcn hnbs
          have hlen : O1.length + 1 = (p :: ps).length := by
            rw [← hperm.length_eq]; rfl
          refine ih _ _ ⟨mid1.base, mid1.nodup, mid1.hcost, mid1.lower, ?_, ?_⟩ (by omega)
          · intro q n hn hqO
            by_cases hqc : q = c
            · obtain ⟨hc1, hc2, -, hc4⟩ := mid1.cur
              rw [hqc] at hn ⊢
              rw [hc1] at hn
              rw [← Option.some.inj hn]
              refine ⟨hc2, hc4, fun r hr hrg => ?_⟩
              apply mid1.done r
              apply hDone
              rw [hpos]
              exact mem_GetNeighbors.mpr ⟨hr, hrg, hwalk r hrg⟩
            · exact mid1.closed q n hn hqO hqc
          · intro h
            exact absurd h mid1.start_closed

theorem OptInv_init {D : Type} (Dist : Pos → Pos → D) (W H : Int) (Grid : List Int)
    (S T : Pos) :
    OptInv Dist W H Grid S T [S]
      (Function.update (fun _ => none) S (some ⟨S, 0, Dist S T, none⟩)) := by
  have hnode : ∀ p n, Function.update (fun _ => none) S
      (some (⟨S, 0, Dist S T, none⟩ : FAStarNode D)) p = some n →
      p = S ∧ n = ⟨S, 0, Dist S T, none⟩ := by
    intro p n hn
    by_cases hp : p = S
    · rw [hp, Function.update_same] at hn
      exact ⟨hp, (Option.some.inj hn).symm⟩
    · rw [Function.update_noteq hp] at hn
      exact absurd hn (by simp)
  refine ⟨AStarInv_init Dist W H Grid [] S T, List.nodup_singleton _, ?_, ?_, ?_, ?_⟩
  · intro p n hn
    obtain ⟨h1, h2⟩ := hnode p n hn
    rw [h1, h2]
  · intro p n hn
    obtain ⟨h1, h2⟩ := hnode p n hn
    rw [h1, GridDist_self]
    exact Nat.zero_le _
  · intro p n hn hp
    obtain ⟨h1, -⟩ := hnode p n hn
    rw [h1] at hp
    simp at hp
  · intro _
    exact ⟨rfl, fun p n hn => (hnode p n hn).1⟩

/-! ## The reference sort orders the open set -/

/-- Insertion sort sorts whenever the comparison is total and transitive on the
elements of the list. -/
theorem insertionSort_sorted_on {α : Type} (r : α → α → Prop) [DecidableRel r] (P : α → Prop)
    (htotal : ∀ a b, P a → P b → r a b ∨ r b a)
    (htrans : ∀ a b c, P a → P b → P c → r a b → r b c → r a c) :
    ∀ l : List α, (∀ a ∈ l, P a) → (l.insertionSort r).Sorted r := by
  have hins : ∀ (a : α) (L : List α), P a → (∀ x ∈ L, P x) → L.Sorted r →
      (L.orderedInsert r a).Sorted r := by
    intro a L ha
    induction L with
    | nil => intro _ _; simp
    | cons b L ih =>
      intro hL hs
      have hb : P b := hL b (List.mem_cons_self _ _)
      have hLP : ∀ x ∈ L, P x := fun x hx => hL x (List.mem_cons_of_mem _ hx)
      rw [List.orderedInsert]
      rw [List.sorted_cons] at hs
      by_cases hab : r a b
      · rw [if_pos hab, List.sorted_cons]
        refine ⟨fun x hx => ?_, List.sorted_cons.mpr hs⟩
        rcases List.mem_cons.mp hx with h | h
        · rw [h]; exact hab
        · exact htrans a b x ha hb (hLP x h) hab (hs.1 x h)
      · rw [if_neg hab, List.sorted_cons]
        refine ⟨fun x hx => ?_, ih hLP hs.2⟩
        rcases (List.mem_orderedInsert r).mp hx with h | h
        · rw [h]
          exact (htotal a b ha hb).resolve_left hab
        · exact hs.1 x h
  intro l
  induction l with
  | nil => intro _; simp
  | cons a l ih =>
    intro hl
    rw [List.insertionSort]
    refine hins a _ (hl a (List.mem_cons_self _ _)) ?_
      (ih (fun x hx => hl x (List.mem_cons_of_mem _ hx)))
    intro x hx
    exact hl x (List.mem_cons_of_mem _ ((List.mem_insertionSort r).mp hx))

theorem InsertionSort_sortsOpenSet (D : Type) [LinearOrderedRing D] :
    SortsOpenSet D InsertionSort := by
  intro A l hl
  have key : ∀ a b na nb, A a = some na → A b = some nb →
      (OpenSetLess A b a = false ↔
        (na.FCost < nb.FCost ∨ (na.FCost = nb.FCost ∧ na.HCost ≤ nb.HCost))) := by
    intro a b na nb ha hb
    unfold OpenSetLess
    rw [hb, ha]
    dsimp only
    by_cases heq : nb.FCost = na.FCost
    · rw [if_pos heq, decide_eq_false_iff_not, not_lt]
      constructor
      · intro h; exact Or.inr ⟨heq.symm, h⟩
      · rintro (h | ⟨-, h⟩)
        · rw [heq] at h; exact absurd h (lt_irrefl _)
        · exact h
    · rw [if_neg heq, decide_eq_false_iff_not, not_lt]
      constructor
      · intro h; exact Or.inl (lt_of_le_of_ne h (Ne.symm heq))
      · rintro (h | ⟨h, -⟩)
        · exact le_of_lt h
        · exact absurd h.symm heq
  refine insertionSort_sorted_on (fun a b => OpenSetLess A b a = false)
    (fun p => ∃ n, A p = some n) ?_ ?_ l hl
  · rintro a b ⟨na, ha⟩ ⟨nb, hb⟩
    show OpenSetLess A b a = false ∨ OpenSetLess A a b = false
    rw [key a b na nb ha hb, key b a nb na hb ha]
    rcases lt_trichotomy na.FCost nb.FCost with h | h | h
    · exact Or.inl (Or.inl h)
    · rcases le_total na.HCost nb.HCost with h2 | h2
      · exact Or.inl (Or.inr ⟨h, h2⟩)
      · exact Or.inr (Or.inr ⟨h.symm, h2⟩)
    · exact Or.inr (Or.inl h)
  · rintro a b c ⟨na, ha⟩ ⟨nb, hb⟩ ⟨nc, hc⟩
    show OpenSetLess A b a = false → OpenSetLess A c b = false → OpenSetLess A c a = false
    rw [key a b na nb ha hb, key b c nb nc hb hc, key a c na nc ha hc]
    rintro (h1 | ⟨h1, h2⟩) (h3 | ⟨h3, h4⟩)
    · exact Or.inl (lt_trans h1 h3)
    · exact Or.inl (by rw [← h3]; exact h1)
    · exact Or.inl (by rw [h1]; exact h3)
    · exact Or.inr ⟨h1.trans h3, le_trans h2 h4⟩

theorem GridDistInt_consistent : Consistent GridDistInt := by
  intro u v t
  unfold GridDistInt
  have := GridDist_triangle u v t
  omega

/-- C7, as stated, fails: on a 3 x 1 all-empty grid the path from `(0,0)` to
`(2,0)` is `[(0,0), (1,0)]`, one step long, while the grid distance to the
target is `2`: the search stops at the first cell within `1.0` of the target.
(The open set never holds more than one node here, so the result depends
neither on the sort nor on the distance function.) -/
theorem FindPath_empty_grid_not_manhattan :
    ¬ (∀ Path, FindPath GridDistInt InsertionSort 3 1 (List.replicate 3 0) [] (0, 0) (2, 0)
        = some Path → (Path.length : Int) - 1 = |(0 : Int) - 2| + |(0 : Int) - 0|) := by
  intro h
  have h1 : FindPath GridDistInt InsertionSort 3 1 (List.replicate 3 0) [] (0, 0) (2, 0)
      = some [(0, 0), (1, 0)] := by decide
  have h2 := h _ h1
  revert h2
  decide

/-- C7, amended. On an all-empty grid with no rooms, for every in-bounds start
and target, with a heuristic that is consistent with unit steps and a sort that
orders the open set, `FindPath` returns a non-empty path from the start to a
cell `c` within `1` of the target in each coordinate, whose length in steps
(number of cells minus one) equals the 4-directional grid distance
`|sx - cx| + |sy - cy|` from the start to that last cell. -/
theorem FindPath_empty_grid_shortest {D : Type} [LinearOrderedRing D] (Dist : Pos → Pos → D)
    (hDist : Consistent Dist) (ArraySort : SortFn) (hPerm : IsPermSort ArraySort)
    (hSorted : SortsOpenSet D ArraySort) (Width Height : Int) (StartPos TargetPos : Pos)
    (hS : InGrid Width Height StartPos) (hT : InGrid Width Height TargetPos) :
    ∃ Path c, FindPath Dist ArraySort Width Height (List.replicate (Width * Height).toNat 0) []
        StartPos TargetPos = some Path ∧
      Path.head? = some StartPos ∧ Path.getLast? = some c ∧
      |c.1 - TargetPos.1| ≤ 1 ∧ |c.2 - TargetPos.2| ≤ 1 ∧
      (Path.length : Int) - 1 = |StartPos.1 - c.1| + |StartPos.2 - c.2| := by
  have hfuel : [StartPos].length + unseen Width Height (Function.update (fun _ => none) StartPos
      (some (⟨StartPos, 0, Dist StartPos TargetPos, none⟩ : FAStarNode D)))
      ≤ Width.toNat * Height.toNat + 1 := by
    have := unseen_le Width Height (Function.update (fun _ => none) StartPos
      (some (⟨StartPos, 0, Dist StartPos TargetPos, none⟩ : FAStarNode D)))
    simp only [List.length_singleton]
    omega
  obtain ⟨Path, c, h1, h2, h3, h4, h5⟩ :=
    FindPathLoop_shortest hDist hPerm hSorted hS hT (fun q hq => IsWalkable_empty hq) _ _ _
      (OptInv_init Dist Width Height _ StartPos TargetPos) hfuel
  have h6 := NearTarget_iff.mp h4
  refine ⟨Path, c, h1, h2, h3, h6.1, h6.2, ?_⟩
  rw [h5]
  unfold GridDist
  push_cast
  omega

/-- C7, amended, at a concrete input: a 6 x 5 all-empty grid, from `(0,0)` to
`(5,3)`, with the grid distance as heuristic. -/
theorem FindPath_empty_grid_shortest_witness :
    ∃ Path c, FindPath GridDistInt InsertionSort 6 5 (List.replicate ((6 : Int) * 5).toNat 0) []
        (0, 0) (5, 3) = some Path ∧
      Path.head? = some (0, 0) ∧ Path.getLast? = some c ∧
      |c.1 - (5 : Int)| ≤ 1 ∧ |c.2 - (3 : Int)| ≤ 1 ∧
      (Path.length : Int) - 1 = |(0 : Int) - c.1| + |(0 : Int) - c.2| :=
  FindPath_empty_grid_shortest GridDistInt GridDistInt_consistent InsertionSort InsertionSort_perm
    (InsertionSort_sortsOpenSet Int) 6 5 (0, 0) (5, 3) (by simp [InGrid]) (by simp [InGrid])

/-! ## The complete room graph: count, pairs, distances and order -/

theorem sum_range_gap (n : Nat) :
    ∀ m, m ≤ n → 2 * ((List.range m).map (fun i => n - (i + 1))).sum + m * (m + 1) = 2 * m * n := by
  intro m
  induction m with
  | zero => intro _; simp
  | succ m ih =>
    intro hm
    have h := ih (by omega)
    rw [List.range_succ, List.map_append, List.sum_append]
    simp only [List.map_cons, List.map_nil, List.sum_cons, List.sum_nil, Nat.add_zero]
    obtain ⟨d, rfl⟩ : ∃ d, n = m + 1 + d := ⟨n - (m + 1), by omega⟩
    have e : m + 1 + d - (m + 1) = d := by omega
    rw [e]
    nlinarith

theorem map_endpoints_AllPairs {D : Type} (Dist : ℚ × ℚ → ℚ × ℚ → D) (Rooms : List FRoom) :
    (AllPairs Dist Rooms).map endpoints =
      (List.range Rooms.length).flatMap fun i =>
        (List.range' (i + 1) (Rooms.length - (i + 1))).map fun j => (i, j) := by
  unfold AllPairs
  rw [List.map_flatMap]
  apply List.flatMap_congr
  intro i hi
  rw [List.map_flatMap, List.map_eq_flatMap]
  apply List.flatMap_congr
  intro j hj
  rw [List.mem_range] at hi
  rw [List.mem_range'_1] at hj
  have hjlt : j < Rooms.length := by omega
  rw [List.getElem?_eq_getElem hi, List.getElem?_eq_getElem hjlt]
  rfl

theorem length_AllPairs {D : Type} (Dist : ℚ × ℚ → ℚ × ℚ → D) (Rooms : List FRoom) :
    (AllPairs Dist Rooms).length = Rooms.length * (Rooms.length - 1) / 2 := by
  have h1 : (AllPairs Dist Rooms).length = ((AllPairs Dist Rooms).map endpoints).length := by
    rw [List.length_map]
  rw [h1, map_endpoints_AllPairs, List.length_flatMap]
  have h2 : (List.map (List.length ∘ fun i =>
      (List.range' (i + 1) (Rooms.length - (i + 1))).map fun j => (i, j))
        (List.range Rooms.length)) =
      (List.range Rooms.length).map (fun i => Rooms.length - (i + 1)) := by
    apply List.map_congr_left
    intro i _
    simp
  rw [h2]
  have h3 := sum_range_gap Rooms.length Rooms.length (le_refl _)
  generalize ((List.range Rooms.length).map (fun i => Rooms.length - (i + 1))).sum = S at h3
  generalize Rooms.length = n at h3
  symm
  apply Nat.div_eq_of_eq_mul_left (by norm_num)
  cases n with
  | zero => simp at h3 ⊢; omega
  | succ k =>
    simp only [Nat.add_sub_cancel]
    nlinarith

theorem nodup_endpoints_AllPairs {D : Type} (Dist : ℚ × ℚ → ℚ × ℚ → D) (Rooms : List FRoom) :
    ((AllPairs Dist Rooms).map endpoints).Nodup := by
  rw [map_endpoints_AllPairs, List.nodup_flatMap]
  constructor
  · intro i _
    apply List.Nodup.map
    · intro a b h
      exact (Prod.mk.inj h).2
    · exact List.nodup_range' _ _
  · have h : (List.range Rooms.length).Pairwise (fun a b => a ≠ b) := List.nodup_range _
    refine h.imp ?_
    intro a b hab
    show List.Disjoint _ _
    intro p hp1 hp2
    rw [List.mem_map] at hp1 hp2
    obtain ⟨_, _, rfl⟩ := hp1
    obtain ⟨_, _, h2⟩ := hp2
    exact hab (Prod.mk.inj h2).1.symm

/-- C13: for every list of `M` rooms, `GenerateAllRoomConnections` outputs exactly
`M * (M - 1) / 2` connections, no pair of indices twice, one for each pair `i < j` of
room indices, each carrying the distance `Dist` between the two rectangle centers
`(StartX + Width / 2, StartY + Height / 2)`, and the list is in ascending order of
distance; the engine's sort is taken to rearrange its input into ascending order. -/
theorem GenerateAllRoomConnections_all_pairs_ascending {D : Type} [LinearOrder D]
    (Dist : ℚ × ℚ → ℚ × ℚ → D) (ArraySort : SortFn) (hPerm : IsPermSort ArraySort)
    (hSorted : SortsByDistance D ArraySort) (Rooms : List FRoom) :
    (GenerateAllRoomConnections Dist ArraySort Rooms).length =
        Rooms.length * (Rooms.length - 1) / 2 ∧
      ((GenerateAllRoomConnections Dist ArraySort Rooms).map endpoints).Nodup ∧
      (∀ i j, i < j → j < Rooms.length →
        ∃ c ∈ GenerateAllRoomConnections Dist ArraySort Rooms,
          c.RoomIndexA = i ∧ c.RoomIndexB = j) ∧
      (∀ c ∈ GenerateAllRoomConnections Dist ArraySort Rooms,
        c.RoomIndexA < c.RoomIndexB ∧ c.RoomIndexB < Rooms.length ∧
        ∃ RoomA RoomB, Rooms[c.RoomIndexA]? = some RoomA ∧ Rooms[c.RoomIndexB]? = some RoomB ∧
          c.Distance =
            Dist ((RoomA.StartX : ℚ) + (RoomA.Width : ℚ) / 2,
                  (RoomA.StartY : ℚ) + (RoomA.Height : ℚ) / 2)
              ((RoomB.StartX : ℚ) + (RoomB.Width : ℚ) / 2,
                (RoomB.StartY : ℚ) + (RoomB.Height : ℚ) / 2)) ∧
      (GenerateAllRoomConnections Dist ArraySort Rooms).Pairwise
        (fun a b => a.Distance ≤ b.Distance) := by
  have hp : (GenerateAllRoomConnections Dist ArraySort Rooms).Perm (AllPairs Dist Rooms) :=
    hPerm _ _ _
  refine ⟨?_, ?_, ?_, ?_, hSorted _⟩
  · rw [hp.length_eq, length_AllPairs]
  · exact ((hp.map endpoints).nodup_iff).mpr (nodup_endpoints_AllPairs Dist Rooms)
  · intro i j hij hj
    have hi : i < Rooms.length := by omega
    refine ⟨⟨i, j, Dist (Center Rooms[i]) (Center Rooms[j])⟩, ?_, rfl, rfl⟩
    rw [hp.mem_iff, mem_AllPairs]
    exact ⟨i, j, Rooms[i], Rooms[j], hij, hj, List.getElem?_eq_getElem hi,
      List.getElem?_eq_getElem hj, rfl⟩
  · intro c hc
    rw [hp.mem_iff, mem_AllPairs] at hc
    obtain ⟨i, j, RoomA, RoomB, hij, hj, hA, hB, rfl⟩ := hc
    exact ⟨hij, hj, RoomA, RoomB, hA, hB, rfl⟩

/-- C13, at a concrete input: three rooms give three connections in ascending order of
distance, with the insertion sort and the squared distance. -/
theorem GenerateAllRoomConnections_all_pairs_ascending_witness :
    (GenerateAllRoomConnections SqDist InsertionSort
        [FRoom.new 0 0 4 4, FRoom.new 6 6 4 4, FRoom.new 0 6 5 4]).length = 3 * (3 - 1) / 2 ∧
      (GenerateAllRoomConnections SqDist InsertionSort
        [FRoom.new 0 0 4 4, FRoom.new 6 6 4 4, FRoom.new 0 6 5 4]).Pairwise
        (fun a b => a.Distance ≤ b.Distance) :=
  have h := GenerateAllRoomConnections_all_pairs_ascending SqDist InsertionSort
    InsertionSort_perm (InsertionSort_sorts ℚ)
    [FRoom.new 0 0 4 4, FRoom.new 6 6 4 4, FRoom.new 0 6 5 4]
  ⟨h.1, h.2.2.2.2⟩

/-! ## Which cells are walkable -/

theorem IsInRoom_iff {Rooms : List FRoom} {p q : Pos} :
    IsInRoom Rooms p q = true ↔ ∃ Room ∈ Rooms, InRect Room p.1 p.2 := by
  unfold IsInRoom InRect
  rw [List.any_eq_true]
  constructor
  · rintro ⟨Room, hm, h⟩
    rw [decide_eq_true_iff] at h
    exact ⟨Room, hm, h.1, h.2.1, h.2.2.1, h.2.2.2⟩
  · rintro ⟨Room, hm, h⟩
    refine ⟨Room, hm, ?_⟩
    rw [decide_eq_true_iff]
    exact ⟨h.1, h.2.1, h.2.2.1, h.2.2.2⟩

/-- What `IsWalkable` computes: the index is valid, and the cell is empty, or lies in the
rectangle of any room of `Rooms`, or carries tag `2`. -/
theorem IsWalkable_iff {W : Int} {Grid : List Int} {Rooms : List FRoom} {p S T : Pos} :
    IsWalkable W Grid Rooms p S T = true ↔
      ∃ v, GridGet Grid (p.2 * W + p.1) = some v ∧
        (v = 0 ∨ (∃ Room ∈ Rooms, InRect Room p.1 p.2) ∨ v = 2) := by
  unfold IsWalkable
  cases h : GridGet Grid (p.2 * W + p.1) with
  | none => simp [h]
  | some v =>
    simp only [h, Bool.or_eq_true, beq_iff_eq, IsInRoom_iff, Option.some.injEq, exists_eq_left']
    generalize (∃ Room ∈ Rooms, InRect Room p.1 p.2) = P
    tauto

/-- C17, on the code: on the 3 x 1 grid `[0, 3, 1]` whose only room is the cell `(2, 0)`,
with start and target `(0, 0)` outside that room, `IsWalkable` answers false at
the cell `(1, 0)` carrying corridor tag `3` (and likewise for tags `4` and `5`), and true
at the cell `(2, 0)` of the room that holds neither the start nor the target. -/
theorem IsWalkable_other_room_and_corridor_tags :
    IsWalkable 3 [0, 3, 1] [FRoom.new 2 0 1 1] (1, 0) (0, 0) (0, 0) = false ∧
      IsWalkable 3 [0, 4, 1] [FRoom.new 2 0 1 1] (1, 0) (0, 0) (0, 0) = false ∧
      IsWalkable 3 [0, 5, 1] [FRoom.new 2 0 1 1] (1, 0) (0, 0) (0, 0) = false ∧
      IsWalkable 3 [0, 3, 1] [FRoom.new 2 0 1 1] (2, 0) (0, 0) (0, 0) = true ∧
      IsInRoom [FRoom.new 2 0 1 1] (0, 0) (0, 0) = false := by
  decide

/-! ## Grid accesses without a bounds check -/

/-- C16, on the code: `CanPlaceRoom` and `PlaceRoom` for a 4 x 4 room at `(0, 0)` on a
5 x 3 grid access `Grid[15]` of a 15-cell array, `PlaceDoors` for a room at `(0, 5)` on a
2 x 2 grid reads `Grid[8]` of a 4-cell array, and `FinalizeDungeon` on a 0 x 0 grid
writes `Grid[0]` of an empty array: none of the four rejects the access. -/
theorem unchecked_grid_accesses :
    CanPlaceRoom 5 (List.replicate 15 0) 0 0 4 4 = none ∧
      PlaceRoom 5 (List.replicate 15 0) [] 0 0 4 4 = none ∧
      PlaceDoors 2 2 [0, 0, 0, 0] [FRoom.new 0 5 1 1] = none ∧
      FinalizeDungeon RandMin 0 0 0 [] [] = none := by
  decide

/-! ## Door detection changes only corridor cells next to a room -/

theorem index_inj {W x y x1 y1 : Int} (hx0 : 0 ≤ x) (hx : x < W) (hx10 : 0 ≤ x1) (hx1 : x1 < W)
    (h : y * W + x = y1 * W + x1) : x = x1 ∧ y = y1 := by
  have hy : y = y1 := by
    rcases lt_trichotomy y y1 with hlt | heq | hgt
    · have : (y + 1) * W ≤ y1 * W := mul_le_mul_of_nonneg_right (by omega) (by omega)
      nlinarith
    · exact heq
    · have : (y1 + 1) * W ≤ y * W := mul_le_mul_of_nonneg_right (by omega) (by omega)
      nlinarith
  subst hy
  exact ⟨by omega, rfl⟩

theorem DoorCheck_spec (Grid : List Int) (Guard : Bool) (Index : Int)
    (h : Guard = true → 0 ≤ Index ∧ Index < Grid.length) :
    ∃ Grid1, DoorCheck Grid Guard Index = some Grid1 ∧ Grid1.length = Grid.length ∧
      ∀ j, (Guard = true ∧ Index = j → GridGet Grid j = some 2 → GridGet Grid1 j = some 3) ∧
        (¬ ((Guard = true ∧ Index = j) ∧ GridGet Grid j = some 2) →
          GridGet Grid1 j = GridGet Grid j) := by
  unfold DoorCheck
  cases Guard with
  | false =>
    refine ⟨Grid, by simp, rfl, fun j => ⟨by simp, fun _ => rfl⟩⟩
  | true =>
    have hi := h rfl
    obtain ⟨v, hv⟩ := GridGet_isSome hi.1 hi.2
    simp only [if_true, hv]
    by_cases hv2 : v = 2
    · subst hv2
      simp only [if_true]
      unfold GridSet
      rw [if_pos hi]
      refine ⟨_, rfl, by simp, fun j => ⟨?_, ?_⟩⟩
      · rintro ⟨_, rfl⟩ _
        rw [GridGet_set hi, if_pos rfl]
      · intro hn
        rw [GridGet_set hi]
        have : j ≠ Index := by
          rintro rfl
          exact hn ⟨⟨by simp, rfl⟩, hv⟩
        rw [if_neg this]
    · rw [if_neg hv2]
      refine ⟨Grid, rfl, rfl, fun j => ⟨?_, fun _ => rfl⟩⟩
      rintro ⟨_, rfl⟩ h2
      rw [hv] at h2
      exact absurd (Option.some.inj h2) hv2

theorem DoorChecksRun_spec :
    ∀ (checks : List (Bool × Int)) (Grid : List Int),
      (∀ c ∈ checks, c.1 = true → 0 ≤ c.2 ∧ c.2 < Grid.length) →
      ∃ Grid1, DoorChecksRun Grid checks = some Grid1 ∧ Grid1.length = Grid.length ∧
        ∀ j, ((∃ c ∈ checks, c.1 = true ∧ c.2 = j) → GridGet Grid j = some 2 →
            GridGet Grid1 j = some 3) ∧
          (¬ ((∃ c ∈ checks, c.1 = true ∧ c.2 = j) ∧ GridGet Grid j = some 2) →
            GridGet Grid1 j = GridGet Grid j) := by
  intro checks
  induction checks with
  | nil =>
    intro Grid _
    refine ⟨Grid, rfl, rfl, fun j => ⟨?_, fun _ => rfl⟩⟩
    rintro ⟨c, hc, _⟩
    exact absurd hc (List.not_mem_nil _)
  | cons c rest ih =>
    intro Grid hvalid
    obtain ⟨Guard, Index⟩ := c
    obtain ⟨G1, hG1, hlen1, hspec1⟩ :=
      DoorCheck_spec Grid Guard Index
        (hvalid (Guard, Index) (List.mem_cons_self _ _))
    obtain ⟨G2, hG2, hlen2, hspec2⟩ := ih G1 (by
      intro c hc hg
      rw [hlen1]
      exact hvalid c (List.mem_cons_of_mem _ hc) hg)
    refine ⟨G2, ?_, by rw [hlen2, hlen1], fun j => ⟨?_, ?_⟩⟩
    · show (match DoorCheck Grid Guard Index with
        | none => none
        | some Grid1 => DoorChecksRun Grid1 rest) = some G2
      rw [hG1]
      exact hG2
    · rintro ⟨c, hc, hg, hj⟩ h2
      by_cases hfirst : Guard = true ∧ Index = j
      · have h3 : GridGet G1 j = some 3 := (hspec1 j).1 hfirst h2
        rw [(hspec2 j).2 (by rw [h3]; simp), h3]
      · have h1 : GridGet G1 j = GridGet Grid j := (hspec1 j).2 (fun hh => hfirst hh.1)
        rcases List.mem_cons.mp hc with rfl | hc
        · exact absurd ⟨hg, hj⟩ hfirst
        · exact (hspec2 j).1 ⟨c, hc, hg, hj⟩ (by rw [h1]; exact h2)
    · intro hn
      have h1 : GridGet G1 j = GridGet Grid j := by
        apply (hspec1 j).2
        rintro ⟨hfirst, h2⟩
        exact hn ⟨⟨(Guard, Index), List.mem_cons_self _ _, hfirst.1, hfirst.2⟩, h2⟩
      rw [← h1]
      apply (hspec2 j).2
      rintro ⟨⟨c, hc, hg, hj⟩, h2⟩
      exact hn ⟨⟨c, List.mem_cons_of_mem _ hc, hg, hj⟩, by rw [← h1]; exact h2⟩

theorem mem_DoorChecks {W H : Int} {room : FRoom} {c : Bool × Int} :
    c ∈ DoorChecks W H room ↔
      (∃ dx : Nat, dx < room.Width.toNat ∧
        (c = (decide (room.StartY > 0), (room.StartY - 1) * W + (room.StartX + (dx : Int))) ∨
          c = (decide (room.StartY + room.Height < H),
            (room.StartY + room.Height) * W + (room.StartX + (dx : Int))))) ∨
      (∃ dy : Nat, dy < room.Height.toNat ∧
        (c = (decide (room.StartX > 0), (room.StartY + (dy : Int)) * W + (room.StartX - 1)) ∨
          c = (decide (room.StartX + room.Width < W),
            (room.StartY + (dy : Int)) * W + (room.StartX + room.Width)))) := by
  unfold DoorChecks
  simp only [List.mem_append, List.mem_flatMap, List.mem_range, List.mem_cons,
    List.mem_singleton, List.not_mem_nil, or_false]

/-- The guarded retags of a room inside the grid with a true guard are exactly those at the
cells next to the room that are inside the grid. -/
theorem DoorChecks_next_to_room {W H : Int} {room : FRoom} (hin : RoomInside W H room)
    {x y : Int} (hg : InGrid W H (x, y)) :
    (∃ c ∈ DoorChecks W H room, c.1 = true ∧ c.2 = y * W + x) ↔ NextToRoom room x y := by
  obtain ⟨h1, h2, h3, h4, h5, h6⟩ := hin
  obtain ⟨g1, g2, g3, g4⟩ := hg
  simp only at g1 g2 g3 g4
  unfold NextToRoom
  constructor
  · rintro ⟨c, hc, hgd, hidx⟩
    rw [mem_DoorChecks] at hc
    rcases hc with ⟨dx, hdx, rfl | rfl⟩ | ⟨dy, hdy, rfl | rfl⟩
    · simp only [decide_eq_true_eq] at hgd hidx
      obtain ⟨e1, e2⟩ := index_inj (by omega) (by omega) g1 g2 hidx
      left; omega
    · simp only [decide_eq_true_eq] at hgd hidx
      obtain ⟨e1, e2⟩ := index_inj (by omega) (by omega) g1 g2 hidx
      left; omega
    · simp only [decide_eq_true_eq] at hgd hidx
      obtain ⟨e1, e2⟩ := index_inj (by omega) (by omega) g1 g2 hidx
      right; omega
    · simp only [decide_eq_true_eq] at hgd hidx
      obtain ⟨e1, e2⟩ := index_inj (by omega) (by omega) g1 g2 hidx
      right; omega
  · rintro (⟨a1, a2, rfl | rfl⟩ | ⟨a1, a2, rfl | rfl⟩)
    · refine ⟨_, mem_DoorChecks.mpr (Or.inl ⟨(x - room.StartX).toNat, by omega, Or.inl rfl⟩),
        ?_, ?_⟩
      · simp only [decide_eq_true_eq]; omega
      · have : ((x - room.StartX).toNat : Int) = x - room.StartX := by omega
        simp only [this]; ring
    · refine ⟨_, mem_DoorChecks.mpr (Or.inl ⟨(x - room.StartX).toNat, by omega, Or.inr rfl⟩),
        ?_, ?_⟩
      · simp only [decide_eq_true_eq]; omega
      · have : ((x - room.StartX).toNat : Int) = x - room.StartX := by omega
        simp only [this]; ring
    · refine ⟨_, mem_DoorChecks.mpr (Or.inr ⟨(y - room.StartY).toNat, by omega, Or.inl rfl⟩),
        ?_, ?_⟩
      · simp only [decide_eq_true_eq]; omega
      · have : ((y - room.StartY).toNat : Int) = y - room.StartY := by omega
        simp only [this]; ring
    · refine ⟨_, mem_DoorChecks.mpr (Or.inr ⟨(y - room.StartY).toNat, by omega, Or.inr rfl⟩),
        ?_, ?_⟩
      · simp only [decide_eq_true_eq]; omega
      · have : ((y - room.StartY).toNat : Int) = y - room.StartY := by omega
        simp only [this]; ring

/-- Every guarded retag of a room inside the grid whose guard holds reads inside the
array. -/
theorem DoorChecks_valid {W H : Int} {room : FRoom} (hin : RoomInside W H room)
    {c : Bool × Int} (hc : c ∈ DoorChecks W H room) (hgd : c.1 = true) :
    0 ≤ c.2 ∧ c.2 < W * H := by
  obtain ⟨h1, h2, h3, h4, h5, h6⟩ := hin
  rw [mem_DoorChecks] at hc
  rcases hc with ⟨dx, hdx, rfl | rfl⟩ | ⟨dy, hdy, rfl | rfl⟩ <;>
    simp only [decide_eq_true_eq] at hgd ⊢ <;>
    exact index_in_range (by omega) (by omega) (by omega) (by omega)

/-- C11: for every grid of `Width * Height` cells and every list of rooms lying inside the
grid, `PlaceDoors` runs and keeps the size of the grid; a cell that lies one cell outside
some room's rectangle along one of its four edges and had tag `2` gets tag `3`, and every
other cell is unchanged; so a cell not next to a room stays what it was, and a room cell
(tag `1`) stays a room cell. -/
theorem PlaceDoors_frame (Width Height : Int) (Grid : List Int) (Rooms : List FRoom)
    (hlen : (Grid.length : Int) = Width * Height)
    (hin : ∀ Room ∈ Rooms, RoomInside Width Height Room) :
    ∃ Grid1, PlaceDoors Width Height Grid Rooms = some Grid1 ∧ Grid1.length = Grid.length ∧
      ∀ x y, InGrid Width Height (x, y) →
        ((∃ Room ∈ Rooms, NextToRoom Room x y) → GridGet Grid (y * Width + x) = some 2 →
          GridGet Grid1 (y * Width + x) = some 3) ∧
        (¬ ((∃ Room ∈ Rooms, NextToRoom Room x y) ∧ GridGet Grid (y * Width + x) = some 2) →
          GridGet Grid1 (y * Width + x) = GridGet Grid (y * Width + x)) ∧
        ((¬ ∃ Room ∈ Rooms, NextToRoom Room x y) →
          GridGet Grid1 (y * Width + x) = GridGet Grid (y * Width + x)) ∧
        (GridGet Grid (y * Width + x) = some 1 → GridGet Grid1 (y * Width + x) = some 1) := by
  obtain ⟨G1, hG1, hlen1, hspec⟩ :=
    DoorChecksRun_spec (Rooms.flatMap (DoorChecks Width Height)) Grid (by
      intro c hc hgd
      rw [List.mem_flatMap] at hc
      obtain ⟨room, hroom, hc⟩ := hc
      have := DoorChecks_valid (hin room hroom) hc hgd
      omega)
  refine ⟨G1, hG1, hlen1, ?_⟩
  intro x y hg
  have hiff : (∃ c ∈ Rooms.flatMap (DoorChecks Width Height), c.1 = true ∧ c.2 = y * Width + x) ↔
      ∃ Room ∈ Rooms, NextToRoom Room x y := by
    constructor
    · rintro ⟨c, hc, h⟩
      rw [List.mem_flatMap] at hc
      obtain ⟨room, hroom, hc⟩ := hc
      exact ⟨room, hroom, (DoorChecks_next_to_room (hin room hroom) hg).mp ⟨c, hc, h⟩⟩
    · rintro ⟨room, hroom, h⟩
      obtain ⟨c, hc, h⟩ := (DoorChecks_next_to_room (hin room hroom) hg).mpr h
      exact ⟨c, List.mem_flatMap.mpr ⟨room, hroom, hc⟩, h⟩
  have hkeep : ¬ ((∃ Room ∈ Rooms, NextToRoom Room x y) ∧
      GridGet Grid (y * Width + x) = some 2) →
      GridGet G1 (y * Width + x) = GridGet Grid (y * Width + x) := by
    intro hn
    apply (hspec _).2
    rw [hiff]
    exact hn
  refine ⟨fun hroom h2 => (hspec _).1 (hiff.mpr hroom) h2, hkeep,
    fun hn => hkeep (fun h => hn h.1), fun h1 => ?_⟩
  rw [hkeep (fun h => by rw [h1] at h; exact absurd h.2 (by decide)), h1]

/-- C11, at a concrete input: on the 3 x 3 grid `[0, 2, 0, 2, 1, 4, 0, 2, 0]` with the
one-cell room at `(1, 1)`, the cell above the room turns from `2` to `3`, the cell right of
it keeps its `4` and the room cell keeps its `1`. -/
theorem PlaceDoors_frame_witness :
    ∃ Grid1, PlaceDoors 3 3 [0, 2, 0, 2, 1, 4, 0, 2, 0] [⟨1, 1, 1, 1, (1, 1), (1, 1)⟩] =
        some Grid1 ∧ Grid1.length = 9 ∧
      GridGet Grid1 (0 * 3 + 1) = some 3 ∧ GridGet Grid1 (1 * 3 + 2) = some 4 ∧
      GridGet Grid1 (1 * 3 + 1) = some 1 := by
  obtain ⟨Grid1, h1, h2, h3⟩ :=
    PlaceDoors_frame 3 3 [0, 2, 0, 2, 1, 4, 0, 2, 0] [⟨1, 1, 1, 1, (1, 1), (1, 1)⟩]
      (by decide) (by
        intro Room hRoom
        rw [List.mem_singleton] at hRoom
        subst hRoom
        simp [RoomInside])
  refine ⟨Grid1, h1, h2, ?_, ?_, ?_⟩
  · exact (h3 1 0 (by simp [InGrid])).1
      ⟨_, List.mem_singleton_self _, by simp [NextToRoom]⟩ (by decide)
  · rw [(h3 2 1 (by simp [InGrid])).2.1 (by
      rintro ⟨_, h⟩
      exact absurd h (by decide))]
    decide
  · exact (h3 1 1 (by simp [InGrid])).2.2.2 (by decide)

/-! ## The pathfinder: the state at every iteration -/

/-- An iteration that goes on is one unfolding of the loop. -/
theorem FindPathLoop_iteration {D : Type} [LinearOrder D] [Add D] [NatCast D]
    (Dist : Pos → Pos → D) (ArraySort : SortFn) (W H : Int) (Grid : List Int)
    (Rooms : List FRoom) (S T : Pos) (fuel : Nat) (O : List Pos) (A : NodeMap D)
    (State : List Pos × NodeMap D)
    (h : LoopIteration Dist ArraySort W H Grid Rooms S T (O, A) = some State) :
    FindPathLoop Dist ArraySort W H Grid Rooms S T (fuel + 1) O A =
      FindPathLoop Dist ArraySort W H Grid Rooms S T fuel State.1 State.2 := by
  cases O with
  | nil => simp [LoopIteration] at h
  | cons p ps =>
    conv_lhs => unfold FindPathLoop
    cases hs : ArraySort (OpenSetLess A) (p :: ps) with
    | nil => simp [LoopIteration, hs] at h
    | cons Current O1 =>
      cases hc : A Current with
      | none => simp [LoopIteration, hs, hc] at h
      | some cn =>
        by_cases hgoal : NearTarget cn.Position T = true
        · simp [LoopIteration, hs, hc, hgoal] at h
        · simp [LoopIteration, hs, hc, hgoal] at h
          dsimp only
          rw [hc]
          dsimp only
          rw [if_neg hgoal, ← h]

/-- More fuel does not change what the loop returns. -/
theorem FindPathLoop_fuel_succ {D : Type} [LinearOrder D] [Add D] [NatCast D]
    (Dist : Pos → Pos → D) (ArraySort : SortFn) (W H : Int) (Grid : List Int)
    (Rooms : List FRoom) (S T : Pos) :
    ∀ (fuel : Nat) (O : List Pos) (A : NodeMap D) (Path : List Pos),
      FindPathLoop Dist ArraySort W H Grid Rooms S T fuel O A = some Path →
      FindPathLoop Dist ArraySort W H Grid Rooms S T (fuel + 1) O A = some Path := by
  intro fuel
  induction fuel with
  | zero =>
    intro O A Path h
    cases O with
    | nil => simpa [FindPathLoop] using h
    | cons p ps => simp [FindPathLoop] at h
  | succ fuel ih =>
    intro O A Path h
    cases O with
    | nil => simpa [FindPathLoop] using h
    | cons p ps =>
      unfold FindPathLoop at h ⊢
      cases hs : ArraySort (OpenSetLess A) (p :: ps) with
      | nil => rw [hs] at h; simp at h
      | cons Current O1 =>
        rw [hs] at h
        dsimp only at h ⊢
        cases hc : A Current with
        | none => rw [hc] at h; simp at h
        | some cn =>
          rw [hc] at h
          dsimp only at h ⊢
          by_cases hgoal : NearTarget cn.Position T = true
          · rw [if_pos hgoal] at h ⊢
            exact h
          · rw [if_neg hgoal] at h ⊢
            exact ih _ _ _ h

theorem FindPathLoop_fuel_mono {D : Type} [LinearOrder D] [Add D] [NatCast D]
    (Dist : Pos → Pos → D) (ArraySort : SortFn) (W H : Int) (Grid : List Int)
    (Rooms : List FRoom) (S T : Pos) (O : List Pos) (A : NodeMap D) (Path : List Pos)
    (fuel : Nat) (h : FindPathLoop Dist ArraySort W H Grid Rooms S T fuel O A = some Path) :
    ∀ more, FindPathLoop Dist ArraySort W H Grid Rooms S T (fuel + more) O A = some Path := by
  intro more
  induction more with
  | zero => exact h
  | succ more ih => exact FindPathLoop_fuel_succ Dist ArraySort W H Grid Rooms S T _ _ _ _ ih

/-- What one pass of the neighbor loop body does to the open set and to the set of
positions that have a node. -/
theorem Relax_open {D : Type} (Dist : Pos → Pos → D) (T : Pos) (cn : FAStarNode D)
    (O : List Pos) (A : NodeMap D) (nb : Pos) :
    (∀ p, (∃ m, A p = some m) → ∃ m, (Relax Dist T cn (O, A) nb).2 p = some m) ∧
      (∃ m, (Relax Dist T cn (O, A) nb).2 nb = some m) ∧
      (∀ p ∈ O, p ∈ (Relax Dist T cn (O, A) nb).1) ∧
      (∀ p ∈ (Relax Dist T cn (O, A) nb).1, p ∈ O ∨ A p = none) ∧
      (∀ p, A p = none → (∃ m, (Relax Dist T cn (O, A) nb).2 p = some m) →
        p ∈ (Relax Dist T cn (O, A) nb).1) ∧
      ((∀ p ∈ O, ∃ m, A p = some m) → O.Nodup → (Relax Dist T cn (O, A) nb).1.Nodup) := by
  rcases Relax_cases Dist T cn O A nb with ⟨hnone, hr⟩ | ⟨nn, hnn, -, hr⟩ | ⟨nn, hnn, -, hr⟩
  · rw [hr]
    dsimp only
    refine ⟨?_, ⟨_, Function.update_same _ _ _⟩, ?_, ?_, ?_, ?_⟩
    · rintro p ⟨m, hm⟩
      have hp : p ≠ nb := by
        rintro rfl
        rw [hnone] at hm
        exact absurd hm (by simp)
      exact ⟨m, by rw [Function.update_noteq hp]; exact hm⟩
    · intro p hp
      exact List.mem_append_left _ hp
    · intro p hp
      rcases List.mem_append.mp hp with h | h
      · exact Or.inl h
      · rw [List.mem_singleton.mp h]
        exact Or.inr hnone
    · rintro p hp ⟨m, hm⟩
      by_cases hpn : p = nb
      · rw [hpn]
        exact List.mem_append_right _ (List.mem_singleton_self _)
      · rw [Function.update_noteq hpn, hp] at hm
        exact absurd hm (by simp)
    · intro hO hnd
      rw [List.nodup_append]
      refine ⟨hnd, List.nodup_singleton _, ?_⟩
      intro a ha hb
      rw [List.mem_singleton.mp hb] at ha
      obtain ⟨m, hm⟩ := hO nb ha
      rw [hnone] at hm
      exact absurd hm (by simp)
  · rw [hr]
    dsimp only
    refine ⟨?_, ⟨_, Function.update_same _ _ _⟩, fun p hp => hp, fun p hp => Or.inl hp, ?_,
      fun _ hnd => hnd⟩
    · rintro p ⟨m, hm⟩
      by_cases hpn : p = nb
      · exact ⟨_, by rw [hpn, Function.update_same]⟩
      · exact ⟨m, by rw [Function.update_noteq hpn]; exact hm⟩
    · rintro p hp ⟨m, hm⟩
      have hpn : p ≠ nb := by
        rintro rfl
        rw [hnn] at hp
        exact absurd hp (by simp)
      rw [Function.update_noteq hpn, hp] at hm
      exact absurd hm (by simp)
  · rw [hr]
    dsimp only
    refine ⟨fun p hp => hp, ⟨nn, hnn⟩, fun p hp => hp, fun p hp => Or.inl hp, ?_,
      fun _ hnd => hnd⟩
    rintro p hp ⟨m, hm⟩
    rw [hp] at hm
    exact absurd hm (by simp)

/-- What the neighbor loop does to the open set and to the set of positions that have a
node: nodes stay, every neighbor gets one, the open set is extended by the positions that
get their first node, each once. -/
theorem Relax_foldl_open {D : Type} (Dist : Pos → Pos → D) (T : Pos) (cn : FAStarNode D) :
    ∀ (L O : List Pos) (A : NodeMap D), (∀ p ∈ O, ∃ m, A p = some m) → O.Nodup →
      (∀ p, (∃ m, A p = some m) → ∃ m, (L.foldl (Relax Dist T cn) (O, A)).2 p = some m) ∧
      (∀ nb ∈ L, ∃ m, (L.foldl (Relax Dist T cn) (O, A)).2 nb = some m) ∧
      (∀ p ∈ O, p ∈ (L.foldl (Relax Dist T cn) (O, A)).1) ∧
      (∀ p ∈ (L.foldl (Relax Dist T cn) (O, A)).1, p ∈ O ∨ A p = none) ∧
      (∀ p, A p = none → (∃ m, (L.foldl (Relax Dist T cn) (O, A)).2 p = some m) →
        p ∈ (L.foldl (Relax Dist T cn) (O, A)).1) ∧
      (L.foldl (Relax Dist T cn) (O, A)).1.Nodup := by
  intro L
  induction L with
  | nil =>
    intro O A _ hnd
    refine ⟨fun p hp => hp, fun nb hnb => absurd hnb (List.not_mem_nil _), fun p hp => hp,
      fun p hp => Or.inl hp, ?_, hnd⟩
    rintro p hp ⟨m, hm⟩
    rw [List.foldl_nil] at hm
    dsimp only at hm
    rw [hp] at hm
    exact absurd hm (by simp)
  | cons nb L ih =>
    intro O A hO hnd
    obtain ⟨s1, s2, s3, s4, s5, s6⟩ := Relax_open Dist T cn O A nb
    have hO1 : ∀ p ∈ (Relax Dist T cn (O, A) nb).1,
        ∃ m, (Relax Dist T cn (O, A) nb).2 p = some m := by
      intro p hp
      rcases s4 p hp with h | h
      · exact s1 p (hO p h)
      · cases hx : (Relax Dist T cn (O, A) nb).2 p with
        | some m => exact ⟨m, rfl⟩
        | none =>
          exfalso
          rcases Relax_cases Dist T cn O A nb with ⟨hnone, hr⟩ | ⟨nn, hnn, -, hr⟩ |
            ⟨nn, hnn, -, hr⟩
          · rw [hr] at hp hx
            dsimp only at hp hx
            rcases List.mem_append.mp hp with h1 | h1
            · obtain ⟨m, hm⟩ := hO p h1
              rw [h] at hm
              exact absurd hm (by simp)
            · rw [List.mem_singleton.mp h1, Function.update_same] at hx
              exact absurd hx (by simp)
          · rw [hr] at hp
            obtain ⟨m, hm⟩ := hO p hp
            rw [h] at hm
            exact absurd hm (by simp)
          · rw [hr] at hp
            obtain ⟨m, hm⟩ := hO p hp
            rw [h] at hm
            exact absurd hm (by simp)
    obtain ⟨t1, t2, t3, t4, t5, t6⟩ :=
      ih (Relax Dist T cn (O, A) nb).1 (Relax Dist T cn (O, A) nb).2 hO1 (s6 hO hnd)
    rw [List.foldl_cons]
    refine ⟨fun p hp => t1 p (s1 p hp), ?_, fun p hp => t3 p (s3 p hp), ?_, ?_, t6⟩
    · intro x hx
      rcases List.mem_cons.mp hx with rfl | hx
      · exact t1 _ s2
      · exact t2 x hx
    · intro p hp
      rcases t4 p hp with h | h
      · exact s4 p h
      · right
        cases hx : A p with
        | none => rfl
        | some m =>
          obtain ⟨m1, hm1⟩ := s1 p ⟨m, hx⟩
          rw [h] at hm1
          exact absurd hm1 (by simp)
    · intro p hp hsome
      cases hx : (Relax Dist T cn (O, A) nb).2 p with
      | none => exact t5 p hx hsome
      | some m => exact t3 p (s5 p hp ⟨m, hx⟩)

/-! ## The pathfinder: invariant of the state at every iteration -/

theorem LoopIteration_cases {D : Type} [LinearOrder D] [Add D] [NatCast D]
    {Dist : Pos → Pos → D} {ArraySort : SortFn} {W H : Int} {Grid : List Int}
    {Rooms : List FRoom} {S T : Pos} {O : List Pos} {A : NodeMap D}
    {State : List Pos × NodeMap D}
    (h : LoopIteration Dist ArraySort W H Grid Rooms S T (O, A) = some State) :
    ∃ Current O1 cn, O ≠ [] ∧ ArraySort (OpenSetLess A) O = Current :: O1 ∧
      A Current = some cn ∧ NearTarget cn.Position T = false ∧
      State = (GetNeighbors W H Grid Rooms cn.Position S T).foldl (Relax Dist T cn) (O1, A) := by
  cases O with
  | nil => simp [LoopIteration] at h
  | cons p ps =>
    cases hs : ArraySort (OpenSetLess A) (p :: ps) with
    | nil => simp [LoopIteration, hs] at h
    | cons Current O1 =>
      cases hc : A Current with
      | none => simp [LoopIteration, hs, hc] at h
      | some cn =>
        by_cases hgoal : NearTarget cn.Position T = true
        · simp [LoopIteration, hs, hc, hgoal] at h
        · simp [LoopIteration, hs, hc, hgoal] at h
          exact ⟨Current, O1, cn, by simp, rfl, hc, by simpa using hgoal, h.symm⟩

/-- An iteration that goes on keeps the invariant and counts one. -/
theorem SearchInv.iteration {D : Type} [LinearOrder D] [Add D] [NatCast D]
    {Dist : Pos → Pos → D} {ArraySort : SortFn} (hSort : IsPermSort ArraySort) {W H : Int}
    {Grid : List Int} {Rooms : List FRoom} {S T : Pos} {n : Nat} {O : List Pos}
    {A : NodeMap D} {State : List Pos × NodeMap D}
    (inv : SearchInv W H Grid Rooms S T n O A)
    (h : LoopIteration Dist ArraySort W H Grid Rooms S T (O, A) = some State) :
    SearchInv W H Grid Rooms S T (n + 1) State.1 State.2 := by
  obtain ⟨Current, O1, cn, -, hs, hc, hgoal, rfl⟩ := LoopIteration_cases h
  have hperm : (Current :: O1).Perm O := by
    have hp : (ArraySort (OpenSetLess A) O).Perm O := hSort Pos (OpenSetLess A) O
    rw [hs] at hp
    exact hp
  have hpos : cn.Position = Current := inv.astar.position Current cn hc
  have inv1 : AStarInv W H Grid Rooms S T O1 A :=
    ⟨fun q hq => inv.astar.open_node q (hperm.subset (List.mem_cons_of_mem _ hq)),
      inv.astar.position, inv.astar.start_node, inv.astar.came_from, inv.astar.reach⟩
  obtain ⟨inv2, hcount⟩ := Relax_foldl_spec Dist cn
    (GetNeighbors W H Grid Rooms cn.Position S T) O1 A inv1 (by rw [hpos]; exact hc)
    (fun nb hnb => mem_GetNeighbors.mp hnb)
  have hnd : (Current :: O1).Nodup := (hperm.nodup_iff).mpr inv.nodup
  obtain ⟨f1, f2, f3, f4, f5, f6⟩ := Relax_foldl_open Dist T cn
    (GetNeighbors W H Grid Rooms cn.Position S T) O1 A inv1.open_node (List.nodup_cons.mp hnd).2
  refine ⟨inv2, f6, ?_, ?_⟩
  · intro p node hnode hnot
    cases hA : A p with
    | none => exact absurd (f5 p hA ⟨node, hnode⟩) hnot
    | some m =>
      have hnot1 : p ∉ O1 := fun hp => hnot (f3 p hp)
      by_cases hpO : p ∈ O
      · have hpc : p = Current := by
          rcases List.mem_cons.mp (hperm.symm.subset hpO) with h1 | h1
          · exact h1
          · exact absurd h1 hnot1
        refine ⟨by rw [hpc, ← hpos]; exact hgoal, ?_⟩
        intro q hq
        rw [hpc, ← hpos] at hq
        exact f2 q hq
      · obtain ⟨c1, c2⟩ := inv.closed p m hA hpO
        exact ⟨c1, fun q hq => f1 q (c2 q hq)⟩
  · have hlen : O1.length + 1 = O.length := by
      rw [← hperm.length_eq]; rfl
    have := inv.count
    omega

theorem SearchInv_init {D : Type} (Dist : Pos → Pos → D) (W H : Int) (Grid : List Int)
    (Rooms : List FRoom) (S T : Pos) :
    SearchInv W H Grid Rooms S T 0 [S]
      (Function.update (fun _ => none) S (some ⟨S, 0, Dist S T, none⟩)) := by
  refine ⟨AStarInv_init Dist W H Grid Rooms S T, List.nodup_singleton _, ?_, ?_⟩
  · intro p node hnode hnot
    by_cases hp : p = S
    · exact absurd (by rw [hp]; exact List.mem_singleton_self _) hnot
    · rw [Function.update_noteq hp] at hnode
      exact absurd hnode (by simp)
  · have := unseen_le W H (Function.update (fun _ => none) S
      (some (⟨S, 0, Dist S T, none⟩ : FAStarNode D)))
    simp only [List.length_singleton]
    omega

/-- The state at every iteration satisfies the invariant. -/
theorem LoopStateAfter_inv {D : Type} [LinearOrder D] [Add D] [NatCast D]
    (Dist : Pos → Pos → D) {ArraySort : SortFn} (hSort : IsPermSort ArraySort) (W H : Int)
    (Grid : List Int) (Rooms : List FRoom) (S T : Pos) :
    ∀ (n : Nat) (O : List Pos) (A : NodeMap D),
      LoopStateAfter Dist ArraySort W H Grid Rooms S T n = some (O, A) →
      SearchInv W H Grid Rooms S T n O A := by
  intro n
  induction n with
  | zero =>
    intro O A h
    simp only [LoopStateAfter, Option.some.injEq, Prod.mk.injEq] at h
    rw [← h.1, ← h.2]
    exact SearchInv_init Dist W H Grid Rooms S T
  | succ n ih =>
    intro O A h
    unfold LoopStateAfter at h
    cases hprev : LoopStateAfter Dist ArraySort W H Grid Rooms S T n with
    | none => rw [hprev] at h; simp at h
    | some State =>
      rw [hprev] at h
      obtain ⟨O0, A0⟩ := State
      exact (ih O0 A0 hprev).iteration hSort h

/-- The walk along `CameFrom` visits nodes of decreasing `GCost`, each position once. -/
theorem WalkBack_nodup {D : Type} {W H : Int} {Grid : List Int} {Rooms : List FRoom}
    {S T : Pos} {O : List Pos} {A : NodeMap D} (inv : AStarInv W H Grid Rooms S T O A) :
    ∀ (fuel : Nat) (p : Pos) (n : FAStarNode D) (walk : List Pos), A p = some n →
      WalkBack A fuel (some p) = some walk →
      (∀ x ∈ walk, ∃ nx, A x = some nx ∧ nx.GCost ≤ n.GCost) ∧ walk.Nodup := by
  intro fuel
  induction fuel with
  | zero => intro p n walk _ h; simp [WalkBack] at h
  | succ fuel ih =>
    intro p n walk hn h
    obtain ⟨sn, hsn, hsg, hsc⟩ := inv.start_node
    simp only [WalkBack, hn] at h
    by_cases hpS : p = S
    · have hnsn : n = sn := by
        rw [hpS, hsn] at hn
        exact (Option.some.inj hn).symm
      rw [hnsn, hsc] at h
      simp only [WalkBack, Option.some.injEq] at h
      rw [← h]
      refine ⟨?_, List.nodup_singleton _⟩
      intro x hx
      rw [List.mem_singleton.mp hx]
      exact ⟨n, hn, le_refl _⟩
    · obtain ⟨q, m, h1, h2, h3, h4⟩ := inv.came_from p n hn hpS
      rw [h1] at h
      cases hw : WalkBack A fuel (some q) with
      | none => rw [hw] at h; simp at h
      | some rest =>
        rw [hw] at h
        simp only [Option.some.injEq] at h
        obtain ⟨r1, r2⟩ := ih q m rest h2 hw
        rw [← h]
        refine ⟨?_, List.nodup_cons.mpr ⟨?_, r2⟩⟩
        · intro x hx
          rcases List.mem_cons.mp hx with rfl | hx
          · exact ⟨n, hn, le_refl _⟩
          · obtain ⟨nx, hnx, hle⟩ := r1 x hx
            exact ⟨nx, hnx, by omega⟩
        · intro hp
          obtain ⟨nx, hnx, hle⟩ := r1 p hp
          rw [hn] at hnx
          have : n = nx := Option.some.inj hnx
          rw [this] at h3
          omega

/-- The loop, from the state after `n` iterations and with fuel for the iterations
that are left, returns, and stops the way `LoopResult` says. -/
theorem FindPathLoop_run {D : Type} [LinearOrder D] [Add D] [NatCast D]
    (Dist : Pos → Pos → D) {ArraySort : SortFn} (hSort : IsPermSort ArraySort) (W H : Int)
    (Grid : List Int) (Rooms : List FRoom) (S T : Pos) :
    ∀ (fuel n : Nat) (O : List Pos) (A : NodeMap D),
      LoopStateAfter Dist ArraySort W H Grid Rooms S T n = some (O, A) →
      W.toNat * H.toNat + 1 ≤ n + fuel →
      ∃ Path, FindPathLoop Dist ArraySort W H Grid Rooms S T fuel O A = some Path ∧
        LoopResult Dist ArraySort W H Grid Rooms S T Path := by
  intro fuel
  induction fuel with
  | zero =>
    intro n O A hst hfuel
    have inv := LoopStateAfter_inv Dist hSort W H Grid Rooms S T n O A hst
    cases O with
    | nil => exact ⟨[], by simp [FindPathLoop], n, [], A, hst, Or.inl ⟨rfl, rfl⟩⟩
    | cons p ps =>
      have := inv.count
      simp only [List.length_cons] at this
      omega
  | succ fuel ih =>
    intro n O A hst hfuel
    have inv := LoopStateAfter_inv Dist hSort W H Grid Rooms S T n O A hst
    cases O with
    | nil => exact ⟨[], by simp [FindPathLoop], n, [], A, hst, Or.inl ⟨rfl, rfl⟩⟩
    | cons p ps =>
      have hperm : (ArraySort (OpenSetLess A) (p :: ps)).Perm (p :: ps) :=
        hSort Pos (OpenSetLess A) (p :: ps)
      cases hs : ArraySort (OpenSetLess A) (p :: ps) with
      | nil =>
        rw [hs] at hperm
        exact absurd hperm.length_eq (by simp)
      | cons Current O1 =>
        rw [hs] at hperm
        have hmem : Current ∈ p :: ps := hperm.subset (List.mem_cons_self _ _)
        obtain ⟨cn, hcn⟩ := inv.astar.open_node Current hmem
        have hpos : cn.Position = Current := inv.astar.position Current cn hcn
        by_cases hgoal : NearTarget cn.Position T = true
        · obtain ⟨walk, hw, -⟩ :=
            WalkBack_spec inv.astar (cn.GCost + 1) Current cn hcn (Nat.lt_succ_self _)
          refine ⟨walk.reverse, ?_, n, p :: ps, A, hst,
            Or.inr ⟨Current, O1, cn, walk, hs, hcn, by rw [← hpos]; exact hgoal, hw, rfl⟩⟩
          unfold FindPathLoop
          rw [hs]
          dsimp only
          rw [hcn]
          dsimp only
          rw [if_pos hgoal, hw]
        · have hit : LoopIteration Dist ArraySort W H Grid Rooms S T (p :: ps, A) =
              some ((GetNeighbors W H Grid Rooms cn.Position S T).foldl
                (Relax Dist T cn) (O1, A)) := by
            simp [LoopIteration, hs, hcn, hgoal]
          rw [FindPathLoop_iteration Dist ArraySort W H Grid Rooms S T fuel (p :: ps) A _ hit]
          apply ih (n + 1)
          · show (match LoopStateAfter Dist ArraySort W H Grid Rooms S T n with
              | none => none
              | some State => LoopIteration Dist ArraySort W H Grid Rooms S T State) = _
            rw [hst]
            exact hit
          · omega

/-- The search `FindPath` returns; any fuel from the number of grid cells plus one on gives
the same path, and the loop stops the way `LoopResult` says. -/
theorem FindPath_run {D : Type} [LinearOrder D] [Add D] [NatCast D]
    (Dist : Pos → Pos → D) {ArraySort : SortFn} (hSort : IsPermSort ArraySort) (W H : Int)
    (Grid : List Int) (Rooms : List FRoom) (S T : Pos) :
    ∃ Path, FindPath Dist ArraySort W H Grid Rooms S T = some Path ∧
      (∀ fuel, W.toNat * H.toNat + 1 ≤ fuel →
        FindPathLoop Dist ArraySort W H Grid Rooms S T fuel [S]
          (Function.update (fun _ => none) S (some ⟨S, 0, Dist S T, none⟩)) = some Path) ∧
      LoopResult Dist ArraySort W H Grid Rooms S T Path := by
  obtain ⟨Path, h1, h2⟩ := FindPathLoop_run Dist hSort W H Grid Rooms S T
    (W.toNat * H.toNat + 1) 0 [S]
    (Function.update (fun _ => none) S (some ⟨S, 0, Dist S T, none⟩)) rfl (by omega)
  refine ⟨Path, h1, ?_, h2⟩
  intro fuel hfuel
  obtain ⟨more, rfl⟩ : ∃ more, fuel = W.toNat * H.toNat + 1 + more :=
    ⟨fuel - (W.toNat * H.toNat + 1), by omega⟩
  exact FindPathLoop_fuel_mono Dist ArraySort W H Grid Rooms S T _ _ _ _ h1 more

/-- When the open set is empty every reachable cell has been expanded. -/
theorem SearchInv.reach_node {D : Type} {W H : Int} {Grid : List Int} {Rooms : List FRoom}
    {S T : Pos} {n : Nat} {A : NodeMap D} (inv : SearchInv W H Grid Rooms S T n [] A)
    {c : Pos} (hc : Reach W H Grid Rooms S T c) : ∃ node, A c = some node := by
  induction hc with
  | start =>
    obtain ⟨sn, hsn, -⟩ := inv.astar.start_node
    exact ⟨sn, hsn⟩
  | step _ hstep hg hwalk ih =>
    obtain ⟨node, hnode⟩ := ih
    exact (inv.closed _ node hnode (List.not_mem_nil _)).2 _
      (mem_GetNeighbors.mpr ⟨hstep, hg, hwalk⟩)

/-- What the returned path is like: a good path without repetition through reachable
cells, and empty only when no reachable cell passes the goal test. -/
theorem LoopResult.props {D : Type} [LinearOrder D] [Add D] [NatCast D]
    {Dist : Pos → Pos → D} {ArraySort : SortFn} (hSort : IsPermSort ArraySort) {W H : Int}
    {Grid : List Int} {Rooms : List FRoom} {S T : Pos} {Path : List Pos}
    (h : LoopResult Dist ArraySort W H Grid Rooms S T Path) :
    GoodPath W H Grid Rooms S T Path ∧ Path.Nodup ∧
      (∀ p ∈ Path, Reach W H Grid Rooms S T p) ∧
      (Path = [] → ∀ c, Reach W H Grid Rooms S T c → NearTarget c T = false) := by
  obtain ⟨k, O, A, hst, hres⟩ := h
  have inv := LoopStateAfter_inv Dist hSort W H Grid Rooms S T k O A hst
  rcases hres with ⟨rfl, rfl⟩ | ⟨Current, O1, cn, walk, hs, hcn, hgoal, hw, rfl⟩
  · refine ⟨Or.inl rfl, List.nodup_nil, fun p hp => absurd hp (List.not_mem_nil _), ?_⟩
    intro _ c hc
    obtain ⟨node, hnode⟩ := inv.reach_node hc
    exact (inv.closed c node hnode (List.not_mem_nil _)).1
  · obtain ⟨walk1, hw1, hhead, hlast, -, hchain⟩ :=
      WalkBack_spec inv.astar (cn.GCost + 1) Current cn hcn (Nat.lt_succ_self _)
    rw [hw] at hw1
    obtain rfl : walk = walk1 := Option.some.inj hw1
    obtain ⟨r1, r2⟩ := WalkBack_nodup inv.astar (cn.GCost + 1) Current cn walk hcn hw
    refine ⟨Or.inr ⟨Current, ?_, ?_, hgoal, inv.astar.reach Current cn hcn, ?_⟩,
      List.nodup_reverse.mpr r2, ?_, ?_⟩
    · rw [List.head?_reverse]; exact hlast
    · rw [List.getLast?_reverse]; exact hhead
    · rw [List.chain'_reverse]
      exact hchain
    · intro p hp
      obtain ⟨np, hnp, -⟩ := r1 p (List.mem_reverse.mp hp)
      exact inv.astar.reach p np hnp
    · intro hnil
      rw [List.reverse_eq_nil_iff] at hnil
      rw [hnil] at hhead
      simp at hhead

/-! ## The pathfinder: termination and the choice of the node to expand -/

/-- C19: `FindPath` terminates for every grid, room list, start and target, whatever
rearrangement the sort makes.  Given fuel for (number of in-bounds cells + 1) iterations or
more, the loop returns the same path, stopping by a passed goal test or with an empty
open set (`LoopResult`).  After `n` iterations that went on, `n` plus the size of the open
set is at most the number of in-bounds cells plus one, and the open set has no repetition;
an iteration puts a position into the open set only if it had no node, and a position that
has a node keeps one, so each coordinate is inserted at most once.  The walk back along
`CameFrom` from any node ends within `GCost + 1` nodes. -/
theorem FindPath_terminates {D : Type} [LinearOrder D] [Add D] [NatCast D]
    (Dist : Pos → Pos → D) (ArraySort : SortFn) (hSort : IsPermSort ArraySort)
    (Width Height : Int) (Grid : List Int) (Rooms : List FRoom) (StartPos TargetPos : Pos) :
    (∃ Path, FindPath Dist ArraySort Width Height Grid Rooms StartPos TargetPos = some Path ∧
      (∀ fuel, (GridCells Width Height).card + 1 ≤ fuel →
        FindPathLoop Dist ArraySort Width Height Grid Rooms StartPos TargetPos fuel [StartPos]
          (Function.update (fun _ => none) StartPos
            (some ⟨StartPos, 0, Dist StartPos TargetPos, none⟩)) = some Path) ∧
      LoopResult Dist ArraySort Width Height Grid Rooms StartPos TargetPos Path) ∧
    ∀ (n : Nat) (OpenSet : List Pos) (AllNodes : NodeMap D),
      LoopStateAfter Dist ArraySort Width Height Grid Rooms StartPos TargetPos n
        = some (OpenSet, AllNodes) →
      n + OpenSet.length ≤ (GridCells Width Height).card + 1 ∧ OpenSet.Nodup ∧
      (∀ State, LoopIteration Dist ArraySort Width Height Grid Rooms StartPos TargetPos
          (OpenSet, AllNodes) = some State →
        (∀ p ∈ State.1, p ∈ OpenSet ∨ AllNodes p = none) ∧
        (∀ p, (∃ m, AllNodes p = some m) → ∃ m, State.2 p = some m)) ∧
      (∀ p Node, AllNodes p = some Node →
        ∃ walk, WalkBack AllNodes (Node.GCost + 1) (some p) = some walk ∧
          walk.length ≤ Node.GCost + 1) := by
  rw [card_GridCells]
  refine ⟨FindPath_run Dist hSort Width Height Grid Rooms StartPos TargetPos, ?_⟩
  intro n O A hst
  have inv := LoopStateAfter_inv Dist hSort Width Height Grid Rooms StartPos TargetPos n O A hst
  refine ⟨by have := inv.count; omega, inv.nodup, ?_, ?_⟩
  · intro State hit
    obtain ⟨Current, O1, cn, -, hs, hc, -, rfl⟩ := LoopIteration_cases hit
    have hperm : (Current :: O1).Perm O := by
      have hp : (ArraySort (OpenSetLess A) O).Perm O := hSort Pos (OpenSetLess A) O
      rw [hs] at hp
      exact hp
    have hnd : (Current :: O1).Nodup := (hperm.nodup_iff).mpr inv.nodup
    obtain ⟨f1, -, -, f4, -, -⟩ := Relax_foldl_open Dist TargetPos cn
      (GetNeighbors Width Height Grid Rooms cn.Position StartPos TargetPos) O1 A
      (fun q hq => inv.astar.open_node q (hperm.subset (List.mem_cons_of_mem _ hq)))
      (List.nodup_cons.mp hnd).2
    refine ⟨?_, f1⟩
    intro p hp
    rcases f4 p hp with h | h
    · exact Or.inl (hperm.subset (List.mem_cons_of_mem _ h))
    · exact Or.inr h
  · intro p Node hNode
    obtain ⟨walk, hw, -, -, hlen, -⟩ :=
      WalkBack_spec inv.astar (Node.GCost + 1) p Node hNode (Nat.lt_succ_self _)
    exact ⟨walk, hw, hlen⟩

/-- C19, at a concrete input: a 3 x 2 grid with one blocked cell. -/
theorem FindPath_terminates_witness :
    ∃ Path, FindPath SqDistPos InsertionSort 3 2 [0, 0, 0, 0, 1, 0] [] (0, 0) (2, 1) = some Path ∧
      (∀ fuel, (GridCells 3 2).card + 1 ≤ fuel →
        FindPathLoop SqDistPos InsertionSort 3 2 [0, 0, 0, 0, 1, 0] [] (0, 0) (2, 1) fuel [(0, 0)]
          (Function.update (fun _ => none) (0, 0)
            (some ⟨(0, 0), 0, SqDistPos (0, 0) (2, 1), none⟩)) = some Path) ∧
      LoopResult SqDistPos InsertionSort 3 2 [0, 0, 0, 0, 1, 0] [] (0, 0) (2, 1) Path :=
  (FindPath_terminates SqDistPos InsertionSort InsertionSort_perm 3 2 [0, 0, 0, 0, 1, 0] []
    (0, 0) (2, 1)).1

/-- The head of the sorted open set has the minimum `FCost` among the nodes of the open
set and, among those of equal `FCost`, the minimum `HCost`. -/
theorem OpenSet_head_minimum {D : Type} [LinearOrder D] [Add D] [NatCast D]
    (Dist : Pos → Pos → D) (ArraySort : SortFn) (hPerm : IsPermSort ArraySort)
    (hSorted : SortsOpenSet D ArraySort) (Width Height : Int) (Grid : List Int)
    (Rooms : List FRoom) (StartPos TargetPos : Pos) (n : Nat) (OpenSet : List Pos)
    (AllNodes : NodeMap D) (Current : Pos) (OpenSet1 : List Pos)
    (hst : LoopStateAfter Dist ArraySort Width Height Grid Rooms StartPos TargetPos n
      = some (OpenSet, AllNodes))
    (hs : ArraySort (OpenSetLess AllNodes) OpenSet = Current :: OpenSet1) :
    ∃ CurrentNode, AllNodes Current = some CurrentNode ∧
      ∀ p ∈ OpenSet, ∃ Node, AllNodes p = some Node ∧ CurrentNode.FCost ≤ Node.FCost ∧
        (Node.FCost = CurrentNode.FCost → CurrentNode.HCost ≤ Node.HCost) := by
  have inv := LoopStateAfter_inv Dist hPerm Width Height Grid Rooms StartPos TargetPos n
    OpenSet AllNodes hst
  have hperm : (Current :: OpenSet1).Perm OpenSet := by
    have hp : (ArraySort (OpenSetLess AllNodes) OpenSet).Perm OpenSet :=
      hPerm Pos (OpenSetLess AllNodes) OpenSet
    rw [hs] at hp
    exact hp
  have hsorted : (Current :: OpenSet1).Pairwise (fun a b => OpenSetLess AllNodes b a = false) := by
    have hp : (ArraySort (OpenSetLess AllNodes) OpenSet).Pairwise
        (fun a b => OpenSetLess AllNodes b a = false) :=
      hSorted AllNodes OpenSet inv.astar.open_node
    rw [hs] at hp
    exact hp
  obtain ⟨cn, hcn⟩ := inv.astar.open_node Current (hperm.subset (List.mem_cons_self _ _))
  refine ⟨cn, hcn, ?_⟩
  intro p hp
  obtain ⟨Node, hNode⟩ := inv.astar.open_node p hp
  refine ⟨Node, hNode, ?_⟩
  rcases List.mem_cons.mp (hperm.symm.subset hp) with rfl | hmem
  · rw [hcn] at hNode
    obtain rfl : cn = Node := Option.some.inj hNode
    exact ⟨le_refl _, fun _ => le_refl _⟩
  · have hless : OpenSetLess AllNodes p Current = false := (List.pairwise_cons.mp hsorted).1 p hmem
    unfold OpenSetLess at hless
    rw [hNode, hcn] at hless
    dsimp only at hless
    by_cases hf : Node.FCost = cn.FCost
    · rw [if_pos hf, decide_eq_false_iff_not, not_lt] at hless
      exact ⟨le_of_eq hf.symm, fun _ => hless⟩
    · rw [if_neg hf, decide_eq_false_iff_not, not_lt] at hless
      exact ⟨hless, fun h => absurd h hf⟩


/-- What the loop of `FindPath` does at a state with a non-empty open set, in terms of the
head `Current` of the sorted open set: it tests `Current` against the target and either
returns the walk back from `Current`, or goes on from the open set without `Current`
and the nodes after the neighbor loop of `Current`. -/
theorem FindPathLoop_pops_head {D : Type} [LinearOrder D] [Add D] [NatCast D]
    (Dist : Pos → Pos → D) (ArraySort : SortFn) (W H : Int) (Grid : List Int)
    (Rooms : List FRoom) (S T : Pos) {O : List Pos} {A : NodeMap D} (hne : O ≠ [])
    {Current : Pos} {O1 : List Pos} {cn : FAStarNode D}
    (hs : ArraySort (OpenSetLess A) O = Current :: O1) (hcn : A Current = some cn)
    (hpos : cn.Position = Current) :
    (∀ fuel, FindPathLoop Dist ArraySort W H Grid Rooms S T (fuel + 1) O A =
      if NearTarget Current T = true then
        (WalkBack A (cn.GCost + 1) (some Current)).map List.reverse
      else
        FindPathLoop Dist ArraySort W H Grid Rooms S T fuel
          ((GetNeighbors W H Grid Rooms Current S T).foldl (Relax Dist T cn) (O1, A)).1
          ((GetNeighbors W H Grid Rooms Current S T).foldl (Relax Dist T cn) (O1, A)).2) ∧
    LoopIteration Dist ArraySort W H Grid Rooms S T (O, A) =
      if NearTarget Current T = true then none
      else some ((GetNeighbors W H Grid Rooms Current S T).foldl (Relax Dist T cn) (O1, A)) := by
  cases O with
  | nil => exact absurd rfl hne
  | cons p ps =>
    constructor
    · intro fuel
      conv_lhs => unfold FindPathLoop
      simp only [hs, hcn, hpos]
      by_cases hgoal : NearTarget Current T = true
      · rw [if_pos hgoal, if_pos hgoal]
        cases WalkBack A (cn.GCost + 1) (some Current) <;> rfl
      · rw [if_neg hgoal, if_neg hgoal]
    · simp only [LoopIteration, hs, hcn, hpos]

/-- The loop of `FindPath`, started from the start node, is after `n` iterations the loop
at the state after `n` iterations. -/
theorem FindPathLoop_after {D : Type} [LinearOrder D] [Add D] [NatCast D]
    (Dist : Pos → Pos → D) (ArraySort : SortFn) (W H : Int) (Grid : List Int)
    (Rooms : List FRoom) (S T : Pos) :
    ∀ (n : Nat) (O : List Pos) (A : NodeMap D),
      LoopStateAfter Dist ArraySort W H Grid Rooms S T n = some (O, A) →
      ∀ fuel, FindPathLoop Dist ArraySort W H Grid Rooms S T (fuel + n) [S]
          (Function.update (fun _ => none) S (some ⟨S, 0, Dist S T, none⟩)) =
        FindPathLoop Dist ArraySort W H Grid Rooms S T fuel O A := by
  intro n
  induction n with
  | zero =>
    intro O A h fuel
    simp only [LoopStateAfter, Option.some.injEq, Prod.mk.injEq] at h
    obtain ⟨rfl, rfl⟩ := h
    rfl
  | succ n ih =>
    intro O A h fuel
    unfold LoopStateAfter at h
    cases hprev : LoopStateAfter Dist ArraySort W H Grid Rooms S T n with
    | none => rw [hprev] at h; simp at h
    | some Staten =>
      obtain ⟨On, An⟩ := Staten
      rw [hprev] at h
      dsimp only at h
      have e : fuel + (n + 1) = (fuel + 1) + n := by omega
      rw [e, ih On An hprev (fuel + 1)]
      exact FindPathLoop_iteration Dist ArraySort W H Grid Rooms S T fuel On An (O, A) h

/-- C20: at every iteration of the loop of `FindPath`, that is at the state after any
number `n` of iterations whose open set is not empty (the loop of `FindPath`, started
from the start node, is after `n` iterations the loop at this state), the node the loop
removes from the open set and expands is the head `Current` of the sorted open set: the
open set goes on without `Current`, and the loop at this state is the goal test on
`Current`, followed either by the walk back from `Current` or by the loop on the state
after the neighbor loop of `Current`, which is the state after `n + 1` iterations.
That node has the minimum `FCost = GCost + HCost` among the nodes of the open set, with
the costs the nodes have at that moment, and among the nodes of equal `FCost` the minimum
`HCost`; the engine's sort is taken to put its input in order for the comparison it is
given. -/
theorem FindPath_pops_minimum {D : Type} [LinearOrder D] [Add D] [NatCast D]
    (Dist : Pos → Pos → D) (ArraySort : SortFn) (hPerm : IsPermSort ArraySort)
    (hSorted : SortsOpenSet D ArraySort) (Width Height : Int) (Grid : List Int)
    (Rooms : List FRoom) (StartPos TargetPos : Pos) (n : Nat) (OpenSet : List Pos)
    (AllNodes : NodeMap D)
    (hst : LoopStateAfter Dist ArraySort Width Height Grid Rooms StartPos TargetPos n
      = some (OpenSet, AllNodes))
    (hne : OpenSet ≠ []) :
    (∀ fuel,
      FindPathLoop Dist ArraySort Width Height Grid Rooms StartPos TargetPos (fuel + n)
          [StartPos]
          (Function.update (fun _ => none) StartPos
            (some ⟨StartPos, 0, Dist StartPos TargetPos, none⟩)) =
        FindPathLoop Dist ArraySort Width Height Grid Rooms StartPos TargetPos fuel
          OpenSet AllNodes) ∧
    ∃ Current OpenSet1 CurrentNode,
      ArraySort (OpenSetLess AllNodes) OpenSet = Current :: OpenSet1 ∧
      AllNodes Current = some CurrentNode ∧
      (Current :: OpenSet1).Perm OpenSet ∧ Current ∉ OpenSet1 ∧
      (∀ fuel,
        FindPathLoop Dist ArraySort Width Height Grid Rooms StartPos TargetPos (fuel + 1)
            OpenSet AllNodes =
          if NearTarget Current TargetPos = true then
            (WalkBack AllNodes (CurrentNode.GCost + 1) (some Current)).map List.reverse
          else
            FindPathLoop Dist ArraySort Width Height Grid Rooms StartPos TargetPos fuel
              ((GetNeighbors Width Height Grid Rooms Current StartPos TargetPos).foldl
                (Relax Dist TargetPos CurrentNode) (OpenSet1, AllNodes)).1
              ((GetNeighbors Width Height Grid Rooms Current StartPos TargetPos).foldl
                (Relax Dist TargetPos CurrentNode) (OpenSet1, AllNodes)).2) ∧
      LoopStateAfter Dist ArraySort Width Height Grid Rooms StartPos TargetPos (n + 1) =
        (if NearTarget Current TargetPos = true then none
        else
          some ((GetNeighbors Width Height Grid Rooms Current StartPos TargetPos).foldl
            (Relax Dist TargetPos CurrentNode) (OpenSet1, AllNodes))) ∧
      ∀ p ∈ OpenSet, ∃ Node, AllNodes p = some Node ∧ CurrentNode.FCost ≤ Node.FCost ∧
        (Node.FCost = CurrentNode.FCost → CurrentNode.HCost ≤ Node.HCost) := by
  refine ⟨FindPathLoop_after Dist ArraySort Width Height Grid Rooms StartPos TargetPos n
    OpenSet AllNodes hst, ?_⟩
  have inv := LoopStateAfter_inv Dist hPerm Width Height Grid Rooms StartPos TargetPos n
    OpenSet AllNodes hst
  have hperm0 : (ArraySort (OpenSetLess AllNodes) OpenSet).Perm OpenSet :=
    hPerm Pos (OpenSetLess AllNodes) OpenSet
  cases hs : ArraySort (OpenSetLess AllNodes) OpenSet with
  | nil =>
    rw [hs] at hperm0
    exact absurd (List.nil_perm.mp hperm0) hne
  | cons Current OpenSet1 =>
    rw [hs] at hperm0
    obtain ⟨cn, hcn, hmin⟩ := OpenSet_head_minimum Dist ArraySort hPerm hSorted Width Height
      Grid Rooms StartPos TargetPos n OpenSet AllNodes Current OpenSet1 hst hs
    have hpos : cn.Position = Current := inv.astar.position Current cn hcn
    have hnd : (Current :: OpenSet1).Nodup := (hperm0.nodup_iff).mpr inv.nodup
    obtain ⟨hloop, hiter⟩ := FindPathLoop_pops_head Dist ArraySort Width Height Grid Rooms
      StartPos TargetPos hne hs hcn hpos
    refine ⟨Current, OpenSet1, cn, rfl, hcn, hperm0, (List.nodup_cons.mp hnd).1, hloop, ?_, hmin⟩
    rw [← hiter]
    show (match LoopStateAfter Dist ArraySort Width Height Grid Rooms StartPos TargetPos n with
      | none => none
      | some State =>
        LoopIteration Dist ArraySort Width Height Grid Rooms StartPos TargetPos State) = _
    rw [hst]

/-- C20, at a concrete input: the second iteration of a search on a 3 x 2 grid with one
blocked cell, from `(0, 0)` towards `(2, 1)`; the open set holds `(1, 0)` with costs
`1 + 2` and `(0, 1)` with costs `1 + 4`; the loop pops `(1, 0)`, which passes the goal
test, and returns the walk back from it. -/
theorem FindPath_pops_minimum_witness :
    ∃ (OpenSet : List Pos) (AllNodes : NodeMap Int) (Current : Pos) (OpenSet1 : List Pos)
      (CurrentNode : FAStarNode Int),
      LoopStateAfter SqDistPos InsertionSort 3 2 [0, 0, 0, 0, 1, 0] [] (0, 0) (2, 1) 1
        = some (OpenSet, AllNodes) ∧
      OpenSet = [(1, 0), (0, 1)] ∧ Current = (1, 0) ∧ OpenSet1 = [(0, 1)] ∧
      AllNodes Current = some CurrentNode ∧
      (∀ fuel,
        FindPathLoop SqDistPos InsertionSort 3 2 [0, 0, 0, 0, 1, 0] [] (0, 0) (2, 1) (fuel + 1)
            OpenSet AllNodes =
          if NearTarget Current (2, 1) = true then
            (WalkBack AllNodes (CurrentNode.GCost + 1) (some Current)).map List.reverse
          else
            FindPathLoop SqDistPos InsertionSort 3 2 [0, 0, 0, 0, 1, 0] [] (0, 0) (2, 1) fuel
              ((GetNeighbors 3 2 [0, 0, 0, 0, 1, 0] [] Current (0, 0) (2, 1)).foldl
                (Relax SqDistPos (2, 1) CurrentNode) (OpenSet1, AllNodes)).1
              ((GetNeighbors 3 2 [0, 0, 0, 0, 1, 0] [] Current (0, 0) (2, 1)).foldl
                (Relax SqDistPos (2, 1) CurrentNode) (OpenSet1, AllNodes)).2) ∧
      ∀ p ∈ OpenSet, ∃ Node, AllNodes p = some Node ∧ CurrentNode.FCost ≤ Node.FCost ∧
        (Node.FCost = CurrentNode.FCost → CurrentNode.HCost ≤ Node.HCost) := by
  obtain ⟨-, Current, OpenSet1, cn, h1, h2, -, -, h5, -, h7⟩ :=
    FindPath_pops_minimum SqDistPos InsertionSort InsertionSort_perm
      (InsertionSort_sortsOpenSet Int) 3 2 [0, 0, 0, 0, 1, 0] [] (0, 0) (2, 1) 1
      ((LoopStateAfter SqDistPos InsertionSort 3 2 [0, 0, 0, 0, 1, 0] [] (0, 0) (2, 1) 1).getD
        ([], fun _ => none)).1
      ((LoopStateAfter SqDistPos InsertionSort 3 2 [0, 0, 0, 0, 1, 0] [] (0, 0) (2, 1) 1).getD
        ([], fun _ => none)).2
      rfl (by decide)
  have hsort : InsertionSort (OpenSetLess
      ((LoopStateAfter SqDistPos InsertionSort 3 2 [0, 0, 0, 0, 1, 0] [] (0, 0) (2, 1) 1).getD
        ([], fun _ => none)).2)
      ((LoopStateAfter SqDistPos InsertionSort 3 2 [0, 0, 0, 0, 1, 0] [] (0, 0) (2, 1) 1).getD
        ([], fun _ => none)).1 = [(1, 0), (0, 1)] := by decide
  rw [h1] at hsort
  obtain ⟨e1, e2⟩ := List.cons.inj hsort
  exact ⟨_, _, Current, OpenSet1, cn, rfl, by decide, e1, e2, h2, h5, h7⟩

/-! ## Corridor carving writes the tag of each step at its origin -/

theorem GetCorridorType_step {a b : Pos} (h : IsStep a b) (t : Option Int)
    (ht : t = some (GetCorridorType (b.1 - a.1, b.2 - a.2))) :
    (b.1 - a.1 = 1 ∧ b.2 - a.2 = 0 ∧ t = some 5) ∨
      (b.1 - a.1 = -1 ∧ b.2 - a.2 = 0 ∧ t = some 4) ∨
      (b.1 - a.1 = 0 ∧ b.2 - a.2 = 1 ∧ t = some 3) ∨
      (b.1 - a.1 = 0 ∧ b.2 - a.2 = -1 ∧ t = some 2) := by
  subst ht
  unfold GetCorridorType
  rcases h with ⟨h1, h2⟩ | ⟨h1, h2⟩ | ⟨h1, h2⟩ | ⟨h1, h2⟩ <;> simp [h1, h2]

/-- The write of `PlaceCorridor` at a cell of the grid: the cell gets the tag unless it
holds `1`, and no other cell changes. -/
theorem PlaceCorridor_get {W H : Int} {Grid : List Int} (hlen : (Grid.length : Int) = W * H)
    {p : Pos} (hp : InGrid W H p) (t : Int) :
    ((PlaceCorridor W Grid p t).length = Grid.length) ∧
      (GridGet Grid (p.2 * W + p.1) ≠ some 1 →
        GridGet (PlaceCorridor W Grid p t) (p.2 * W + p.1) = some t) ∧
      (∀ q, InGrid W H q → q ≠ p →
        GridGet (PlaceCorridor W Grid p t) (q.2 * W + q.1) = GridGet Grid (q.2 * W + q.1)) := by
  obtain ⟨p1, p2, p3, p4⟩ := hp
  have hi := index_in_range p1 p2 p3 p4
  have hi2 : 0 ≤ p.2 * W + p.1 ∧ p.2 * W + p.1 < Grid.length := ⟨hi.1, by omega⟩
  obtain ⟨v, hv⟩ := GridGet_isSome hi2.1 hi2.2
  unfold PlaceCorridor
  dsimp only
  rw [hv]
  dsimp only
  by_cases hv1 : v ≠ 1
  · rw [if_pos hv1]
    refine ⟨List.length_set _ _ _, fun _ => ?_, ?_⟩
    · rw [GridGet_set hi2, if_pos rfl]
    · intro q hq hqp
      rw [GridGet_set hi2]
      have : q.2 * W + q.1 ≠ p.2 * W + p.1 := by
        intro h
        obtain ⟨e1, e2⟩ := index_inj hq.1 hq.2.1 p1 p2 h
        exact hqp (Prod.ext e1 e2)
      rw [if_neg this]
  · rw [if_neg hv1]
    refine ⟨rfl, fun h => ?_, fun _ _ _ => rfl⟩
    have : v = 1 := by
      by_contra hc
      exact hv1 hc
    rw [this] at h
    exact absurd rfl h

/-- Carving a path without repetition through cells of the grid: the origin of each step
that is not a room cell holds the tag of the step, and a cell that is not the origin of a
step is unchanged. -/
theorem CarvePath_spec {W H : Int} :
    ∀ (Path : List Pos) (Grid : List Int), (Grid.length : Int) = W * H →
      (∀ p ∈ Path, InGrid W H p) → Path.Nodup →
      (∀ a b, (a, b) ∈ Path.zip Path.tail → GridGet Grid (a.2 * W + a.1) ≠ some 1 →
        GridGet (CarvePath W Grid Path) (a.2 * W + a.1) =
          some (GetCorridorType (b.1 - a.1, b.2 - a.2))) ∧
      (∀ q, InGrid W H q → q ∉ Path.dropLast →
        GridGet (CarvePath W Grid Path) (q.2 * W + q.1) = GridGet Grid (q.2 * W + q.1)) := by
  intro Path
  induction Path with
  | nil =>
    intro Grid _ _ _
    exact ⟨fun a b h => absurd h (by simp), fun q _ _ => rfl⟩
  | cons a rest ih =>
    intro Grid hlen hin hnd
    cases rest with
    | nil => exact ⟨fun a b h => absurd h (by simp), fun q _ _ => rfl⟩
    | cons b rest =>
      have ha : InGrid W H a := hin a (List.mem_cons_self _ _)
      obtain ⟨g1, g2, g3⟩ :=
        PlaceCorridor_get hlen ha (GetCorridorType (b.1 - a.1, b.2 - a.2))
      obtain ⟨hna, hnd1⟩ := List.nodup_cons.mp hnd
      obtain ⟨i1, i2⟩ := ih (PlaceCorridor W Grid a (GetCorridorType (b.1 - a.1, b.2 - a.2)))
        (by rw [g1]; exact hlen) (fun p hp => hin p (List.mem_cons_of_mem _ hp)) hnd1
      simp only [CarvePath]
      constructor
      · intro c d hcd hc1
        simp only [List.tail_cons, List.zip_cons_cons, List.mem_cons, Prod.mk.injEq] at hcd
        rcases hcd with ⟨rfl, rfl⟩ | hcd
        · rw [i2 c ha (fun h => hna (List.mem_of_mem_dropLast h))]
          exact g2 hc1
        · have hc : c ∈ b :: rest := (List.of_mem_zip hcd).1
          have hca : c ≠ a := by
            rintro rfl
            exact hna hc
          have hcin : InGrid W H c := hin c (List.mem_cons_of_mem _ hc)
          apply i1 c d hcd
          rw [g3 c hcin hca]
          exact hc1
      · intro q hq hnot
        rw [List.dropLast_cons₂] at hnot
        have hqa : q ≠ a := by
          rintro rfl
          exact hnot (List.mem_cons_self _ _)
        rw [i2 q hq (fun h => hnot (List.mem_cons_of_mem _ h)), g3 q hq hqa]

theorem mem_zip_tail {α : Type} {l : List α} {i : Nat} {a b : α} (ha : l[i]? = some a)
    (hb : l[i + 1]? = some b) : (a, b) ∈ l.zip l.tail := by
  induction l generalizing i with
  | nil => simp at ha
  | cons x l ih =>
    cases l with
    | nil => simp at hb
    | cons y l =>
      cases i with
      | zero =>
        simp only [List.getElem?_cons_zero, Option.some.injEq, zero_add,
          List.getElem?_cons_succ] at ha hb
        simp [ha, hb]
      | succ i =>
        simp only [List.getElem?_cons_succ] at ha hb
        have := ih ha (by simpa using hb)
        simp only [List.tail_cons, List.zip_cons_cons, List.mem_cons]
        right
        simpa using this

theorem zip_tail_chain {α : Type} {R : α → α → Prop} {l : List α} (h : List.Chain' R l)
    {a b : α} (hab : (a, b) ∈ l.zip l.tail) : R a b := by
  induction l with
  | nil => simp at hab
  | cons x l ih =>
    cases l with
    | nil => simp at hab
    | cons y l =>
      rw [List.chain'_cons] at h
      simp only [List.tail_cons, List.zip_cons_cons, List.mem_cons, Prod.mk.injEq] at hab
      rcases hab with ⟨rfl, rfl⟩ | hab
      · exact h.1
      · exact ih h.2 (by simpa using hab)

/-- C18: for the path `[c0, ..., ck]` that `FindPath` returns from a start inside a grid of
`Width * Height` cells, carving writes the direction tag at the origin of each step: for
each `i < k` whose cell `ci` is not a room cell, the grid at `ci` after carving holds `5`
for a step `(+1,0)`, `4` for `(-1,0)`, `3` for `(0,+1)` and `2` for `(0,-1)`; the final cell
`ck` and every cell off the path are unchanged. -/
theorem CarvePath_tags_origin {D : Type} [LinearOrder D] [Add D] [NatCast D]
    (Dist : Pos → Pos → D) (ArraySort : SortFn) (hSort : IsPermSort ArraySort)
    (Width Height : Int) (Grid : List Int) (Rooms : List FRoom) (StartPos TargetPos : Pos)
    (hlen : (Grid.length : Int) = Width * Height) (hStart : InGrid Width Height StartPos) :
    ∃ Path, FindPath Dist ArraySort Width Height Grid Rooms StartPos TargetPos = some Path ∧
      (∀ i ci cn, Path[i]? = some ci → Path[i + 1]? = some cn →
        GridGet Grid (ci.2 * Width + ci.1) ≠ some 1 →
        (cn.1 - ci.1 = 1 ∧ cn.2 - ci.2 = 0 ∧
            GridGet (CarvePath Width Grid Path) (ci.2 * Width + ci.1) = some 5) ∨
          (cn.1 - ci.1 = -1 ∧ cn.2 - ci.2 = 0 ∧
            GridGet (CarvePath Width Grid Path) (ci.2 * Width + ci.1) = some 4) ∨
          (cn.1 - ci.1 = 0 ∧ cn.2 - ci.2 = 1 ∧
            GridGet (CarvePath Width Grid Path) (ci.2 * Width + ci.1) = some 3) ∨
          (cn.1 - ci.1 = 0 ∧ cn.2 - ci.2 = -1 ∧
            GridGet (CarvePath Width Grid Path) (ci.2 * Width + ci.1) = some 2)) ∧
      (∀ ck, Path.getLast? = some ck →
        GridGet (CarvePath Width Grid Path) (ck.2 * Width + ck.1) =
          GridGet Grid (ck.2 * Width + ck.1)) ∧
      (∀ p, InGrid Width Height p → p ∉ Path →
        GridGet (CarvePath Width Grid Path) (p.2 * Width + p.1) =
          GridGet Grid (p.2 * Width + p.1)) := by
  obtain ⟨Path, hPath, -, hres⟩ :=
    FindPath_run Dist hSort Width Height Grid Rooms StartPos TargetPos
  obtain ⟨hgood, hnd, hreach, -⟩ := hres.props hSort
  have hin : ∀ p ∈ Path, InGrid Width Height p := by
    intro p hp
    rcases (hreach p hp).inGrid with rfl | h
    · exact hStart
    · exact h
  have hchain : List.Chain' IsStep Path := by
    rcases hgood with rfl | ⟨c, -, -, -, -, h⟩
    · exact List.chain'_nil
    · exact h
  obtain ⟨c1, c2⟩ := CarvePath_spec Path Grid hlen hin hnd
  refine ⟨Path, hPath, ?_, ?_, ?_⟩
  · intro i ci cn hci hcn hroom
    have hmem := mem_zip_tail hci hcn
    exact GetCorridorType_step (zip_tail_chain hchain hmem) _ (c1 ci cn hmem hroom)
  · intro ck hck
    rcases List.eq_nil_or_concat Path with rfl | ⟨L, b, rfl⟩
    · simp at hck
    · rw [List.concat_eq_append] at hck hnd hin c2 ⊢
      have hb : b = ck := by simpa using hck
      subst hb
      apply c2 b (hin b (List.mem_append_right _ (List.mem_singleton_self _)))
      intro hdrop
      rw [List.dropLast_concat] at hdrop
      exact (List.nodup_append.mp hnd).2.2 hdrop (List.mem_singleton_self _)
  · intro p hp hnot
    exact c2 p hp (fun h => hnot (List.mem_of_mem_dropLast h))

/-- C18, at a concrete input: the 4 x 1 empty grid, from `(0, 0)` towards `(3, 0)`. -/
theorem CarvePath_tags_origin_witness :
    ∃ Path, FindPath SqDistPos InsertionSort 4 1 [0, 0, 0, 0] [] (0, 0) (3, 0) = some Path ∧
      (∀ i ci cn, Path[i]? = some ci → Path[i + 1]? = some cn →
        GridGet [0, 0, 0, 0] (ci.2 * 4 + ci.1) ≠ some 1 →
        (cn.1 - ci.1 = 1 ∧ cn.2 - ci.2 = 0 ∧
            GridGet (CarvePath 4 [0, 0, 0, 0] Path) (ci.2 * 4 + ci.1) = some 5) ∨
          (cn.1 - ci.1 = -1 ∧ cn.2 - ci.2 = 0 ∧
            GridGet (CarvePath 4 [0, 0, 0, 0] Path) (ci.2 * 4 + ci.1) = some 4) ∨
          (cn.1 - ci.1 = 0 ∧ cn.2 - ci.2 = 1 ∧
            GridGet (CarvePath 4 [0, 0, 0, 0] Path) (ci.2 * 4 + ci.1) = some 3) ∨
          (cn.1 - ci.1 = 0 ∧ cn.2 - ci.2 = -1 ∧
            GridGet (CarvePath 4 [0, 0, 0, 0] Path) (ci.2 * 4 + ci.1) = some 2)) ∧
      (∀ ck, Path.getLast? = some ck →
        GridGet (CarvePath 4 [0, 0, 0, 0] Path) (ck.2 * 4 + ck.1) =
          GridGet [0, 0, 0, 0] (ck.2 * 4 + ck.1)) ∧
      (∀ p, InGrid 4 1 p → p ∉ Path →
        GridGet (CarvePath 4 [0, 0, 0, 0] Path) (p.2 * 4 + p.1) =
          GridGet [0, 0, 0, 0] (p.2 * 4 + p.1)) :=
  CarvePath_tags_origin SqDistPos InsertionSort InsertionSort_perm 4 1 [0, 0, 0, 0] [] (0, 0)
    (3, 0) (by decide) (by simp [InGrid])

/-! ## The two-room scenario -/

theorem IsStep_reverse {p q : Pos} (h : IsStep p q) : IsStep q p := by
  unfold IsStep at h ⊢
  omega

/-- On a grid whose cells are all walkable every cell can be reached from a start inside
the grid. -/
theorem Reach_of_all_walkable {W H : Int} {Grid : List Int} {Rooms : List FRoom} {S T : Pos}
    (hS : InGrid W H S)
    (hwalk : ∀ q, InGrid W H q → IsWalkable W Grid Rooms q S T = true) :
    ∀ (d : Nat) (x : Pos), InGrid W H x → GridDist x S = d → Reach W H Grid Rooms S T x := by
  intro d
  induction d with
  | zero =>
    intro x _ hd
    rw [GridDist_eq_zero hd]
    exact Reach.start
  | succ d ih =>
    intro x hx hd
    have hne : x ≠ S := by
      rintro rfl
      rw [GridDist_self] at hd
      omega
    obtain ⟨q, hstep, hq, hdist⟩ := exists_step_toward hx hS hne
    exact Reach.step (ih q hq (by omega)) (IsStep_reverse hstep) hx (hwalk x hx)

theorem TwoRoomsGrid_get {x y : Int} (h : InGrid 10 10 (x, y)) :
    GridGet TwoRoomsGrid (y * 10 + x) =
      some (if (x < 4 ∧ y < 4) ∨ (6 ≤ x ∧ 6 ≤ y) then 1 else 0) := by
  obtain ⟨h1, h2, h3, h4⟩ := h
  simp only at h1 h2 h3 h4
  interval_cases x <;> interval_cases y <;> rfl

theorem TwoRoomsGrid_walkable (S T q : Pos) (h : InGrid 10 10 q) :
    IsWalkable 10 TwoRoomsGrid TwoRooms q S T = true := by
  obtain ⟨x, y⟩ := q
  rw [IsWalkable_iff]
  refine ⟨_, TwoRoomsGrid_get h, ?_⟩
  obtain ⟨h1, h2, h3, h4⟩ := h
  simp only at h1 h2 h3 h4
  by_cases hr : (x < 4 ∧ y < 4) ∨ (6 ≤ x ∧ 6 ≤ y)
  · right; left
    rcases hr with hr | hr
    · exact ⟨FRoom.new 0 0 4 4, by simp [TwoRooms], by simp [InRect, FRoom.new]; omega⟩
    · exact ⟨FRoom.new 6 6 4 4, by simp [TwoRooms], by simp [InRect, FRoom.new]; omega⟩
  · left
    rw [if_neg hr]

/-- The tags that `GetCorridorType` returns lie in `{0, 2, 3, 4, 5}`. -/
theorem GetCorridorType_range (d : Pos) : 0 ≤ GetCorridorType d ∧ GetCorridorType d ≤ 6 := by
  unfold GetCorridorType
  split_ifs <;> omega

/-- Carving never writes a tag outside `0..6`. -/
theorem CarvePath_tag_range (W : Int) :
    ∀ (Path : List Pos) (Grid : List Int), (∀ v ∈ Grid, 0 ≤ v ∧ v ≤ 6) →
      ∀ v ∈ CarvePath W Grid Path, 0 ≤ v ∧ v ≤ 6 := by
  intro Path
  induction Path with
  | nil => intro Grid h; exact h
  | cons a rest ih =>
    intro Grid h
    cases rest with
    | nil => exact h
    | cons b rest =>
      simp only [CarvePath]
      apply ih
      intro v hv
      unfold PlaceCorridor at hv
      dsimp only at hv
      split at hv
      · exact h v hv
      · split at hv
        · rcases List.mem_or_eq_of_mem_set hv with h1 | h1
          · exact h v h1
          · rw [h1]
            exact GetCorridorType_range _
        · exact h v hv

/-- A walk by unit steps from the room at `(0, 0)` to the room at `(6, 6)` has a step whose
origin is outside both rooms. -/
theorem exists_origin_between :
    ∀ (Path : List Pos), List.Chain' IsStep Path →
      (∀ a, Path.head? = some a → a.1 < 4 ∧ a.2 < 4) →
      (∀ c, Path.getLast? = some c → 6 ≤ c.1 ∧ 6 ≤ c.2) → Path ≠ [] →
      ∃ a b, (a, b) ∈ Path.zip Path.tail ∧ ¬ (a.1 < 4 ∧ a.2 < 4) ∧ ¬ (6 ≤ a.1 ∧ 6 ≤ a.2) := by
  intro Path
  induction Path with
  | nil => intro _ _ _ h; exact absurd rfl h
  | cons a rest ih =>
    intro hchain hhead hlast _
    have ha := hhead a rfl
    cases rest with
    | nil =>
      have := hlast a rfl
      omega
    | cons b rest =>
      rw [List.chain'_cons] at hchain
      by_cases hb : b.1 < 4 ∧ b.2 < 4
      · obtain ⟨c, d, hcd, h1, h2⟩ := ih hchain.2
          (fun x hx => by
            simp only [List.head?_cons, Option.some.injEq] at hx
            rw [← hx]; exact hb)
          (fun x hx => hlast x (by simpa using hx)) (by simp)
        exact ⟨c, d, by simp only [List.tail_cons, List.zip_cons_cons]
                        exact List.mem_cons_of_mem _ hcd, h1, h2⟩
      · have hstep := hchain.1
        unfold IsStep at hstep
        have hbq : ¬ (6 ≤ b.1 ∧ 6 ≤ b.2) := by omega
        cases rest with
        | nil =>
          have := hlast b (by simp)
          exact absurd this hbq
        | cons c rest =>
          exact ⟨b, c, by simp, hb, hbq⟩

/-- C12: on the 10 x 10 grid holding exactly the two 4 x 4 rooms at `(0, 0)` and `(6, 6)`,
whatever rearrangements the sort makes, `KruskalsMST` returns exactly one connection,
between rooms 0 and 1; `FindPath` from room 0's entry point to room 1's exit point
returns a non-empty path; and after `ConnectRoomsUsingAStar` the grid has 100 cells, some
cell outside both rooms holds a corridor tag in `2..5`, and every tag is in `0..6`. -/
theorem two_rooms_scenario {D E : Type} [LinearOrder D] [Add D] [NatCast D] [LinearOrder E]
    (CenterDist : ℚ × ℚ → ℚ × ℚ → E) (Dist : Pos → Pos → D) (ArraySort : SortFn)
    (hSort : IsPermSort ArraySort) :
    (∃ c, KruskalsMST CenterDist ArraySort TwoRooms = some [c] ∧
      c.RoomIndexA = 0 ∧ c.RoomIndexB = 1 ∧
      ∃ Grid1, ConnectRoomsUsingAStar Dist ArraySort 10 10 TwoRooms TwoRoomsGrid [c]
          = some Grid1 ∧ Grid1.length = 100 ∧
        (∃ x y, InGrid 10 10 (x, y) ∧ ¬ (x < 4 ∧ y < 4) ∧ ¬ (6 ≤ x ∧ 6 ≤ y) ∧
          ∃ v, GridGet Grid1 (y * 10 + x) = some v ∧ 2 ≤ v ∧ v ≤ 5) ∧
        ∀ v ∈ Grid1, v = 0 ∨ v = 1 ∨ v = 2 ∨ v = 3 ∨ v = 4 ∨ v = 5 ∨ v = 6) ∧
      ∃ Path, FindPath Dist ArraySort 10 10 TwoRoomsGrid TwoRooms
          (FRoom.new 0 0 4 4).EntryPoint (FRoom.new 6 6 4 4).ExitPoint = some Path ∧
        Path ≠ [] := by
  -- the path
  obtain ⟨Path, hPath, -, hres⟩ := FindPath_run Dist hSort 10 10 TwoRoomsGrid TwoRooms
    (FRoom.new 0 0 4 4).EntryPoint (FRoom.new 6 6 4 4).ExitPoint
  obtain ⟨hgood, hnd, hreach, hempty⟩ := hres.props hSort
  have hS : InGrid 10 10 (FRoom.new 0 0 4 4).EntryPoint := by
    refine ⟨?_, ?_, ?_, ?_⟩ <;> decide
  have hT : InGrid 10 10 (FRoom.new 6 6 4 4).ExitPoint := by
    refine ⟨?_, ?_, ?_, ?_⟩ <;> decide
  have hne : Path ≠ [] := by
    intro h
    have h1 := hempty h _ (Reach_of_all_walkable hS
      (fun q hq => TwoRoomsGrid_walkable _ _ q hq) _ _ hT rfl)
    exact absurd h1 (by decide)
  have hin : ∀ p ∈ Path, InGrid 10 10 p := by
    intro p hp
    rcases (hreach p hp).inGrid with h | h
    · rw [h]; exact hS
    · exact h
  obtain ⟨c, hhead, hlast, hnear, -, hchain⟩ : ∃ c, Path.head? = some (FRoom.new 0 0 4 4).EntryPoint ∧
      Path.getLast? = some c ∧ NearTarget c (FRoom.new 6 6 4 4).ExitPoint = true ∧
      Reach 10 10 TwoRoomsGrid TwoRooms (FRoom.new 0 0 4 4).EntryPoint
        (FRoom.new 6 6 4 4).ExitPoint c ∧ List.Chain' IsStep Path := by
    rcases hgood with h | h
    · exact absurd h hne
    · exact h
  -- the connection
  have hgen : GenerateAllRoomConnections CenterDist ArraySort TwoRooms =
      [⟨0, 1, CenterDist (Center (FRoom.new 0 0 4 4)) (Center (FRoom.new 6 6 4 4))⟩] := by
    have hp : (ArraySort FRoomConnection.lt (AllPairs CenterDist TwoRooms)).Perm
        (AllPairs CenterDist TwoRooms) := hSort _ _ _
    have hall : AllPairs CenterDist TwoRooms =
        [⟨0, 1, CenterDist (Center (FRoom.new 0 0 4 4)) (Center (FRoom.new 6 6 4 4))⟩] := rfl
    rw [hall] at hp
    exact List.perm_singleton.mp hp
  have hmst : KruskalsMST CenterDist ArraySort TwoRooms =
      some [⟨0, 1, CenterDist (Center (FRoom.new 0 0 4 4)) (Center (FRoom.new 6 6 4 4))⟩] := by
    unfold KruskalsMST
    rw [hgen]
    rfl
  refine ⟨⟨_, hmst, rfl, rfl, CarvePath 10 TwoRoomsGrid Path, ?_, ?_, ?_, ?_⟩, Path, hPath, hne⟩
  · simp only [ConnectRoomsUsingAStar, TwoRooms, List.getElem?_cons_zero,
      List.getElem?_cons_succ]
    rw [show FindPath Dist ArraySort 10 10 TwoRoomsGrid
        [FRoom.new 0 0 4 4, FRoom.new 6 6 4 4] (FRoom.new 0 0 4 4).EntryPoint
        (FRoom.new 6 6 4 4).ExitPoint = some Path from hPath]
  · rw [(CarvePath_keeps_room 10 Path TwoRoomsGrid).1]
    rfl
  · obtain ⟨a, b, hab, h1, h2⟩ := exists_origin_between Path hchain
      (fun x hx => by
        rw [hhead] at hx
        rw [← Option.some.inj hx]
        decide)
      (fun x hx => by
        rw [hlast] at hx
        rw [← Option.some.inj hx]
        have := NearTarget_iff.mp hnear
        have e1 : (FRoom.new 6 6 4 4).ExitPoint.1 = 7 := by decide
        have e2 : (FRoom.new 6 6 4 4).ExitPoint.2 = 7 := by decide
        rw [e1, e2] at this
        rw [abs_le, abs_le] at this
        omega) hne
    have hain : InGrid 10 10 a := hin a (List.of_mem_zip hab).1
    obtain ⟨c1, -⟩ := CarvePath_spec (W := 10) (H := 10) Path TwoRoomsGrid (by decide) hin hnd
    have hget : GridGet TwoRoomsGrid (a.2 * 10 + a.1) = some 0 := by
      rw [TwoRoomsGrid_get hain, if_neg (by tauto)]
    have htag := c1 a b hab (by rw [hget]; decide)
    have hstep : IsStep a b := zip_tail_chain hchain hab
    refine ⟨a.1, a.2, hain, h1, h2, _, htag, ?_⟩
    rcases GetCorridorType_step hstep _ rfl with h | h | h | h <;>
      · have := Option.some.inj h.2.2
        omega
  · intro v hv
    have := CarvePath_tag_range 10 Path TwoRoomsGrid (by decide) v hv
    omega

/-- C12, at a concrete input: the scenario with the insertion sort and the squared
distances. -/
theorem two_rooms_scenario_witness :
    (∃ c, KruskalsMST SqDist InsertionSort TwoRooms = some [c] ∧
      c.RoomIndexA = 0 ∧ c.RoomIndexB = 1 ∧
      ∃ Grid1, ConnectRoomsUsingAStar SqDistPos InsertionSort 10 10 TwoRooms TwoRoomsGrid [c]
          = some Grid1 ∧ Grid1.length = 100 ∧
        (∃ x y, InGrid 10 10 (x, y) ∧ ¬ (x < 4 ∧ y < 4) ∧ ¬ (6 ≤ x ∧ 6 ≤ y) ∧
          ∃ v, GridGet Grid1 (y * 10 + x) = some v ∧ 2 ≤ v ∧ v ≤ 5) ∧
        ∀ v ∈ Grid1, v = 0 ∨ v = 1 ∨ v = 2 ∨ v = 3 ∨ v = 4 ∨ v = 5 ∨ v = 6) ∧
      ∃ Path, FindPath SqDistPos InsertionSort 10 10 TwoRoomsGrid TwoRooms
          (FRoom.new 0 0 4 4).EntryPoint (FRoom.new 6 6 4 4).ExitPoint = some Path ∧
        Path ≠ [] :=
  two_rooms_scenario SqDist SqDistPos InsertionSort InsertionSort_perm

/-! ## The generation run -/

/-- The attempts for one room on a grid of `Width * Height` cells end, keep the size of the
grid and only append to `Rooms`. -/
theorem PlaceOneRoom_total {Rand : RandFn} (hRand : RandInRange Rand) {W H : Int}
    (hW : 5 ≤ W) (hH : 5 ≤ H) :
    ∀ (left k : Nat) (Grid : List Int) (Rooms : List FRoom), (Grid.length : Int) = W * H →
      ∃ k1 Grid1 new, PlaceOneRoom Rand W H left k Grid Rooms = some (k1, Grid1, Rooms ++ new) ∧
        (Grid1.length : Int) = W * H := by
  intro left
  induction left with
  | zero => intro k Grid Rooms hlen; exact ⟨k, Grid, [], by simp [PlaceOneRoom], hlen⟩
  | succ left ih =>
    intro k Grid Rooms hlen
    have hw := hRand k 4 5 (by decide)
    have hh := hRand (k + 1) 4 5 (by decide)
    have hx := hRand (k + 2) 0 (W - Rand k 4 5) (by omega)
    have hy := hRand (k + 3) 0 (H - Rand (k + 1) 4 5) (by omega)
    have hin : ∀ c ∈ RectCells (Rand (k + 2) 0 (W - Rand k 4 5))
        (Rand (k + 3) 0 (H - Rand (k + 1) 4 5)) (Rand k 4 5) (Rand (k + 1) 4 5),
        0 ≤ c.2 * W + c.1 ∧ c.2 * W + c.1 < Grid.length := by
      rintro ⟨x, y⟩ hc
      rw [mem_RectCells] at hc
      rw [hlen]
      exact index_in_range (by omega) (by omega) (by omega) (by omega)
    obtain ⟨b, hb, -⟩ := CanPlaceRoomLoop_spec _ hin
    obtain ⟨Grid1, h1, h2, -, -⟩ := PlaceRoomLoop_spec _ Grid hin
    unfold PlaceOneRoom
    dsimp only
    unfold CanPlaceRoom
    rw [hb]
    cases b with
    | true =>
      dsimp only
      unfold PlaceRoom
      rw [h1]
      exact ⟨k + 4, Grid1, _, rfl, by rw [h2]; exact hlen⟩
    | false =>
      dsimp only
      exact ih (k + 4) Grid Rooms hlen

/-- The function `PlaceMultipleRooms` on a grid of `Width * Height` cells ends, keeps the
size of the grid and only appends to `Rooms`. -/
theorem PlaceRoomsLoop_total {Rand : RandFn} (hRand : RandInRange Rand) {W H : Int}
    (hW : 5 ≤ W) (hH : 5 ≤ H) :
    ∀ (todo k : Nat) (Grid : List Int) (Rooms : List FRoom), (Grid.length : Int) = W * H →
      ∃ k1 Grid1 new, PlaceRoomsLoop Rand W H todo k Grid Rooms = some (k1, Grid1, Rooms ++ new) ∧
        (Grid1.length : Int) = W * H := by
  intro todo
  induction todo with
  | zero => intro k Grid Rooms hlen; exact ⟨k, Grid, [], by simp [PlaceRoomsLoop], hlen⟩
  | succ todo ih =>
    intro k Grid Rooms hlen
    obtain ⟨k1, Grid1, new1, h1, hlen1⟩ := PlaceOneRoom_total hRand hW hH 100 k Grid Rooms hlen
    obtain ⟨k2, Grid2, new2, h2, hlen2⟩ := ih k1 Grid1 (Rooms ++ new1) hlen1
    refine ⟨k2, Grid2, new1 ++ new2, ?_, hlen2⟩
    simp only [PlaceRoomsLoop, h1]
    rw [h2, List.append_assoc]

/-- The function `ConnectRoomsUsingAStar` over connections between rooms of the list runs to
completion and keeps the size of the grid. -/
theorem ConnectRoomsUsingAStar_total {D E : Type} [LinearOrder D] [Add D] [NatCast D]
    (Dist : Pos → Pos → D) {ArraySort : SortFn} (hSort : IsPermSort ArraySort)
    (W H : Int) (Rooms : List FRoom) :
    ∀ (MST : List (FRoomConnection E)) (Grid : List Int),
      (∀ c ∈ MST, c.RoomIndexA < Rooms.length ∧ c.RoomIndexB < Rooms.length) →
      ∃ Grid1, ConnectRoomsUsingAStar Dist ArraySort W H Rooms Grid MST = some Grid1 ∧
        Grid1.length = Grid.length := by
  intro MST
  induction MST with
  | nil => intro Grid _; exact ⟨Grid, rfl, rfl⟩
  | cons c rest ih =>
    intro Grid hMST
    have hc := hMST c (List.mem_cons_self _ _)
    have hA : c.RoomIndexA < Rooms.length := hc.1
    have hB : c.RoomIndexB < Rooms.length := hc.2
    obtain ⟨Path, hPath, -⟩ := FindPath_spec Dist hSort W H Grid Rooms
      Rooms[c.RoomIndexA].EntryPoint Rooms[c.RoomIndexB].ExitPoint
    obtain ⟨Grid1, h3, h4⟩ :=
      ih (CarvePath W Grid Path) (fun d hd => hMST d (List.mem_cons_of_mem _ hd))
    refine ⟨Grid1, ?_, by rw [h4, (CarvePath_keeps_room W Path Grid).1]⟩
    simp only [ConnectRoomsUsingAStar, List.getElem?_eq_getElem hc.1,
      List.getElem?_eq_getElem hc.2, hPath]
    exact h3

/-- The function `KruskalsMST` returns connections between rooms of the list. -/
theorem KruskalsMST_total {E : Type} [LinearOrder E] (CenterDist : ℚ × ℚ → ℚ × ℚ → E)
    {ArraySort : SortFn} (hSort : IsPermSort ArraySort) (Rooms : List FRoom) :
    ∃ MST, KruskalsMST CenterDist ArraySort Rooms = some MST ∧
      ∀ c ∈ MST, c.RoomIndexA < Rooms.length ∧ c.RoomIndexB < Rooms.length := by
  obtain ⟨MST, -, -, -, hMST, hgreedy, -⟩ := KruskalsMST_run CenterDist ArraySort hSort Rooms
  refine ⟨MST, hMST, ?_⟩
  intro c hc
  rcases hgreedy.mem c hc with h | h
  · exact absurd h (List.not_mem_nil _)
  · rw [mem_GenerateAllRoomConnections hSort, mem_AllPairs] at h
    obtain ⟨i, j, _, _, hij, hj, _, _, rfl⟩ := h
    exact ⟨by show i < _; omega, hj⟩

/-- The run on a grid of at least 5 x 5 and fewer than `2^31` cells ends; the grid it
leaves has `Width * Height` cells and `Rooms` is what the actor held before followed by
the rooms placed. -/
theorem GenerateDungeon_run {D E : Type} [LinearOrder D] [Add D] [NatCast D] [LinearOrder E]
    (CenterDist : ℚ × ℚ → ℚ × ℚ → E) (Dist : Pos → Pos → D) {ArraySort : SortFn}
    (hSort : IsPermSort ArraySort) {Rand : RandFn} (hRand : RandInRange Rand)
    {W H : Int} (hW : 5 ≤ W) (hH : 5 ≤ H) (hB : W * H < 2147483648) (N : Int) (k : Nat)
    (Rooms : List FRoom) :
    ∃ Grid0 k1 Grid1 new MST Grid2,
      InitializeGrid W H = some Grid0 ∧
      PlaceMultipleRooms Rand W H N k Grid0 Rooms = some (k1, Grid1, Rooms ++ new) ∧
      KruskalsMST CenterDist ArraySort (Rooms ++ new) = some MST ∧
      ConnectRoomsUsingAStar Dist ArraySort W H (Rooms ++ new) Grid1 MST = some Grid2 ∧
      GenerateDungeon CenterDist Dist ArraySort Rand W H N k Rooms
        = some (k1, Grid2, Rooms ++ new) ∧
      (Grid2.length : Int) = W * H := by
  obtain ⟨hinit, inv0⟩ := PlacerInv_init (W := W) (H := H) (by omega) (by omega) hB
  obtain ⟨k1, Grid1, new, hplace, hlen1⟩ :=
    PlaceRoomsLoop_total hRand hW hH N.toNat k _ Rooms inv0.len
  obtain ⟨MST, hMST, hidx⟩ := KruskalsMST_total CenterDist hSort (Rooms ++ new)
  obtain ⟨Grid2, hconn, hlen2⟩ :=
    ConnectRoomsUsingAStar_total Dist hSort W H (Rooms ++ new) MST Grid1 hidx
  refine ⟨_, k1, Grid1, new, MST, Grid2, hinit, hplace, hMST, hconn, ?_, by rw [hlen2]; exact hlen1⟩
  unfold GenerateDungeon
  rw [hinit]
  dsimp only
  rw [show PlaceMultipleRooms Rand W H N k (List.replicate (W * H).toNat 0) Rooms =
    some (k1, Grid1, Rooms ++ new) from hplace]
  dsimp only
  rw [hMST]
  dsimp only
  rw [hconn]

/-- C14, on the code: on a 5 x 5 grid with `NumofRoom = 1`, the first run (draws 4, 4, 0, 0)
places the room `(0, 0, 4, 4)`; the second run (draws 5, 5, 0, 0) resets the grid and
places the room `(0, 0, 5, 5)`, and `Rooms` then holds both: the room of the first run
is still there, under index 0, on top of which the new room lies. -/
theorem GenerateDungeon_second_run_keeps_rooms :
    GenerateDungeon SqDist SqDistPos InsertionSort RandMinThenMax 5 5 1 0 [] =
        some (4,
          [1, 1, 1, 1, 0,
           1, 1, 1, 1, 0,
           1, 1, 1, 1, 0,
           1, 1, 1, 1, 0,
           0, 0, 0, 0, 0], [FRoom.new 0 0 4 4]) ∧
      GenerateDungeon SqDist SqDistPos InsertionSort RandMinThenMax 5 5 1 4 [FRoom.new 0 0 4 4] =
        some (8, List.replicate 25 1, [FRoom.new 0 0 4 4, FRoom.new 0 0 5 5]) := by
  decide

/-- C15, as stated, fails: on a 5 x 5 grid with `NumofRoom = 1` and every draw at its
minimum, `GenerateDungeon` leaves the room cell `1` at index 0 and `0` at index 24,
while the six stages of the specification end with the entry tag `3` at index 0 and the
exit tag `4` at index 24. -/
theorem GenerateDungeon_is_not_six_stages :
    GenerateDungeon SqDist SqDistPos InsertionSort RandMin 5 5 1 0 [] =
        some (4,
          [1, 1, 1, 1, 0,
           1, 1, 1, 1, 0,
           1, 1, 1, 1, 0,
           1, 1, 1, 1, 0,
           0, 0, 0, 0, 0], [FRoom.new 0 0 4 4]) ∧
      SixStagePipeline SqDist SqDistPos InsertionSort RandMin 5 5 1 0 [] =
        some (5,
          [3, 1, 1, 1, 0,
           1, 1, 1, 1, 0,
           1, 1, 1, 1, 0,
           1, 1, 1, 1, 0,
           0, 0, 0, 0, 4], [FRoom.new 0 0 4 4]) := by
  decide

/-- C15, amended: `GenerateDungeon` runs the fixed pipeline initialize grid, place rooms,
build MST, carve corridors, and nothing after it.  For every configuration of at least
5 x 5 cells whose `Width * Height` cells an array can hold (fewer than `2^31`, so that the
`int32` product in `InitializeGrid` is exact), random draws in range and whatever the sort
and the rooms held before, each stage returns and the grid `GenerateDungeon` produces is the grid obtained by applying
`InitializeGrid`, `PlaceMultipleRooms`, `KruskalsMST` and `ConnectRoomsUsingAStar` in that
order; it has `Width * Height` cells. -/
theorem GenerateDungeon_four_stages {D E : Type} [LinearOrder D] [Add D] [NatCast D]
    [LinearOrder E] (CenterDist : ℚ × ℚ → ℚ × ℚ → E) (Dist : Pos → Pos → D)
    (ArraySort : SortFn) (hSort : IsPermSort ArraySort) (Rand : RandFn)
    (hRand : RandInRange Rand) (Width Height : Int) (hW : 5 ≤ Width) (hH : 5 ≤ Height)
    (hBound : Width * Height < 2147483648) (NumofRoom : Int) (k : Nat)
    (Rooms : List FRoom) :
    ∃ Grid0 k1 Grid1 Rooms1 MST Grid2,
      InitializeGrid Width Height = some Grid0 ∧
      PlaceMultipleRooms Rand Width Height NumofRoom k Grid0 Rooms = some (k1, Grid1, Rooms1) ∧
      KruskalsMST CenterDist ArraySort Rooms1 = some MST ∧
      ConnectRoomsUsingAStar Dist ArraySort Width Height Rooms1 Grid1 MST = some Grid2 ∧
      GenerateDungeon CenterDist Dist ArraySort Rand Width Height NumofRoom k Rooms
        = some (k1, Grid2, Rooms1) ∧
      (Grid2.length : Int) = Width * Height := by
  obtain ⟨Grid0, k1, Grid1, new, MST, Grid2, h⟩ :=
    GenerateDungeon_run CenterDist Dist hSort hRand hW hH hBound NumofRoom k Rooms
  exact ⟨Grid0, k1, Grid1, Rooms ++ new, MST, Grid2, h⟩

/-- C15, amended, at a concrete input: an 11 x 5 grid, two rooms, the first four draws at
their minimum and the later ones at their maximum.  The rooms `(0, 0, 4, 4)` and
`(6, 0, 5, 5)` are placed, the tree is the one connection between them, and the corridor
carved for it is the two cells tagged `5` between the rooms. -/
theorem GenerateDungeon_four_stages_witness :
    ∃ Grid0 k1 Grid1 Rooms1 MST Grid2,
      InitializeGrid 11 5 = some Grid0 ∧
      PlaceMultipleRooms RandMinThenMax 11 5 2 0 Grid0 [] = some (k1, Grid1, Rooms1) ∧
      KruskalsMST SqDist InsertionSort Rooms1 = some MST ∧
      ConnectRoomsUsingAStar SqDistPos InsertionSort 11 5 Rooms1 Grid1 MST = some Grid2 ∧
      GenerateDungeon SqDist SqDistPos InsertionSort RandMinThenMax 11 5 2 0 []
        = some (k1, Grid2, Rooms1) ∧
      (Grid2.length : Int) = 11 * 5 ∧
      Rooms1 = [FRoom.new 0 0 4 4, FRoom.new 6 0 5 5] ∧
      MST.map endpoints = [(0, 1)] ∧
      Grid1 =
        [1, 1, 1, 1, 0, 0, 1, 1, 1, 1, 1,
         1, 1, 1, 1, 0, 0, 1, 1, 1, 1, 1,
         1, 1, 1, 1, 0, 0, 1, 1, 1, 1, 1,
         1, 1, 1, 1, 0, 0, 1, 1, 1, 1, 1,
         0, 0, 0, 0, 0, 0, 1, 1, 1, 1, 1] ∧
      Grid2 =
        [1, 1, 1, 1, 0, 0, 1, 1, 1, 1, 1,
         1, 1, 1, 1, 5, 5, 1, 1, 1, 1, 1,
         1, 1, 1, 1, 0, 0, 1, 1, 1, 1, 1,
         1, 1, 1, 1, 0, 0, 1, 1, 1, 1, 1,
         0, 0, 0, 0, 0, 0, 1, 1, 1, 1, 1] := by
  obtain ⟨Grid0, k1, Grid1, Rooms1, MST, Grid2, h0, h1, h2, h3, h4, h5⟩ :=
    GenerateDungeon_four_stages SqDist SqDistPos InsertionSort InsertionSort_perm RandMinThenMax
      RandMinThenMax_inRange 11 5 (by decide) (by decide) (by decide) 2 0 []
  have e0 : InitializeGrid 11 5 = some (List.replicate 55 0) := by decide
  have e1 : PlaceMultipleRooms RandMinThenMax 11 5 2 0 (List.replicate 55 0) [] =
      some (8,
        [1, 1, 1, 1, 0, 0, 1, 1, 1, 1, 1,
         1, 1, 1, 1, 0, 0, 1, 1, 1, 1, 1,
         1, 1, 1, 1, 0, 0, 1, 1, 1, 1, 1,
         1, 1, 1, 1, 0, 0, 1, 1, 1, 1, 1,
         0, 0, 0, 0, 0, 0, 1, 1, 1, 1, 1],
        [FRoom.new 0 0 4 4, FRoom.new 6 0 5 5]) := by decide
  have e2 : (KruskalsMST SqDist InsertionSort [FRoom.new 0 0 4 4, FRoom.new 6 0 5 5]).map
      (List.map endpoints) = some [(0, 1)] := by decide
  have e4 : GenerateDungeon SqDist SqDistPos InsertionSort RandMinThenMax 11 5 2 0 [] =
      some (8,
        [1, 1, 1, 1, 0, 0, 1, 1, 1, 1, 1,
         1, 1, 1, 1, 5, 5, 1, 1, 1, 1, 1,
         1, 1, 1, 1, 0, 0, 1, 1, 1, 1, 1,
         1, 1, 1, 1, 0, 0, 1, 1, 1, 1, 1,
         0, 0, 0, 0, 0, 0, 1, 1, 1, 1, 1], [FRoom.new 0 0 4 4, FRoom.new 6 0 5 5]) := by decide
  rw [e0] at h0
  cases h0
  rw [e1] at h1
  cases h1
  rw [h2] at e2
  rw [e4] at h4
  cases h4
  exact ⟨_, _, _, _, MST, _, e0, e1, h2, h3, e4, h5, rfl, by simpa using e2, rfl, rfl⟩

/-! ## The room placer: attempts and rooms are bounded -/

/-- The attempts for one room: when the loop returns it has made `a` attempts of four
draws each, at most as many as it was allowed; either it placed one room at the last of
them, or it used up all of them and left grid and rooms as they were. -/
theorem PlaceOneRoom_attempts {Rand : RandFn} {W H : Int} :
    ∀ (left k : Nat) (Grid : List Int) (Rooms : List FRoom) (k1 : Nat) (Grid1 : List Int)
      (Rooms1 : List FRoom),
      PlaceOneRoom Rand W H left k Grid Rooms = some (k1, Grid1, Rooms1) →
      ∃ (a : Nat) (placed : Bool), a ≤ left ∧ k1 = k + 4 * a ∧
        (placed = true → 1 ≤ a ∧ ∃ Room, Rooms1 = Rooms ++ [Room]) ∧
        (placed = false → a = left ∧ Rooms1 = Rooms ∧ Grid1 = Grid) := by
  intro left
  induction left with
  | zero =>
    intro k Grid Rooms k1 Grid1 Rooms1 h
    simp only [PlaceOneRoom, Option.some.injEq, Prod.mk.injEq] at h
    exact ⟨0, false, le_refl _, by omega, fun hp => absurd hp (by decide),
      fun _ => ⟨rfl, h.2.2.symm, h.2.1.symm⟩⟩
  | succ left ih =>
    intro k Grid Rooms k1 Grid1 Rooms1 h
    unfold PlaceOneRoom at h
    dsimp only at h
    cases hcan : CanPlaceRoom W Grid (Rand (k + 2) 0 (W - Rand k 4 5))
        (Rand (k + 3) 0 (H - Rand (k + 1) 4 5)) (Rand k 4 5) (Rand (k + 1) 4 5) with
    | none => rw [hcan] at h; simp at h
    | some b =>
      rw [hcan] at h
      cases b with
      | true =>
        dsimp only at h
        unfold PlaceRoom at h
        cases hloop : PlaceRoomLoop W Grid (RectCells (Rand (k + 2) 0 (W - Rand k 4 5))
            (Rand (k + 3) 0 (H - Rand (k + 1) 4 5)) (Rand k 4 5) (Rand (k + 1) 4 5)) with
        | none => rw [hloop] at h; simp at h
        | some G =>
          rw [hloop] at h
          simp only [Option.some.injEq, Prod.mk.injEq] at h
          exact ⟨1, true, by omega, by omega, fun _ => ⟨le_refl _, _, h.2.2.symm⟩,
            fun hp => absurd hp (by decide)⟩
      | false =>
        dsimp only at h
        obtain ⟨a, placed, h1, h2, h3, h4⟩ := ih (k + 4) Grid Rooms k1 Grid1 Rooms1 h
        refine ⟨a + 1, placed, by omega, by omega, fun hp => ⟨by omega, (h3 hp).2⟩, ?_⟩
        intro hp
        obtain ⟨e1, e2, e3⟩ := h4 hp
        exact ⟨by omega, e2, e3⟩

/-- The loop over the requested rooms: when it returns, each requested room has had its
attempts, between 1 and 100, all 100 when it was not placed, and the rooms appended are
those that were placed. -/
theorem PlaceRoomsLoop_attempts {Rand : RandFn} {W H : Int} :
    ∀ (todo k : Nat) (Grid : List Int) (Rooms : List FRoom) (k1 : Nat) (Grid1 : List Int)
      (Rooms1 : List FRoom),
      PlaceRoomsLoop Rand W H todo k Grid Rooms = some (k1, Grid1, Rooms1) →
      ∃ outcomes : List (Nat × Bool), outcomes.length = todo ∧
        (∀ o ∈ outcomes, 1 ≤ o.1 ∧ o.1 ≤ 100 ∧ (o.2 = false → o.1 = 100)) ∧
        k1 = k + 4 * (outcomes.map Prod.fst).sum ∧
        ∃ new, Rooms1 = Rooms ++ new ∧
          new.length = (outcomes.filter fun o => o.2).length := by
  intro todo
  induction todo with
  | zero =>
    intro k Grid Rooms k1 Grid1 Rooms1 h
    simp only [PlaceRoomsLoop, Option.some.injEq, Prod.mk.injEq] at h
    exact ⟨[], rfl, fun o ho => absurd ho (List.not_mem_nil _), by simp [h.1],
      [], by simp [h.2.2], rfl⟩
  | succ todo ih =>
    intro k Grid Rooms k1 Grid1 Rooms1 h
    unfold PlaceRoomsLoop at h
    cases hone : PlaceOneRoom Rand W H 100 k Grid Rooms with
    | none => rw [hone] at h; simp at h
    | some r =>
      obtain ⟨ka, Ga, Ra⟩ := r
      rw [hone] at h
      dsimp only at h
      obtain ⟨a, placed, a1, a2, a3, a4⟩ := PlaceOneRoom_attempts 100 k Grid Rooms ka Ga Ra hone
      obtain ⟨outcomes, o1, o2, o3, new, o4, o5⟩ := ih ka Ga Ra k1 Grid1 Rooms1 h
      refine ⟨(a, placed) :: outcomes, by simp [o1], ?_, ?_, ?_⟩
      · intro o ho
        rcases List.mem_cons.mp ho with rfl | ho
        · cases placed with
          | true => exact ⟨(a3 rfl).1, a1, fun hp => absurd hp (by simp)⟩
          | false =>
            have := (a4 rfl).1
            exact ⟨by omega, a1, fun _ => this⟩
        · exact o2 o ho
      · simp only [List.map_cons, List.sum_cons]
        omega
      · cases placed with
        | true =>
          obtain ⟨-, Room, hR⟩ := a3 rfl
          refine ⟨Room :: new, by rw [o4, hR, List.append_assoc]; rfl, ?_⟩
          simp [o5]
        | false =>
          obtain ⟨-, hR, -⟩ := a4 rfl
          refine ⟨new, by rw [o4, hR], ?_⟩
          simp [o5]

/-- C21: `PlaceMultipleRooms(N)` has no unbounded loop.  Whenever the run returns, for
whatever grid and random draws, each of the `N` requested rooms has had between 1 and 100
attempts of four draws each, all 100 when the room was not placed, the remaining rooms
were tried after a room that was not placed, and `Rooms` has grown by the rooms that
were placed, at most `N`.  On a grid of `Width * Height` cells with `Width, Height >= 5`
and draws within their ranges no access leaves the array and the run does return. -/
theorem PlaceMultipleRooms_bounded (Rand : RandFn) (Width Height : Int) (NumberOfRooms : Int)
    (k : Nat) (Grid : List Int) (Rooms : List FRoom) :
    (∀ k1 Grid1 Rooms1,
      PlaceMultipleRooms Rand Width Height NumberOfRooms k Grid Rooms
        = some (k1, Grid1, Rooms1) →
      ∃ outcomes : List (Nat × Bool), outcomes.length = NumberOfRooms.toNat ∧
        (∀ o ∈ outcomes, 1 ≤ o.1 ∧ o.1 ≤ 100 ∧ (o.2 = false → o.1 = 100)) ∧
        k1 = k + 4 * (outcomes.map Prod.fst).sum ∧
        ∃ new, Rooms1 = Rooms ++ new ∧
          new.length = (outcomes.filter fun o => o.2).length ∧
          new.length ≤ NumberOfRooms.toNat) ∧
      (RandInRange Rand → 5 ≤ Width → 5 ≤ Height → (Grid.length : Int) = Width * Height →
        ∃ k1 Grid1 Rooms1,
          PlaceMultipleRooms Rand Width Height NumberOfRooms k Grid Rooms
            = some (k1, Grid1, Rooms1)) := by
  constructor
  · intro k1 Grid1 Rooms1 h
    obtain ⟨outcomes, o1, o2, o3, new, o4, o5⟩ :=
      PlaceRoomsLoop_attempts NumberOfRooms.toNat k Grid Rooms k1 Grid1 Rooms1 h
    refine ⟨outcomes, o1, o2, o3, new, o4, o5, ?_⟩
    rw [o5, ← o1]
    exact List.length_filter_le _ _
  · intro hRand hW hH hlen
    obtain ⟨k1, Grid1, new, h, -⟩ :=
      PlaceRoomsLoop_total hRand hW hH NumberOfRooms.toNat k Grid Rooms hlen
    exact ⟨k1, Grid1, Rooms ++ new, h⟩

/-- C21, at a concrete input: on a 5 x 5 grid with every draw at its minimum, two rooms
are requested; the first is placed at the first attempt, the second is rejected 100 times
at the same place, 404 draws are made and one room is appended. -/
theorem PlaceMultipleRooms_bounded_witness :
    (∃ outcomes : List (Nat × Bool), outcomes.length = (2 : Int).toNat ∧
      (∀ o ∈ outcomes, 1 ≤ o.1 ∧ o.1 ≤ 100 ∧ (o.2 = false → o.1 = 100)) ∧
      404 = 0 + 4 * (outcomes.map Prod.fst).sum ∧
      ∃ new, [FRoom.new 0 0 4 4] = [] ++ new ∧
        new.length = (outcomes.filter fun o => o.2).length ∧
        new.length ≤ (2 : Int).toNat) ∧
      ∃ k1 Grid1 Rooms1,
        PlaceMultipleRooms RandMin 5 5 2 0 (List.replicate 25 0) [] = some (k1, Grid1, Rooms1) :=
  ⟨(PlaceMultipleRooms_bounded RandMin 5 5 2 0 (List.replicate 25 0) []).1 404
      [1, 1, 1, 1, 0, 1, 1, 1, 1, 0, 1, 1, 1, 1, 0, 1, 1, 1, 1, 0, 0, 0, 0, 0, 0]
      [FRoom.new 0 0 4 4] (by decide),
    (PlaceMultipleRooms_bounded RandMin 5 5 2 0 (List.replicate 25 0) []).2 RandMin_inRange
      (by decide) (by decide) (by decide)⟩

/-! ## The frame of `PlaceRoom` -/

theorem cdiv_two {a : Int} (h : 0 ≤ a) : cdiv a 2 = a / 2 := by
  unfold cdiv
  exact Int.tdiv_eq_ediv h (by decide)

/-- The loop `PlaceRoomLoop` changes no cell other than the visited ones. -/
theorem PlaceRoomLoop_frame {W : Int} :
    ∀ (cells : List Pos) (Grid Grid1 : List Int), PlaceRoomLoop W Grid cells = some Grid1 →
      ∀ i, (∀ c ∈ cells, c.2 * W + c.1 ≠ i) → GridGet Grid1 i = GridGet Grid i := by
  intro cells
  induction cells with
  | nil =>
    intro Grid Grid1 h i _
    simp only [PlaceRoomLoop, Option.some.injEq] at h
    rw [h]
  | cons c rest ih =>
    intro Grid Grid1 h i hne
    obtain ⟨x, y⟩ := c
    simp only [PlaceRoomLoop, GridSet] at h
    by_cases hc : 0 ≤ y * W + x ∧ y * W + x < Grid.length
    · rw [if_pos hc] at h
      rw [ih _ _ h i (fun c hc' => hne c (List.mem_cons_of_mem _ hc')), GridGet_set hc]
      have : i ≠ y * W + x := fun e => hne (x, y) (List.mem_cons_self _ _) e.symm
      rw [if_neg this]
    · rw [if_neg hc] at h
      simp at h

/-- C22: for every rectangle `(x, y, w, h)` with `w, h >= 1` lying inside a grid of
`Width * Height` cells, `PlaceRoom` runs, sets the cells of the rectangle to `1`, leaves
every other cell of the grid unchanged, and appends one room record `{x, y, w, h}` whose
entry point and exit point both are `(x + (w - 1) / 2, y + (h - 1) / 2)`, a cell of the
rectangle. -/
theorem PlaceRoom_frame (Width Height : Int) (Grid : List Int) (Rooms : List FRoom)
    (x y w h : Int) (hlen : (Grid.length : Int) = Width * Height) (hw : 1 ≤ w) (hh : 1 ≤ h)
    (hx0 : 0 ≤ x) (hx1 : x + w ≤ Width) (hy0 : 0 ≤ y) (hy1 : y + h ≤ Height) :
    ∃ Grid1 Room, PlaceRoom Width Grid Rooms x y w h = some (Grid1, Rooms ++ [Room]) ∧
      Room.StartX = x ∧ Room.StartY = y ∧ Room.Width = w ∧ Room.Height = h ∧
      Room.EntryPoint = (x + (w - 1) / 2, y + (h - 1) / 2) ∧
      Room.ExitPoint = (x + (w - 1) / 2, y + (h - 1) / 2) ∧
      (x ≤ x + (w - 1) / 2 ∧ x + (w - 1) / 2 < x + w ∧
        y ≤ y + (h - 1) / 2 ∧ y + (h - 1) / 2 < y + h) ∧
      Grid1.length = Grid.length ∧
      ∀ cx cy, InGrid Width Height (cx, cy) →
        ((x ≤ cx ∧ cx < x + w ∧ y ≤ cy ∧ cy < y + h) →
          GridGet Grid1 (cy * Width + cx) = some 1) ∧
        (¬ (x ≤ cx ∧ cx < x + w ∧ y ≤ cy ∧ cy < y + h) →
          GridGet Grid1 (cy * Width + cx) = GridGet Grid (cy * Width + cx)) := by
  have hin : ∀ c ∈ RectCells x y w h, 0 ≤ c.2 * Width + c.1 ∧ c.2 * Width + c.1 < Grid.length := by
    rintro ⟨cx, cy⟩ hc
    rw [mem_RectCells] at hc
    rw [hlen]
    exact index_in_range (by omega) (by omega) (by omega) (by omega)
  obtain ⟨Grid1, h1, h2, h3, -⟩ := PlaceRoomLoop_spec (RectCells x y w h) Grid hin
  refine ⟨Grid1, FRoom.new x y w h, by simp only [PlaceRoom, h1], rfl, rfl, rfl, rfl, ?_, ?_,
    by omega, h2, ?_⟩
  · simp only [FRoom.new, cdiv_two (show 0 ≤ w - 1 by omega), cdiv_two (show 0 ≤ h - 1 by omega)]
  · simp only [FRoom.new, cdiv_two (show 0 ≤ w - 1 by omega), cdiv_two (show 0 ≤ h - 1 by omega)]
  · intro cx cy hg
    constructor
    · intro hrect
      exact h3 (cx, cy) (mem_RectCells.mpr hrect)
    · intro hnot
      apply PlaceRoomLoop_frame _ _ _ h1
      rintro ⟨ax, ay⟩ hc heq
      rw [mem_RectCells] at hc
      obtain ⟨e1, e2⟩ := index_inj (show 0 ≤ ax by omega) (show ax < Width by omega) hg.1 hg.2.1 heq
      simp only at e1 e2
      exact hnot (by omega)

/-- C22, at a concrete input: a 2 x 2 room at `(1, 1)` on a 4 x 3 grid that holds a `5`. -/
theorem PlaceRoom_frame_witness :
    PlaceRoom 4 [0, 0, 0, 0, 0, 0, 0, 5, 0, 0, 0, 0] [] 1 1 2 2 =
        some ([0, 0, 0, 0, 0, 1, 1, 5, 0, 1, 1, 0], [FRoom.new 1 1 2 2]) ∧
      (FRoom.new 1 1 2 2).EntryPoint = (1, 1) ∧
      ∃ Grid1 Room, PlaceRoom 4 [0, 0, 0, 0, 0, 0, 0, 5, 0, 0, 0, 0] [] 1 1 2 2 =
          some (Grid1, [] ++ [Room]) ∧
        Room.StartX = 1 ∧ Room.StartY = 1 ∧ Room.Width = 2 ∧ Room.Height = 2 ∧
        Room.EntryPoint = (1 + (2 - 1) / 2, 1 + (2 - 1) / 2) ∧
        Room.ExitPoint = (1 + (2 - 1) / 2, 1 + (2 - 1) / 2) ∧
        ((1 : Int) ≤ 1 + (2 - 1) / 2 ∧ (1 : Int) + (2 - 1) / 2 < 1 + 2 ∧
          (1 : Int) ≤ 1 + (2 - 1) / 2 ∧ (1 : Int) + (2 - 1) / 2 < 1 + 2) ∧
        Grid1.length = [(0 : Int), 0, 0, 0, 0, 0, 0, 5, 0, 0, 0, 0].length ∧
        ∀ cx cy, InGrid 4 3 (cx, cy) →
          ((1 ≤ cx ∧ cx < 1 + 2 ∧ 1 ≤ cy ∧ cy < 1 + 2) →
            GridGet Grid1 (cy * 4 + cx) = some 1) ∧
          (¬ (1 ≤ cx ∧ cx < 1 + 2 ∧ 1 ≤ cy ∧ cy < 1 + 2) →
            GridGet Grid1 (cy * 4 + cx) =
              GridGet [0, 0, 0, 0, 0, 0, 0, 5, 0, 0, 0, 0] (cy * 4 + cx)) :=
  ⟨by decide, by decide,
    PlaceRoom_frame 4 3 [0, 0, 0, 0, 0, 0, 0, 5, 0, 0, 0, 0] [] 1 1 2 2 (by decide) (by decide)
      (by decide) (by decide) (by decide) (by decide) (by decide)⟩

/-! ## The pathfinder: where the path ends, and the costs along `CameFrom` -/

/-- The loop has a state after every number of iterations below one after which it has a
state. -/
theorem LoopStateAfter_of_le {D : Type} [LinearOrder D] [Add D] [NatCast D]
    (Dist : Pos → Pos → D) (ArraySort : SortFn) (W H : Int) (Grid : List Int)
    (Rooms : List FRoom) (S T : Pos) (j : Nat) :
    ∀ (k : Nat) (State : List Pos × NodeMap D), j ≤ k →
      LoopStateAfter Dist ArraySort W H Grid Rooms S T k = some State →
      ∃ Statej, LoopStateAfter Dist ArraySort W H Grid Rooms S T j = some Statej := by
  intro k
  induction k with
  | zero =>
    intro State hj h
    obtain rfl : j = 0 := by omega
    exact ⟨State, h⟩
  | succ k ih =>
    intro State hj h
    by_cases hjk : j = k + 1
    · rw [hjk]; exact ⟨State, h⟩
    · unfold LoopStateAfter at h
      cases hprev : LoopStateAfter Dist ArraySort W H Grid Rooms S T k with
      | none => rw [hprev] at h; simp at h
      | some Statek => exact ih Statek (by omega) hprev

/-- The node popped at an iteration that goes on fails the goal test. -/
theorem LoopStateAfter_popped_far {D : Type} [LinearOrder D] [Add D] [NatCast D]
    (Dist : Pos → Pos → D) {ArraySort : SortFn} (hSort : IsPermSort ArraySort) (W H : Int)
    (Grid : List Int) (Rooms : List FRoom) (S T : Pos) {j k : Nat} (hjk : j < k)
    {State : List Pos × NodeMap D}
    (hk : LoopStateAfter Dist ArraySort W H Grid Rooms S T k = some State)
    {Oj : List Pos} {Aj : NodeMap D}
    (hj : LoopStateAfter Dist ArraySort W H Grid Rooms S T j = some (Oj, Aj))
    {Cj : Pos} {Oj1 : List Pos} (hs : ArraySort (OpenSetLess Aj) Oj = Cj :: Oj1) :
    NearTarget Cj T = false := by
  obtain ⟨Statej1, hj1⟩ :=
    LoopStateAfter_of_le Dist ArraySort W H Grid Rooms S T (j + 1) k State (by omega) hk
  have hit : LoopIteration Dist ArraySort W H Grid Rooms S T (Oj, Aj) = some Statej1 := by
    have h := hj1
    unfold LoopStateAfter at h
    rw [hj] at h
    exact h
  obtain ⟨Current, O1, cn, -, hs1, hc, hfar, -⟩ := LoopIteration_cases hit
  rw [hs] at hs1
  obtain ⟨e1, -⟩ := List.cons.inj hs1
  have inv := LoopStateAfter_inv Dist hSort W H Grid Rooms S T j Oj Aj hj
  rw [inv.astar.position Current cn hc, ← e1] at hfar
  exact hfar

/-- A start that passes the goal test is the whole path. -/
theorem FindPath_start_near {D : Type} [LinearOrder D] [Add D] [NatCast D]
    (Dist : Pos → Pos → D) {ArraySort : SortFn} (hSort : IsPermSort ArraySort) (W H : Int)
    (Grid : List Int) (Rooms : List FRoom) (S T : Pos) (hnear : NearTarget S T = true) :
    FindPath Dist ArraySort W H Grid Rooms S T = some [S] := by
  have hperm : (ArraySort (OpenSetLess (Function.update (fun _ => none) S
      (some (⟨S, 0, Dist S T, none⟩ : FAStarNode D)))) [S]).Perm [S] := hSort _ _ _
  have hs := List.perm_singleton.mp hperm
  unfold FindPath FindPathLoop
  simp [hs, hnear, WalkBack]

/-- C23: `FindPath` returns, and every non-empty path it returns begins at the start
coordinate and ends at the first popped cell whose X and Y each differ from the target's
by at most 1: at the state after some number `k` of iterations the cell popped after the
sort passes that test and is the last cell of the path, and the cell popped at every
earlier iteration failed it.  When the start itself is within that tolerance of the
target, the path is the single cell start. -/
theorem FindPath_ends_at_first_near {D : Type} [LinearOrder D] [Add D] [NatCast D]
    (Dist : Pos → Pos → D) (ArraySort : SortFn) (hSort : IsPermSort ArraySort)
    (Width Height : Int) (Grid : List Int) (Rooms : List FRoom) (StartPos TargetPos : Pos) :
    ∃ Path, FindPath Dist ArraySort Width Height Grid Rooms StartPos TargetPos = some Path ∧
      (Path ≠ [] →
        Path.head? = some StartPos ∧
        ∃ (k : Nat) (OpenSet : List Pos) (AllNodes : NodeMap D) (Current : Pos)
          (OpenSet1 : List Pos),
          LoopStateAfter Dist ArraySort Width Height Grid Rooms StartPos TargetPos k
            = some (OpenSet, AllNodes) ∧
          ArraySort (OpenSetLess AllNodes) OpenSet = Current :: OpenSet1 ∧
          Path.getLast? = some Current ∧
          (|Current.1 - TargetPos.1| ≤ 1 ∧ |Current.2 - TargetPos.2| ≤ 1) ∧
          ∀ (j : Nat) (Oj : List Pos) (Aj : NodeMap D) (Cj : Pos) (Oj1 : List Pos), j < k →
            LoopStateAfter Dist ArraySort Width Height Grid Rooms StartPos TargetPos j
              = some (Oj, Aj) →
            ArraySort (OpenSetLess Aj) Oj = Cj :: Oj1 →
            ¬ (|Cj.1 - TargetPos.1| ≤ 1 ∧ |Cj.2 - TargetPos.2| ≤ 1)) ∧
      ((|StartPos.1 - TargetPos.1| ≤ 1 ∧ |StartPos.2 - TargetPos.2| ≤ 1) →
        Path = [StartPos]) := by
  obtain ⟨Path, hPath, -, k, O, A, hst, hres⟩ :=
    FindPath_run Dist hSort Width Height Grid Rooms StartPos TargetPos
  refine ⟨Path, hPath, ?_, ?_⟩
  · intro hne
    rcases hres with ⟨-, h0⟩ | ⟨Current, O1, cn, walk, hs, hcn, hnear, hw, rfl⟩
    · exact absurd h0 hne
    · have inv := LoopStateAfter_inv Dist hSort Width Height Grid Rooms StartPos TargetPos k O A hst
      obtain ⟨walk1, hw1, hhead, hlast, -, -⟩ :=
        WalkBack_spec inv.astar (cn.GCost + 1) Current cn hcn (Nat.lt_succ_self _)
      rw [hw] at hw1
      obtain rfl : walk = walk1 := Option.some.inj hw1
      refine ⟨by rw [List.head?_reverse]; exact hlast, k, O, A, Current, O1, hst, hs,
        by rw [List.getLast?_reverse]; exact hhead, NearTarget_iff.mp hnear, ?_⟩
      intro j Oj Aj Cj Oj1 hjk hj hsj hnearj
      have hfar := LoopStateAfter_popped_far Dist hSort Width Height Grid Rooms StartPos
        TargetPos hjk hst hj hsj
      rw [NearTarget_iff.mpr hnearj] at hfar
      exact absurd hfar (by decide)
  · intro hnear
    have h1 := FindPath_start_near Dist hSort Width Height Grid Rooms StartPos TargetPos
      (NearTarget_iff.mpr hnear)
    rw [hPath] at h1
    exact Option.some.inj h1

/-- C23, at a concrete input: the 4 x 1 empty grid from `(0, 0)` towards `(3, 0)`. -/
theorem FindPath_ends_at_first_near_witness :
    ∃ Path, FindPath SqDistPos InsertionSort 4 1 [0, 0, 0, 0] [] (0, 0) (3, 0) = some Path ∧
      (Path ≠ [] →
        Path.head? = some (0, 0) ∧
        ∃ (k : Nat) (OpenSet : List Pos) (AllNodes : NodeMap Int) (Current : Pos)
          (OpenSet1 : List Pos),
          LoopStateAfter SqDistPos InsertionSort 4 1 [0, 0, 0, 0] [] (0, 0) (3, 0) k
            = some (OpenSet, AllNodes) ∧
          InsertionSort (OpenSetLess AllNodes) OpenSet = Current :: OpenSet1 ∧
          Path.getLast? = some Current ∧
          (|Current.1 - ((3, 0) : Pos).1| ≤ 1 ∧ |Current.2 - ((3, 0) : Pos).2| ≤ 1) ∧
          ∀ (j : Nat) (Oj : List Pos) (Aj : NodeMap Int) (Cj : Pos) (Oj1 : List Pos), j < k →
            LoopStateAfter SqDistPos InsertionSort 4 1 [0, 0, 0, 0] [] (0, 0) (3, 0) j
              = some (Oj, Aj) →
            InsertionSort (OpenSetLess Aj) Oj = Cj :: Oj1 →
            ¬ (|Cj.1 - ((3, 0) : Pos).1| ≤ 1 ∧ |Cj.2 - ((3, 0) : Pos).2| ≤ 1)) ∧
      ((|((0, 0) : Pos).1 - ((3, 0) : Pos).1| ≤ 1 ∧ |((0, 0) : Pos).2 - ((3, 0) : Pos).2| ≤ 1) →
        Path = [(0, 0)]) :=
  FindPath_ends_at_first_near SqDistPos InsertionSort InsertionSort_perm 4 1 [0, 0, 0, 0] []
    (0, 0) (3, 0)

/-- C24: throughout `FindPath`, at the state after any number of iterations and after
any number of passes of the neighbor loop within an iteration, every node other than the
start node has a `CameFrom` node whose `GCost` is strictly smaller than its own; so the
walk along `CameFrom` from any node ends, within `GCost + 1` nodes, at the start and meets
no cell twice, and the path `FindPath` returns has no cell twice. -/
theorem FindPath_gcost_decreases_along_CameFrom {D : Type} [LinearOrder D] [Add D]
    [NatCast D] (Dist : Pos → Pos → D) (ArraySort : SortFn) (hSort : IsPermSort ArraySort)
    (Width Height : Int) (Grid : List Int) (Rooms : List FRoom) (StartPos TargetPos : Pos) :
    (∀ (n : Nat) (OpenSet : List Pos) (AllNodes : NodeMap D),
      LoopStateAfter Dist ArraySort Width Height Grid Rooms StartPos TargetPos n
        = some (OpenSet, AllNodes) →
      (∀ p Node, AllNodes p = some Node → p ≠ StartPos →
        ∃ q Pred, Node.CameFrom = some q ∧ AllNodes q = some Pred ∧
          Pred.GCost < Node.GCost) ∧
      (∀ p Node, AllNodes p = some Node →
        ∃ walk, WalkBack AllNodes (Node.GCost + 1) (some p) = some walk ∧
          walk.getLast? = some StartPos ∧ walk.Nodup) ∧
      (∀ Current OpenSet1 CurrentNode Done Todo,
        ArraySort (OpenSetLess AllNodes) OpenSet = Current :: OpenSet1 →
        AllNodes Current = some CurrentNode →
        GetNeighbors Width Height Grid Rooms CurrentNode.Position StartPos TargetPos
          = Done ++ Todo →
        ∀ p Node,
          (Done.foldl (Relax Dist TargetPos CurrentNode) (OpenSet1, AllNodes)).2 p
            = some Node →
          p ≠ StartPos →
          ∃ q Pred, Node.CameFrom = some q ∧
            (Done.foldl (Relax Dist TargetPos CurrentNode) (OpenSet1, AllNodes)).2 q
              = some Pred ∧
            Pred.GCost < Node.GCost)) ∧
    ∃ Path, FindPath Dist ArraySort Width Height Grid Rooms StartPos TargetPos = some Path ∧
      Path.Nodup := by
  constructor
  · intro n O A hst
    have inv := LoopStateAfter_inv Dist hSort Width Height Grid Rooms StartPos TargetPos n O A hst
    refine ⟨?_, ?_, ?_⟩
    · intro p Node hNode hp
      obtain ⟨q, m, h1, h2, h3, -⟩ := inv.astar.came_from p Node hNode hp
      exact ⟨q, m, h1, h2, h3⟩
    · intro p Node hNode
      obtain ⟨walk, hw, -, hlast, -, -⟩ :=
        WalkBack_spec inv.astar (Node.GCost + 1) p Node hNode (Nat.lt_succ_self _)
      exact ⟨walk, hw, hlast,
        (WalkBack_nodup inv.astar (Node.GCost + 1) p Node walk hNode hw).2⟩
    · intro Current O1 cn Done Todo hs hcn hnb p Node hNode hp
      have hperm : (Current :: O1).Perm O := by
        have hp : (ArraySort (OpenSetLess A) O).Perm O := hSort Pos (OpenSetLess A) O
        rw [hs] at hp
        exact hp
      have hpos : cn.Position = Current := inv.astar.position Current cn hcn
      have inv1 : AStarInv Width Height Grid Rooms StartPos TargetPos O1 A :=
        ⟨fun q hq => inv.astar.open_node q (hperm.subset (List.mem_cons_of_mem _ hq)),
          inv.astar.position, inv.astar.start_node, inv.astar.came_from, inv.astar.reach⟩
      have hmem : ∀ nb ∈ Done,
          nb ∈ GetNeighbors Width Height Grid Rooms cn.Position StartPos TargetPos := by
        intro nb hnbm
        rw [hnb]
        exact List.mem_append_left _ hnbm
      obtain ⟨inv2, -⟩ := Relax_foldl_spec (c := cn.Position) Dist cn Done O1 A inv1
        (by rw [hpos]; exact hcn) (fun nb hnbm => mem_GetNeighbors.mp (hmem nb hnbm))
      obtain ⟨q, m, h1, h2, h3, -⟩ := inv2.came_from p Node hNode hp
      exact ⟨q, m, h1, h2, h3⟩
  · obtain ⟨Path, hPath, -, hres⟩ :=
      FindPath_run Dist hSort Width Height Grid Rooms StartPos TargetPos
    exact ⟨Path, hPath, (hres.props hSort).2.1⟩

/-- C24, at a concrete input: the 3 x 2 grid with one blocked cell from `(0, 0)` towards
`(2, 1)`. -/
theorem FindPath_gcost_decreases_along_CameFrom_witness :
    ∃ Path, FindPath SqDistPos InsertionSort 3 2 [0, 0, 0, 0, 1, 0] [] (0, 0) (2, 1) = some Path ∧
      Path.Nodup :=
  (FindPath_gcost_decreases_along_CameFrom SqDistPos InsertionSort InsertionSort_perm 3 2
    [0, 0, 0, 0, 1, 0] [] (0, 0) (2, 1)).2

/-! ## The early exit of the edge loop -/

/-- Once all indices are in one class, the loop without the early exit accepts no further
connection. -/
theorem KruskalLoopNoBreak_one_class {D : Type} (n : Nat) :
    ∀ (es F : List (FRoomConnection D)) (P R : List Nat) (rep : Nat → Nat), UFInv n P R rep →
      (∀ i j, i < n → j < n → rep i = rep j) →
      (∀ c ∈ es, c.RoomIndexA < n ∧ c.RoomIndexB < n) →
      KruskalLoopNoBreak es P R F = some F := by
  intro es
  induction es with
  | nil => intro F P R rep _ _ _; rfl
  | cons c rest ih =>
    intro F P R rep inv hone hes
    have hc : c.RoomIndexA < n ∧ c.RoomIndexB < n := hes c (List.mem_cons_self _ _)
    obtain ⟨Pa, hFa, inva⟩ := Find_spec inv hc.1
    obtain ⟨Pb, hFb, invb⟩ := Find_spec inva hc.2
    unfold KruskalLoopNoBreak
    rw [hFa]
    dsimp only
    rw [hFb]
    dsimp only
    rw [if_neg (not_not.mpr (hone _ _ hc.1 hc.2))]
    exact ih F Pb R rep invb hone (fun d hd => hes d (List.mem_cons_of_mem _ hd))

/-- The edge loop with the early exit and the loop without it return the same list. -/
theorem KruskalLoop_eq_NoBreak {D : Type} (n : Nat) :
    ∀ (es F : List (FRoomConnection D)) (P R : List Nat) (rep : Nat → Nat), UFInv n P R rep →
      (∀ c ∈ es, c.RoomIndexA < n ∧ c.RoomIndexB < n) →
      rootCount n rep + F.length = n →
      KruskalLoop n es P R F = KruskalLoopNoBreak es P R F := by
  intro es
  induction es with
  | nil => intro F P R rep _ _ _; rfl
  | cons c rest ih =>
    intro F P R rep inv hes hcount
    have hc : c.RoomIndexA < n ∧ c.RoomIndexB < n := hes c (List.mem_cons_self _ _)
    have hrest : ∀ c ∈ rest, c.RoomIndexA < n ∧ c.RoomIndexB < n :=
      fun c hc => hes c (List.mem_cons_of_mem _ hc)
    obtain ⟨Pa, hFa, inva⟩ := Find_spec inv hc.1
    obtain ⟨Pb, hFb, invb⟩ := Find_spec inva hc.2
    unfold KruskalLoop KruskalLoopNoBreak
    rw [hFa]
    dsimp only
    rw [hFb]
    dsimp only
    by_cases hab : rep c.RoomIndexA = rep c.RoomIndexB
    · rw [if_neg (not_not.mpr hab), if_neg (not_not.mpr hab)]
      exact ih F Pb R rep invb hrest hcount
    · rw [if_pos (show rep c.RoomIndexA ≠ rep c.RoomIndexB from hab),
        if_pos (show rep c.RoomIndexA ≠ rep c.RoomIndexB from hab)]
      obtain ⟨P3, R3, rep3, hU, inv3, -, -, hroots⟩ := Union_spec invb hc.1 hc.2
      obtain ⟨x, hx, hrx, hx3⟩ := hroots hab
      rw [hU]
      dsimp only
      have hcount3 : rootCount n rep3 + (F ++ [c]).length = n := by
        have := rootCount_erase hx hrx hx3
        simp only [List.length_append, List.length_singleton]
        omega
      by_cases hlen : ((F ++ [c]).length : Int) = (n : Int) - 1
      · rw [if_pos hlen]
        have hroot1 : rootCount n rep3 = 1 := by omega
        have hone : ∀ i j, i < n → j < n → rep3 i = rep3 j :=
          (rootCount_eq_one_iff (by omega) inv3.rep_lt
            (fun i hi => inv3.root_rep _ (inv3.rep_lt i hi) (inv3.rep_root i hi))).mp hroot1
        exact (KruskalLoopNoBreak_one_class n rest (F ++ [c]) P3 R3 rep3 inv3 hone hrest).symm
      · rw [if_neg hlen]
        exact ih (F ++ [c]) P3 R3 rep3 inv3 hrest hcount3

/-- C25: the early exit in `KruskalsMST` keeps the result: for every room list, and
whatever rearrangement the sort makes of the connections, `KruskalsMST` with the
statement `if (MST.Num() == Rooms.Num() - 1) break;` and the same loop without it, which
processes every sorted connection, both return, and return the same list. -/
theorem KruskalsMST_break_keeps_result {D : Type} [LinearOrder D] (Dist : ℚ × ℚ → ℚ × ℚ → D)
    (ArraySort : SortFn) (hSort : IsPermSort ArraySort) (Rooms : List FRoom) :
    ∃ MST, KruskalsMST Dist ArraySort Rooms = some MST ∧
      KruskalsMSTNoBreak Dist ArraySort Rooms = some MST := by
  obtain ⟨MST, hMST, -⟩ := KruskalsMST_total Dist hSort Rooms
  refine ⟨MST, hMST, ?_⟩
  rw [← hMST]
  unfold KruskalsMST KruskalsMSTNoBreak
  symm
  refine KruskalLoop_eq_NoBreak Rooms.length _ [] _ _ id (UFInv_init _) ?_ ?_
  · intro c hc
    rw [mem_GenerateAllRoomConnections hSort, mem_AllPairs] at hc
    obtain ⟨i, j, _, _, hij, hj, _, _, rfl⟩ := hc
    exact ⟨by show i < _; omega, hj⟩
  · simp [rootCount_id]

/-- C25, at a concrete input: three rooms, three connections; the loop stops after the
second accepted connection and the third would be rejected. -/
theorem KruskalsMST_break_keeps_result_witness :
    ∃ MST, KruskalsMST SqDist InsertionSort
        [FRoom.new 0 0 4 4, FRoom.new 6 6 4 4, FRoom.new 0 6 5 4] = some MST ∧
      KruskalsMSTNoBreak SqDist InsertionSort
        [FRoom.new 0 0 4 4, FRoom.new 6 6 4 4, FRoom.new 0 6 5 4] = some MST :=
  KruskalsMST_break_keeps_result SqDist InsertionSort InsertionSort_perm
    [FRoom.new 0 0 4 4, FRoom.new 6 6 4 4, FRoom.new 0 6 5 4]

end Dungeon
